import Mathlib

/-!
# zSpace half-edge kernel: link setters of `zEdge`

Shallow embedding of `headers/geometry/zGeometryDatatypes.h`.  A half-edge
lives in a store (the heap of `zEdge` objects); a pointer `zEdge*` is
`Option Nat`: `none` is `nullptr`, `some i` addresses slot `i` of the store.
Dereferencing a null pointer or an address outside the store has no defined
result in the source and yields `none` here.
-/

namespace zSpace

/-- Pointer into one of the element stores; `none` is `nullptr`. -/
abbrev Ptr := Option Nat

/-- Class `zEdge`: the fields `edgeId`, `v`, `f`, `prev`, `next`, `sym`. -/
structure zEdge where
  edgeId : Int
  v : Ptr
  f : Ptr
  prev : Ptr
  next : Ptr
  sym : Ptr
deriving DecidableEq, Repr

/-- Default constructor `zEdge::zEdge()`. -/
def zEdge.zEdge : zEdge :=
  { edgeId := -2, sym := none, next := none, prev := none, v := none, f := none }

/-- Heap of half-edges, addressed by index. -/
abbrev EdgeStore := List zEdge

/-- Store through a pointer: `p->field = ...`, as an update `g` of the object at `p`. -/
def EdgeStore.write (s : EdgeStore) (p : Ptr) (g : zEdge → zEdge) : Option EdgeStore :=
  match p with
  | none => none
  | some i => if h : i < s.length then some (s.set i (g (s.get ⟨i, h⟩))) else none

/-- Load through a pointer: the object at `p`. -/
def EdgeStore.read (s : EdgeStore) (p : Ptr) : Option zEdge :=
  match p with
  | none => none
  | some i => s[i]?

/-- Method `zEdge::getSym` called on the object at `this`. -/
def getSym (s : EdgeStore) (this : Ptr) : Option Ptr := (s.read this).map zEdge.sym

/-- Method `zEdge::getPrev` called on the object at `this`. -/
def getPrev (s : EdgeStore) (this : Ptr) : Option Ptr := (s.read this).map zEdge.prev

/-- Method `zEdge::getNext` called on the object at `this`. -/
def getNext (s : EdgeStore) (this : Ptr) : Option Ptr := (s.read this).map zEdge.next

/-- Method `zEdge::getFace` called on the object at `this`. -/
def getFace (s : EdgeStore) (this : Ptr) : Option Ptr := (s.read this).map zEdge.f

/-- Method `zEdge::getVertex` called on the object at `this`. -/
def getVertex (s : EdgeStore) (this : Ptr) : Option Ptr := (s.read this).map zEdge.v

/-- Method `zEdge::getEdgeId` called on the object at `this`. -/
def getEdgeId (s : EdgeStore) (this : Ptr) : Option Int := (s.read this).map zEdge.edgeId

/-- Method `zEdge::setSym`: `this->sym = _sym; _sym->sym = this;`. -/
def setSym (s : EdgeStore) (this _sym : Ptr) : Option EdgeStore := do
  let s1 ← s.write this (fun e => { e with sym := _sym })
  s1.write _sym (fun e => { e with sym := this })

/-- Method `zEdge::setPrev`: `this->prev = _prev; _prev->next = this;`. -/
def setPrev (s : EdgeStore) (this _prev : Ptr) : Option EdgeStore := do
  let s1 ← s.write this (fun e => { e with prev := _prev })
  s1.write _prev (fun e => { e with next := this })

/-- Method `zEdge::setNext`: `this->next = _next; _next->prev = this;`. -/
def setNext (s : EdgeStore) (this _next : Ptr) : Option EdgeStore := do
  let s1 ← s.write this (fun e => { e with next := _next })
  s1.write _next (fun e => { e with prev := this })

/-- Method `zEdge::setVertex`: `this->v = _v;`. -/
def setVertex (s : EdgeStore) (this _v : Ptr) : Option EdgeStore :=
  s.write this (fun e => { e with v := _v })

/-- Method `zEdge::setFace`: `this->f = _f;`. -/
def setFace (s : EdgeStore) (this _f : Ptr) : Option EdgeStore :=
  s.write this (fun e => { e with f := _f })

/-- Method `zEdge::setEdgeId`: `this->edgeId = _edgeId;`. -/
def setEdgeId (s : EdgeStore) (this : Ptr) (_edgeId : Int) : Option EdgeStore :=
  s.write this (fun e => { e with edgeId := _edgeId })

/-- The next/previous invariant of a store: every half-edge with a non-null
`next` has `e.next.prev = e`, and every half-edge with a non-null `prev` has
`e.prev.next = e`. -/
def NextPrevInv (s : EdgeStore) : Prop :=
  ∀ e, e < s.length →
    (∀ x, getNext s (some e) = some (some x) → getPrev s (some x) = some (some e)) ∧
    (∀ y, getPrev s (some e) = some (some y) → getNext s (some y) = some (some e))

/-- The twin invariant of a store: every half-edge with a non-null twin has
`e.twin.twin = e`. -/
def TwinInv (s : EdgeStore) : Prop :=
  ∀ e, e < s.length →
    ∀ x, getSym s (some e) = some (some x) → getSym s (some x) = some (some e)

/-- Store of three half-edges in which `0 → 1` are linked by next/prev and `2` is fresh. -/
def linkedStore : EdgeStore :=
  [{ zEdge.zEdge with next := some 1 }, { zEdge.zEdge with prev := some 0 }, zEdge.zEdge]

/-- Store of three half-edges in which `0` and `1` are twins and `2` is fresh. -/
def twinnedStore : EdgeStore :=
  [{ zEdge.zEdge with sym := some 1 }, { zEdge.zEdge with sym := some 0 }, zEdge.zEdge]

/-- Store of four half-edges: `0 → 1` linked by next/prev, `2` and `3` fresh. -/
def linkedStore4 : EdgeStore := linkedStore ++ [zEdge.zEdge]

/-- Store of four half-edges: `0` and `1` twins, `2` and `3` fresh. -/
def twinnedStore4 : EdgeStore := twinnedStore ++ [zEdge.zEdge]

/-- Class `zVertex`: the fields `vertexId`, `e`. -/
structure zVertex where
  vertexId : Int
  e : Ptr
deriving DecidableEq, Repr

/-- Default constructor `zVertex::zVertex()`. -/
def zVertex.zVertex : zVertex := { vertexId := -2, e := none }

/-- Class `zFace`: the fields `faceId`, `e`. -/
structure zFace where
  faceId : Int
  e : Ptr
deriving DecidableEq, Repr

/-- Default constructor `zFace::zFace()`. -/
def zFace.zFace : zFace := { faceId := -2, e := none }

/-- A call of one of the six setters of `zEdge` on the object at `this`, with
its argument. -/
inductive SetterCall where
  | setSym (this _sym : Ptr)
  | setPrev (this _prev : Ptr)
  | setNext (this _next : Ptr)
  | setVertex (this _v : Ptr)
  | setFace (this _f : Ptr)
  | setEdgeId (this : Ptr) (_edgeId : Int)
deriving DecidableEq

namespace SetterCall

/-- The call executed on the store. -/
def run (s : EdgeStore) : SetterCall → Option EdgeStore
  | .setSym this _sym => zSpace.setSym s this _sym
  | .setPrev this _prev => zSpace.setPrev s this _prev
  | .setNext this _next => zSpace.setNext s this _next
  | .setVertex this _v => zSpace.setVertex s this _v
  | .setFace this _f => zSpace.setFace s this _f
  | .setEdgeId this _edgeId => zSpace.setEdgeId s this _edgeId

/-- The call is `setFace` on the half-edge at `i`. -/
def onFace (i : Nat) : SetterCall → Bool
  | .setFace this _ => decide (this = some i)
  | _ => false

/-- The call is `setVertex` on the half-edge at `i`. -/
def onVertex (i : Nat) : SetterCall → Bool
  | .setVertex this _ => decide (this = some i)
  | _ => false

/-- The call is `setEdgeId` on the half-edge at `i`. -/
def onEdgeId (i : Nat) : SetterCall → Bool
  | .setEdgeId this _ => decide (this = some i)
  | _ => false

/-- The call is `setSym` on the half-edge at `i` or with it as argument. -/
def onSym (i : Nat) : SetterCall → Bool
  | .setSym this _sym => decide (this = some i) || decide (_sym = some i)
  | _ => false

/-- The call is `setNext` on the half-edge at `i`, or `setPrev` with it as
argument. -/
def onNext (i : Nat) : SetterCall → Bool
  | .setNext this _ => decide (this = some i)
  | .setPrev _ _prev => decide (_prev = some i)
  | _ => false

/-- The call is `setPrev` on the half-edge at `i`, or `setNext` with it as
argument. -/
def onPrev (i : Nat) : SetterCall → Bool
  | .setPrev this _ => decide (this = some i)
  | .setNext _ _next => decide (_next = some i)
  | _ => false

end SetterCall

/-- A sequence of setter calls executed in order; a call through a null or
dangling pointer is `none`. -/
def runCalls (s : EdgeStore) : List SetterCall → Option EdgeStore
  | [] => some s
  | c :: cs => (c.run s).bind (fun s1 => runCalls s1 cs)

/-! ## Mesh function set

`zFnMesh.h` declares the mesh operators; their bodies (`zFnMesh.cpp`), the mesh
container behind `zObjMesh` and `zVector` are not part of the sources at hand.
The definitions below follow the specification (§3, §4.2, §4.4, §6) and the
declarations of `zFnMesh.h`, and are built on the `zEdge` setters above. -/

/-- Modelled from the spec: the class `zVector` of `headers/core/zVector.h`, a 3D
position (§3), with exact rational coordinates in place of `double`. -/
structure zVector where
  x : ℚ
  y : ℚ
  z : ℚ
deriving DecidableEq

/-- Modelled from the spec: rounding of one coordinate by a precision factor
(§4.4, "a rounding precision factor"): the coordinate rounded to
`precisionfactor` decimals, kept as the integer number of units `10^-precisionfactor`. -/
def factorise (c : ℚ) (precisionfactor : Nat) : ℤ := round (c * 10 ^ precisionfactor)

/-- Modelled from the spec: the rounded position of a vertex (§4.4, "rounded
position"), coordinate by coordinate. -/
def zVector.rounded (p : zVector) (precisionfactor : Nat) : ℤ × ℤ × ℤ :=
  (factorise p.x precisionfactor, factorise p.y precisionfactor, factorise p.z precisionfactor)

/-- Modelled from the spec: the mesh behind `zObjMesh` (§3, §4.1, §4.2): the
vertex records with their positions, the half-edge store, the logical
undirected edges as pairs of twin half-edges, the faces, and the half-edge
lookup keyed by the unordered pair of endpoint vertex identities.  An
identity is the position of the element in its store. -/
structure zMesh where
  vertices : List (zVertex × zVector)
  halfEdges : EdgeStore
  edges : List (Nat × Nat)
  faces : List zFace
  halfEdgesMap : List ((Nat × Nat) × Nat)
deriving DecidableEq

namespace zMesh

/-- Modelled from the spec: the mesh with no elements, as `zFnMesh::clear` leaves it. -/
def empty : zMesh :=
  { vertices := [], halfEdges := [], edges := [], faces := [], halfEdgesMap := [] }

/-- Modelled from the spec: `zFnMesh::numVertices`, the size of the vertex store. -/
def numVertices (m : zMesh) : Nat := m.vertices.length

/-- Modelled from the spec: `zFnMesh::numEdges`, the number of logical undirected edges. -/
def numEdges (m : zMesh) : Nat := m.edges.length

/-- Modelled from the spec: `zFnMesh::numHalfEdges`, the size of the half-edge store. -/
def numHalfEdges (m : zMesh) : Nat := m.halfEdges.length

/-- Modelled from the spec: `zFnMesh::numPolygons`, the size of the face store. -/
def numPolygons (m : zMesh) : Nat := m.faces.length

/-- Modelled from the spec: `zFnMesh::getVertexPositions`, the positions in identity order. -/
def getVertexPositions (m : zMesh) : List zVector := m.vertices.map Prod.snd

/-- Modelled from the spec: search "in identity order" (§4.4): the first index
of a list whose element satisfies `p`. -/
def firstIndex {α : Type} (p : α → Bool) : List α → Option Nat
  | [] => none
  | a :: as => if p a then some 0 else (firstIndex p as).map (· + 1)

/-- Modelled from the spec: `zFnMesh::vertexExists` (§4.4, tie-break): the first
vertex in identity order whose rounded position equals the rounded `pos`. -/
def vertexExists (m : zMesh) (pos : zVector) (precisionfactor : Nat := 6) : Option Nat :=
  firstIndex (fun q => decide (q.rounded precisionfactor = pos.rounded precisionfactor))
    m.getVertexPositions

/-- Modelled from the spec: `zFnMesh::addVertex` (§4.4): with `checkDuplicates`
and an existing vertex at the rounded position, that vertex and `false` (no
structural change); otherwise a new vertex, appended with the next identity,
and `true`.  The result is the mesh, the returned flag and the output vertex. -/
def addVertex (m : zMesh) (_pos : zVector) (checkDuplicates : Bool) : zMesh × Bool × Nat :=
  match (if checkDuplicates then m.vertexExists _pos else none) with
  | some id => (m, false, id)
  | none =>
    ({ m with vertices := m.vertices ++ [({ zVertex.zVertex with vertexId := m.numVertices }, _pos)] },
      true, m.numVertices)

/-- Modelled from the spec: the key of the half-edge lookup (§4.2), the
unordered pair of the two endpoint vertex identities. -/
def pairKey (v1 v2 : Nat) : Nat × Nat := (min v1 v2, max v1 v2)

/-- Modelled from the spec: `zFnMesh::halfEdgeExists` (§4.2): the half-edge
registered for the unordered pair `v1`, `v2`, if an edge between them exists. -/
def halfEdgeExists (m : zMesh) (v1 v2 : Nat) : Option Nat :=
  m.halfEdgesMap.lookup (pairKey v1 v2)

/-- Modelled from the spec: `zFnMesh::addEdges` (§4.4): between two existing
vertex identities, with `checkDuplicates` and an existing edge the registered
forward half-edge and `false`; otherwise a new half-edge pair (forward from
`v1` to `v2`, then its twin), twinned by `setSym`, with null next, previous and
face, registered in the lookup, and `true`.  The result is the mesh, the
returned flag and the output half-edge; `none` is the bounds error. -/
def addEdges (m : zMesh) (v1 v2 : Nat) (checkDuplicates : Bool) : Option (zMesh × Bool × Nat) :=
  if v1 < m.numVertices ∧ v2 < m.numVertices then
    match (if checkDuplicates then m.halfEdgeExists v1 v2 else none) with
    | some he => some (m, false, he)
    | none =>
      let h := m.numHalfEdges
      let store := m.halfEdges ++
        [{ zEdge.zEdge with edgeId := h, v := some v2 }, { zEdge.zEdge with edgeId := h + 1, v := some v1 }]
      match setSym store (some h) (some (h + 1)) with
      | none => none
      | some store1 =>
        some ({ m with
                halfEdges := store1
                edges := m.edges ++ [(h, h + 1)]
                halfEdgesMap := (pairKey v1 v2, h) :: m.halfEdgesMap }, true, h)
  else none

/-- The mesh after `addEdges` has allocated a half-edge pair from `v1` to `v2`:
the store after the twinning of the two appended half-edges. -/
def withNewEdge (m : zMesh) (v1 v2 : Nat) : zMesh :=
  { m with
    halfEdges := m.halfEdges ++
      [{ zEdge.zEdge with edgeId := m.numHalfEdges, v := some v2, sym := some (m.numHalfEdges + 1) },
       { zEdge.zEdge with edgeId := m.numHalfEdges + 1, v := some v1, sym := some m.numHalfEdges }]
    edges := m.edges ++ [(m.numHalfEdges, m.numHalfEdges + 1)]
    halfEdgesMap := (pairKey v1 v2, m.numHalfEdges) :: m.halfEdgesMap }

/-- Modelled from the spec: the consecutive pairs of a list (§4.4), closed by
the pair from its last element to `first`, the wraparound. -/
def closedPairs {α : Type} (first : α) : List α → List (α × α)
  | [] => []
  | [a] => [(a, first)]
  | a :: b :: rest => (a, b) :: closedPairs first (b :: rest)

/-- Modelled from the spec: the sides of a polygon (§4.4), "each consecutive
vertex pair (including wraparound)". -/
def polygonSides {α : Type} (fVertices : List α) : List (α × α) :=
  match fVertices with
  | [] => []
  | a :: rest => closedPairs a (a :: rest)

/-- Modelled from the spec: of the edge whose registered half-edge is `he`, the
half-edge that runs towards vertex `v2`: `he` itself when its vertex is `v2`,
its twin otherwise. -/
def sideHalfEdge (s : EdgeStore) (he v2 : Nat) : Option Nat := do
  let e ← s.read (some he)
  if e.v = some v2 then some he else e.sym

/-- Modelled from the spec: first step of `addPolygon` (§4.4): "for each
consecutive vertex pair, ensures an edge exists (creating if necessary)";
returns the half-edge of each side, in order. -/
def ensureEdges (m : zMesh) : List (Nat × Nat) → Option (zMesh × List Nat)
  | [] => some (m, [])
  | (v1, v2) :: rest => do
    let (m1, _, he) ← m.addEdges v1 v2 true
    let h ← sideHalfEdge m1.halfEdges he v2
    let (m2, hs) ← ensureEdges m1 rest
    some (m2, h :: hs)

/-- Modelled from the spec: the face claims the half-edges of its boundary
loop (§4.4, §7): a half-edge already bound to a face is the structural error
`none`, "a half-edge may bound at most one face". -/
def claimFaces (s : EdgeStore) (f : Nat) : List Nat → Option EdgeStore
  | [] => some s
  | h :: hs => do
    let e ← s.read (some h)
    if e.f ≠ none then none
    else
      let s1 ← setFace s (some h) (some f)
      claimFaces s1 f hs

/-- Modelled from the spec: "links the half-edges' next/previous into the new
face's boundary loop" (§4.4), one `setNext` per pair of consecutive sides. -/
def linkLoop (s : EdgeStore) : List (Nat × Nat) → Option EdgeStore
  | [] => some s
  | (h, h1) :: rest => do
    let s1 ← setNext s (some h) (some h1)
    linkLoop s1 rest

/-- Modelled from the spec: `zFnMesh::addPolygon` on vertex identities (§4.4):
fewer than 3 vertices is an error; the edges of the sides are ensured, their
half-edges claimed by the new face and linked into its loop, and the face
refers to the first of them.  The result is the mesh, the returned flag and
the output face; `none` is an error, the mesh being left as it was. -/
def addPolygon (m : zMesh) (fVertices : List Nat) : Option (zMesh × Bool × Nat) :=
  if fVertices.length < 3 then none
  else do
    let (m1, hs) ← ensureEdges m (polygonSides fVertices)
    let f := m1.numPolygons
    let s1 ← claimFaces m1.halfEdges f hs
    let s2 ← linkLoop s1 (polygonSides hs)
    some ({ m1 with
            halfEdges := s2
            faces := m1.faces ++ [{ zFace.zFace with faceId := f, e := hs.head? }] }, true, f)

/-- Modelled from the spec: vertices added one by one with `addVertex`, in
order, with the identities output (§4.4, §6). -/
def addVertices (m : zMesh) (checkDuplicates : Bool) : List zVector → zMesh × List Nat
  | [] => (m, [])
  | p :: ps =>
    let r := m.addVertex p checkDuplicates
    let rs := addVertices r.1 checkDuplicates ps
    (rs.1, r.2.2 :: rs.2)

/-- Modelled from the spec: `zFnMesh::addPolygon` on vertex positions (§8, the
unit-square scenario, "yields 4 vertices"): each position of the polygon
becomes a vertex of the mesh, added with `addVertex` (the specification
states no merging of the positions of a polygon), and the polygon is added on
the identities obtained. -/
def addPolygonPositions (m : zMesh) (fVertices : List zVector) : Option (zMesh × Bool × Nat) :=
  let r := addVertices m false fVertices
  r.1.addPolygon r.2

/-- Modelled from the spec: the walk "via repeated `next`" (§4.3) from `cur`
until `start` is reached again, at most `fuel` steps; a null `next` or the fuel
running out is `none`. -/
def faceLoopAux (s : EdgeStore) (start : Nat) : Nat → Nat → Option (List Nat)
  | 0, _ => none
  | fuel + 1, cur => do
    let e ← s.read (some cur)
    let nxt ← e.next
    if nxt = start then some [cur] else (faceLoopAux s start fuel nxt).map (cur :: ·)

/-- Modelled from the spec: the ordered loop of boundary half-edges of a face
(§4.3), "via repeated `next`" from the face's reference half-edge. -/
def faceHalfEdges (m : zMesh) (f : zFace) : Option (List Nat) := do
  let start ← f.e
  faceLoopAux m.halfEdges start m.halfEdges.length start

/-- Modelled from the spec: the vertex of each half-edge of a loop, in order (§4.3). -/
def loopVertices (s : EdgeStore) : List Nat → Option (List Nat)
  | [] => some []
  | h :: hs => do
    let e ← s.read (some h)
    let v ← e.v
    let vs ← loopVertices s hs
    some (v :: vs)

/-- Modelled from the spec: the ordered loop of boundary vertices of a face
(§4.3): the vertex of each half-edge of its loop. -/
def faceVertices (m : zMesh) (f : zFace) : Option (List Nat) := do
  let hs ← m.faceHalfEdges f
  loopVertices m.halfEdges hs

/-- Modelled from the spec: the vertex loops of a list of faces of the mesh, in
order (§6). -/
def faceLoopsOf (m : zMesh) : List zFace → Option (List (List Nat))
  | [] => some []
  | f :: fs => do
    let l ← m.faceVertices f
    let ls ← faceLoopsOf m fs
    some (l :: ls)

/-- Modelled from the spec: the vertex loops of all faces, in identity order (§6). -/
def faceLoops (m : zMesh) : Option (List (List Nat)) := m.faceLoopsOf m.faces

/-- Modelled from the spec: `zFnMesh::getPolygonData` (§6): the flattened
vertex-index array of the faces (`polyConnects`) and the number of vertices
per polygon (`polyCounts`). -/
def getPolygonData (m : zMesh) : Option (List Nat × List Nat) :=
  m.faceLoops.map (fun loops => (loops.flatten, loops.map List.length))

/-- Modelled from the spec: `polyConnects` cut into polygons of the sizes
`polyCounts` (§6); reading past the end of `polyConnects` is `none`. -/
def splitPolygons : List Nat → List Nat → Option (List (List Nat))
  | [], _ => some []
  | c :: cs, connects =>
    if connects.length < c then none
    else (splitPolygons cs (connects.drop c)).map (connects.take c :: ·)

/-- Modelled from the spec: polygons added one by one with `addPolygon`, in
order (§6); an error of one of them is an error of the whole. -/
def addPolygons (m : zMesh) : List (List Nat) → Option zMesh
  | [] => some m
  | p :: ps => do
    let r ← m.addPolygon p
    addPolygons r.1 ps

/-- Modelled from the spec: `zFnMesh::create` (§6): a mesh rebuilt from the
positions, one vertex per position in order, and the polygons described by
`polyCounts` and `polyConnects`, each added with `addPolygon`. -/
def create (_positions : List zVector) (polyCounts polyConnects : List Nat) : Option zMesh := do
  let polys ← splitPolygons polyCounts polyConnects
  addPolygons (addVertices empty false _positions).1 polys

/-- Half-edge `h` of the store runs from vertex `a` to vertex `b`: its vertex is
`b`, and it is twinned with a half-edge whose vertex is `a`. -/
def IsSide (s : EdgeStore) (h a b : Nat) : Prop :=
  ∃ e t te, s[h]? = some e ∧ e.v = some b ∧ e.sym = some t ∧
    s[t]? = some te ∧ te.v = some a ∧ te.sym = some h

/-- Consistency of a mesh under construction with the polygon sides `used` so
far: every registered half-edge runs between the two vertices of its key, and
every half-edge bound to a face runs along one of the sides used. -/
structure Built (m : zMesh) (used : List (Nat × Nat)) : Prop where
  registered : ∀ k h, m.halfEdgesMap.lookup k = some h →
    ∃ a b, IsSide m.halfEdges h a b ∧ pairKey a b = k
  bound : ∀ (h : Nat) (e : zEdge), m.halfEdges[h]? = some e → e.f ≠ none →
    ∃ a b, IsSide m.halfEdges h a b ∧ (a, b) ∈ used

/-- The store `s1` is `s` with fresh half-edges, bound to no face, appended. -/
def Grows (s s1 : EdgeStore) : Prop := ∃ ext, s1 = s ++ ext ∧ ∀ e ∈ ext, e.f = none

/-- Every half-edge of `s` bound to a face is the same record in `s1`. -/
def Frame (s s1 : EdgeStore) : Prop :=
  ∀ (h : Nat) (e : zEdge), s[h]? = some e → e.f ≠ none → s1[h]? = some e

/-- The half-edges `hs`, all bound to a face, are linked by `next` into one
closed loop, and `vs` are their vertices in order. -/
def LoopOf (s : EdgeStore) (hs vs : List Nat) : Prop :=
  hs.Nodup ∧
  (∀ pr ∈ polygonSides hs, ∃ e, s[pr.1]? = some e ∧ e.next = some pr.2 ∧ e.f ≠ none) ∧
  List.Forall₂ (fun h v => ∃ e, s[h]? = some e ∧ e.v = some v ∧ e.f ≠ none) hs vs

/-- Each face of the list refers to the first half-edge of a closed loop whose
vertices are the corresponding polygon, rotated by one. -/
def AllLoops (s : EdgeStore) (faces : List zFace) (polys : List (List Nat)) : Prop :=
  List.Forall₂ (fun (f : zFace) (p : List Nat) =>
    ∃ h hs, f.e = some h ∧ LoopOf s (h :: hs) (p.rotate 1)) faces polys

/-- The half-edge that the construction operators take for the side from `a`
to `b`: of the edge registered for the pair, the half-edge that runs towards
`b`. -/
def sideHalf (m : zMesh) (a b : Nat) : Option Nat :=
  (m.halfEdgeExists a b).bind (fun he => sideHalfEdge m.halfEdges he b)

/-- Consistency of a mesh with the polygons `done` that its faces were built
from (§3, §8): it is consistent with their sides, every face is a closed loop
through its polygon, the half-edge taken for each side is bound to a face,
every polygon has at least 3 existing vertices, and no ordered pair of
vertices is a side twice. -/
structure Sound (m : zMesh) (done : List (List Nat)) : Prop where
  built : Built m (done.flatMap polygonSides)
  loops : AllLoops m.halfEdges m.faces done
  taken : ∀ sd ∈ done.flatMap polygonSides, ∃ (h : Nat) (e : zEdge),
    sideHalf m sd.1 sd.2 = some h ∧ m.halfEdges[h]? = some e ∧ e.f ≠ none
  valid : ∀ p ∈ done, 3 ≤ p.length ∧ ∀ v ∈ p, v < m.numVertices
  nodup : (done.flatMap polygonSides).Nodup

/-- The unit square `(0,0), (1,0), (1,1), (0,1)` of the §8 scenario. -/
def unitSquare : List zVector := [⟨0, 0, 0⟩, ⟨1, 0, 0⟩, ⟨1, 1, 0⟩, ⟨0, 1, 0⟩]

/-- Two triangles `0 1 2` and `2 1 3` on the corners of the unit square. -/
def twoTriangles : zMesh := (create unitSquare [3, 3] [0, 1, 2, 2, 1, 3]).getD empty

end zMesh

/-- Mesh with the two vertices `(0,0,0)` and `(1,0,0)`. -/
def twoVertexMesh : zMesh :=
  ((zMesh.empty.addVertex ⟨0, 0, 0⟩ true).1.addVertex ⟨1, 0, 0⟩ true).1

/-! ## Vector and matrix utilities

Shallow embedding of `headers/core/zVectorMatrixUtilities.h`.  In this section
a `double` is a rational number and arithmetic is exact, and the square root
of the library is a parameter `sqrt : ℚ → ℚ`: it holds
`plane_planeIntersection` and the matrix functions, and the exact geometry
that the results of the other functions are compared with.  The functions
`line_lineClosestPoints`, `line_PlaneIntersection` and `triangleArea`, whose
results depend on rounding, are embedded over IEEE 754 binary64 arithmetic in
the sections after this one. -/

namespace zVector

/-- Modelled from the spec: `zVector::operator+` of the absent `zVector.h`, the
sum of two vectors. -/
def add (a b : zVector) : zVector := ⟨a.x + b.x, a.y + b.y, a.z + b.z⟩

/-- Modelled from the spec: `zVector::operator-` of the absent `zVector.h`, the
difference of two vectors. -/
def sub (a b : zVector) : zVector := ⟨a.x - b.x, a.y - b.y, a.z - b.z⟩

/-- Modelled from the spec: `zVector::operator*(zVector)` of the absent
`zVector.h`, the dot product. -/
def dot (a b : zVector) : ℚ := a.x * b.x + a.y * b.y + a.z * b.z

/-- Modelled from the spec: `zVector::operator*(double)` of the absent
`zVector.h`, the product with a scalar. -/
def scale (a : zVector) (val : ℚ) : zVector := ⟨a.x * val, a.y * val, a.z * val⟩

/-- Modelled from the spec: `zVector::operator^` of the absent `zVector.h`, the
cross product. -/
def cross (a b : zVector) : zVector :=
  ⟨a.y * b.z - a.z * b.y, a.z * b.x - a.x * b.z, a.x * b.y - a.y * b.x⟩

/-- Modelled from the spec: `zVector::length` of the absent `zVector.h`, the
square root of `x*x + y*y + z*z`. -/
def length (sqrt : ℚ → ℚ) (a : zVector) : ℚ := sqrt (a.x * a.x + a.y * a.y + a.z * a.z)

end zVector

/-- Function `plane_planeIntersection`.  The result is the returned flag and
the values of `outP1` and `outP2` after the call. -/
def plane_planeIntersection (sqrt : ℚ → ℚ) (nA nB pA pB outP1 outP2 : zVector) :
    Bool × zVector × zVector :=
  let out := false
  if (nA.cross nB).length sqrt > 0 then
    let detr := (nA.dot nA) * (nB.dot nB) - (nA.dot nB) * (nA.dot nB)
    let d1 := nA.dot pA
    let d2 := nB.dot pB
    let c1 := (d1 * (nB.dot nB) - d2 * (nA.dot nB)) / detr
    let c2 := (d2 * (nA.dot nA) - d1 * (nA.dot nB)) / detr
    (out, outP1, outP2)
  else (out, outP1, outP2)

/-- Three points are collinear: they lie on one line `a + t d`. -/
def Collinear (v1 v2 v3 : zVector) : Prop :=
  ∃ (a d : zVector) (t1 t2 t3 : ℚ),
    v1 = a.add (d.scale t1) ∧ v2 = a.add (d.scale t2) ∧ v3 = a.add (d.scale t3)

/-- Exception `std::invalid_argument` of the C++ standard library, with its message. -/
inductive StdException where
  | invalid_argument (what : String)
deriving DecidableEq, Repr

/-- Modelled from the spec: the class `zMatrix<T>` of the absent
`headers/core/zMatrix.h`: the number of rows and of columns and the values,
here rational numbers. -/
structure zMatrix where
  rows : Nat
  cols : Nat
  mat : Matrix (Fin rows) (Fin cols) ℚ

namespace zMatrix

/-- Modelled from the spec: the default constructor `zMatrix::zMatrix()` of the
absent `zMatrix.h`, a 4x4 matrix (the utilities write its entries up to row 2 and
column 3 right after `setIdentity`). -/
def zMatrix : zMatrix := ⟨4, 4, 0⟩

/-- The 4x4 matrix with the given values. -/
def of4 (M : Matrix (Fin 4) (Fin 4) ℚ) : zSpace.zMatrix := ⟨4, 4, M⟩

/-- Modelled from the spec: `zMatrix::getNumRows` of the absent `zMatrix.h`. -/
def getNumRows (m : zSpace.zMatrix) : Nat := m.rows

/-- Modelled from the spec: `zMatrix::getNumCols` of the absent `zMatrix.h`. -/
def getNumCols (m : zSpace.zMatrix) : Nat := m.cols

/-- Modelled from the spec: `zMatrix::setIdentity` of the absent `zMatrix.h`: ones
on the diagonal, zeros elsewhere. -/
def setIdentity (m : zSpace.zMatrix) : zSpace.zMatrix :=
  ⟨m.rows, m.cols, fun i j => if i.val = j.val then 1 else 0⟩

/-- Modelled from the spec: `zMatrix::operator()` of the absent `zMatrix.h`, read
of the value at `(row, col)`; the utilities read inside the matrix only. -/
def get (m : zSpace.zMatrix) (row col : Nat) : ℚ :=
  if h : row < m.rows ∧ col < m.cols then m.mat ⟨row, h.1⟩ ⟨col, h.2⟩ else 0

/-- Modelled from the spec: `zMatrix::operator()` of the absent `zMatrix.h`, write
of the value at `(row, col)`. -/
def set (m : zSpace.zMatrix) (row col : Nat) (val : ℚ) : zSpace.zMatrix :=
  ⟨m.rows, m.cols, fun i j => if i.val = row ∧ j.val = col then val else m.mat i j⟩

/-- Modelled from the spec: `zMatrix::operator*` of the absent `zMatrix.h`, the
matrix product; `invalid_argument` when the columns of the first do not match
the rows of the second. -/
def mul (A B : zSpace.zMatrix) : Except StdException zSpace.zMatrix :=
  if h : A.cols = B.rows then
    .ok ⟨A.rows, B.cols, fun i j => ∑ k : Fin A.cols, A.mat i k * B.mat (Fin.cast h k) j⟩
  else .error (.invalid_argument "input Matrix rows doesnt match current matrix columns.")

/-- A matrix is 4x4. -/
def Is4x4 (m : zSpace.zMatrix) : Prop := m.rows = 4 ∧ m.cols = 4

end zMatrix

/-- Function `toWorldMatrix`. -/
def toWorldMatrix (inMatrix : zMatrix) : Except StdException zMatrix :=
  if inMatrix.getNumCols ≠ inMatrix.getNumRows then
    .error (.invalid_argument "input Matrix is not a square.")
  else if inMatrix.getNumCols ≠ 4 then
    .error (.invalid_argument "input Matrix is not a 4X4 matrix.")
  else
    let outMatrix := zMatrix.zMatrix.setIdentity
    let X : zVector := ⟨inMatrix.get 0 0, inMatrix.get 1 0, inMatrix.get 2 0⟩
    let Y : zVector := ⟨inMatrix.get 0 1, inMatrix.get 1 1, inMatrix.get 2 1⟩
    let Z : zVector := ⟨inMatrix.get 0 2, inMatrix.get 1 2, inMatrix.get 2 2⟩
    let Cen : zVector := ⟨inMatrix.get 0 3, inMatrix.get 1 3, inMatrix.get 2 3⟩
    let outMatrix := ((outMatrix.set 0 0 X.x).set 0 1 Y.x).set 0 2 Z.x
    let outMatrix := ((outMatrix.set 1 0 X.y).set 1 1 Y.y).set 1 2 Z.y
    let outMatrix := ((outMatrix.set 2 0 X.z).set 2 1 Y.z).set 2 2 Z.z
    let outMatrix := ((outMatrix.set 0 3 Cen.x).set 1 3 Cen.y).set 2 3 Cen.z
    .ok outMatrix

/-- Function `toLocalMatrix`. -/
def toLocalMatrix (inMatrix : zMatrix) : Except StdException zMatrix :=
  if inMatrix.getNumCols ≠ inMatrix.getNumRows then
    .error (.invalid_argument "input Matrix is not a square.")
  else if inMatrix.getNumCols ≠ 4 then
    .error (.invalid_argument "input Matrix is not a 4X4 matrix.")
  else
    let outMatrix := zMatrix.zMatrix.setIdentity
    let X : zVector := ⟨inMatrix.get 0 0, inMatrix.get 1 0, inMatrix.get 2 0⟩
    let Y : zVector := ⟨inMatrix.get 0 1, inMatrix.get 1 1, inMatrix.get 2 1⟩
    let Z : zVector := ⟨inMatrix.get 0 2, inMatrix.get 1 2, inMatrix.get 2 2⟩
    let Cen : zVector := ⟨inMatrix.get 0 3, inMatrix.get 1 3, inMatrix.get 2 3⟩
    let orig : zVector := ⟨0, 0, 0⟩
    let d := Cen.sub orig
    let outMatrix := ((outMatrix.set 0 0 X.x).set 0 1 X.y).set 0 2 X.z
    let outMatrix := ((outMatrix.set 1 0 Y.x).set 1 1 Y.y).set 1 2 Y.z
    let outMatrix := ((outMatrix.set 2 0 Z.x).set 2 1 Z.y).set 2 2 Z.z
    let outMatrix := ((outMatrix.set 0 3 (-(X.dot d))).set 1 3 (-(Y.dot d))).set 2 3 (-(Z.dot d))
    .ok outMatrix

/-- Function `PlanetoPlane`.  Its two guards name `inMatrix`, which is not a
parameter of the function (the parameters are `from` and `to`, here `fromM` and
`toM`) nor declared in the header; whatever the name refers to is the first
argument here. -/
def PlanetoPlane (inMatrix fromM toM : zMatrix) : Except StdException zMatrix :=
  if inMatrix.getNumCols ≠ inMatrix.getNumRows then
    .error (.invalid_argument "input Matrix is not a square.")
  else if inMatrix.getNumCols ≠ 4 then
    .error (.invalid_argument "input Matrix is not a 4X4 matrix.")
  else
    match toWorldMatrix toM with
    | .error e => .error e
    | .ok world =>
      match toLocalMatrix fromM with
      | .error e => .error e
      | .ok localM => world.mul localM

/-- The values of the matrix that `toWorldMatrix` builds from a 4x4 matrix. -/
def worldOf (M : Matrix (Fin 4) (Fin 4) ℚ) : Matrix (Fin 4) (Fin 4) ℚ :=
  !![M 0 0, M 0 1, M 0 2, M 0 3;
     M 1 0, M 1 1, M 1 2, M 1 3;
     M 2 0, M 2 1, M 2 2, M 2 3;
     0, 0, 0, 1]

/-- The values of the matrix that `toLocalMatrix` builds from a 4x4 matrix. -/
def localOf (M : Matrix (Fin 4) (Fin 4) ℚ) : Matrix (Fin 4) (Fin 4) ℚ :=
  !![M 0 0, M 1 0, M 2 0, -(M 0 0 * M 0 3 + M 1 0 * M 1 3 + M 2 0 * M 2 3);
     M 0 1, M 1 1, M 2 1, -(M 0 1 * M 0 3 + M 1 1 * M 1 3 + M 2 1 * M 2 3);
     M 0 2, M 1 2, M 2 2, -(M 0 2 * M 0 3 + M 1 2 * M 1 3 + M 2 2 * M 2 3);
     0, 0, 0, 1]

/-- Frame whose three axis columns are orthonormal. -/
def zMatrix.AxesOrthonormal (m : zSpace.zMatrix) : Prop :=
  let X : zVector := ⟨m.get 0 0, m.get 1 0, m.get 2 0⟩
  let Y : zVector := ⟨m.get 0 1, m.get 1 1, m.get 2 1⟩
  let Z : zVector := ⟨m.get 0 2, m.get 1 2, m.get 2 2⟩
  X.dot X = 1 ∧ Y.dot Y = 1 ∧ Z.dot Z = 1 ∧ X.dot Y = 0 ∧ X.dot Z = 0 ∧ Y.dot Z = 0

/-- The 3x3 identity matrix. -/
def identity3 : zMatrix := ⟨3, 3, 1⟩

/-! ## IEEE 754 binary64 arithmetic

The type `double` of the numerical utilities: 53 significant bits, exponents
from `-1022` to `1023`, gradual underflow, signed zeros, infinities and NaN,
and the default rounding, to nearest with ties to even.  A finite non-zero
value is held as the rational number it denotes; the operations return
representable numbers only. -/

/-- A value of the C++ type `double` (IEEE 754 binary64): a NaN, an infinity, a
zero with its sign bit, or a non-zero finite number, held as the rational
number it denotes. -/
inductive Double where
  | nan : Double
  | inf (neg : Bool) : Double
  | zero (neg : Bool) : Double
  | fin (q : ℚ) : Double
deriving DecidableEq

namespace Double

/-- The power `2 ^ e` of two, as a rational number. -/
def pow2 : ℤ → ℚ
  | Int.ofNat n => ((2 ^ n : ℕ) : ℚ)
  | Int.negSucc n => 1 / ((2 ^ (n + 1) : ℕ) : ℚ)

/-- Halving `n` down to `1`, counting the steps. -/
def log2Aux : Nat → Nat → Nat
  | 0, _ => 0
  | fuel + 1, n => if n < 2 then 0 else log2Aux fuel (n / 2) + 1

/-- The binary logarithm of a positive natural number, rounded down. -/
def log2 (n : Nat) : Nat := log2Aux n n

/-- The binary exponent of a positive rational `a`: the integer `e` with
`2 ^ e ≤ a < 2 ^ (e + 1)`. -/
def ilog2 (a : ℚ) : ℤ :=
  let k : ℤ := (log2 a.num.natAbs : ℤ) - (log2 a.den : ℤ)
  if pow2 k ≤ a then k else k - 1

/-- The integer nearest to the non-negative rational `x`, the even one of the
two on a tie. -/
def roundEven (x : ℚ) : ℕ :=
  let f := x.num.natAbs / x.den
  let r := x - f
  if r < 1 / 2 then f else if 1 / 2 < r then f + 1 else if f % 2 = 0 then f else f + 1

/-- Rounding of a rational number to binary64, to nearest and ties to even
(the default rounding mode): 53 significant bits, exponents from `-1022`
(gradual underflow below) to `1023` (overflow to an infinity above). -/
def round (q : ℚ) : Double :=
  let a := |q|
  let e := max (ilog2 a) (-1022)
  let t := pow2 (e - 52)
  let n := roundEven (a / t)
  let r := (n : ℚ) * t
  if pow2 1024 ≤ r then inf (decide (q < 0))
  else if n = 0 then zero (decide (q < 0))
  else fin (if q < 0 then -r else r)

/-- The sign bit. -/
def sign : Double → Bool
  | nan => false
  | inf s => s
  | zero s => s
  | fin q => decide (q < 0)

/-- The number a finite value denotes. -/
def val : Double → Option ℚ
  | zero _ => some 0
  | fin q => some q
  | _ => none

/-- The conversion of an integer (exact for integers of at most 53 bits). -/
def ofInt (n : ℤ) : Double := if n = 0 then zero false else round n

/-- Unary minus. -/
def neg : Double → Double
  | nan => nan
  | inf s => inf (!s)
  | zero s => zero (!s)
  | fin q => fin (-q)

/-- Addition `a + b`. -/
def add : Double → Double → Double
  | nan, _ => nan
  | _, nan => nan
  | inf s, inf s1 => if s = s1 then inf s else nan
  | inf s, _ => inf s
  | _, inf s => inf s
  | zero s, zero s1 => zero (s && s1)
  | zero _, fin q => fin q
  | fin q, zero _ => fin q
  | fin q, fin q1 => if q + q1 = 0 then zero false else round (q + q1)

/-- Subtraction `a - b`. -/
def sub (a b : Double) : Double := add a (neg b)

/-- Multiplication `a * b`. -/
def mul : Double → Double → Double
  | nan, _ => nan
  | _, nan => nan
  | inf _, zero _ => nan
  | zero _, inf _ => nan
  | inf s, b => inf (xor s b.sign)
  | a, inf s => inf (xor a.sign s)
  | zero s, b => zero (xor s b.sign)
  | a, zero s => zero (xor a.sign s)
  | fin q, fin q1 => round (q * q1)

/-- Division `a / b`. -/
def div : Double → Double → Double
  | nan, _ => nan
  | _, nan => nan
  | inf _, inf _ => nan
  | zero _, zero _ => nan
  | inf s, b => inf (xor s b.sign)
  | a, inf s => zero (xor a.sign s)
  | a, zero s => inf (xor a.sign s)
  | zero s, b => zero (xor s b.sign)
  | fin q, fin q1 => round (q / q1)

/-- The integer square root, bit by bit from bit `k - 1` down. -/
def sqrtBits (n : Nat) : Nat → Nat → Nat
  | 0, acc => acc
  | k + 1, acc => sqrtBits n k (if (acc + 2 ^ k) * (acc + 2 ^ k) ≤ n then acc + 2 ^ k else acc)

/-- The integer square root: the largest `r` with `r * r ≤ n`. -/
def isqrt (n : Nat) : Nat := sqrtBits n (log2 n / 2 + 1) 0

/-- The integer nearest to the square root of the non-negative rational `x`,
the even one of the two on a tie. -/
def sqrtEven (x : ℚ) : ℕ :=
  let f := isqrt (x.num.natAbs / x.den)
  let c : ℚ := (f : ℚ) + 1 / 2
  if x < c * c then f else if c * c < x then f + 1 else if f % 2 = 0 then f else f + 1

/-- The square root `sqrt(a)`, correctly rounded: for a positive number with
the binary exponent `2 * e` or `2 * e + 1`, the root has the exponent `e`, and
its 53-bit significand is the nearest integer to the root of the number scaled
by the square of the unit in the last place. -/
def sqrt : Double → Double
  | nan => nan
  | inf s => if s then nan else inf false
  | zero s => zero s
  | fin q =>
    if q < 0 then nan
    else fin ((sqrtEven (q / (pow2 (ilog2 q / 2 - 52) * pow2 (ilog2 q / 2 - 52))) : ℚ) *
      pow2 (ilog2 q / 2 - 52))

/-- Position in the order of the extended reals; none for a NaN. -/
def key : Double → Option (ℤ × ℚ)
  | nan => none
  | inf s => some (if s then -1 else 1, 0)
  | zero _ => some (0, 0)
  | fin q => some (0, q)

/-- The comparison `a != b`. -/
def ne (a b : Double) : Bool :=
  match a.key, b.key with
  | some x, some y => decide (x ≠ y)
  | _, _ => true

/-- The comparison `a <= b`. -/
def le (a b : Double) : Bool :=
  match a.key, b.key with
  | some x, some y => decide (x.1 < y.1 ∨ (x.1 = y.1 ∧ x.2 ≤ y.2))
  | _, _ => false

/-- The comparison `a >= b`. -/
def ge (a b : Double) : Bool := le b a

/-- The exponent that `round` works at: the binary exponent of the number, or
`-1022` for the subnormal numbers. -/
def expOf (q : ℚ) : ℤ := max (ilog2 |q|) (-1022)

/-- The significand that `round` takes, as a natural number of at most 53 bits. -/
def sigOf (q : ℚ) : ℕ := roundEven (|q| / (2 : ℚ) ^ (expOf q - 52))

/-- The number that `round q` denotes, below the overflow threshold. -/
def roundVal (q : ℚ) : ℚ :=
  if q < 0 then -((sigOf q : ℚ) * (2 : ℚ) ^ (expOf q - 52))
  else (sigOf q : ℚ) * (2 : ℚ) ^ (expOf q - 52)

end Double

/-! ## Numerical utilities over binary64

The functions of `headers/core/zVectorMatrixUtilities.h` whose result depends
on the arithmetic, statement by statement, with the operators of the absent
`zVector.h` as the usual coordinate formulas in `double` arithmetic. -/

namespace binary64

/-- Modelled from the spec: the class `zVector` of the absent `zVector.h`, with
its three `double` coordinates. -/
structure zVector where
  x : Double
  y : Double
  z : Double
deriving DecidableEq

namespace zVector

/-- Modelled from the spec: `zVector::operator-` of the absent `zVector.h`, the
difference coordinate by coordinate. -/
def sub (a b : zVector) : zVector := ⟨a.x.sub b.x, a.y.sub b.y, a.z.sub b.z⟩

/-- Modelled from the spec: `zVector::operator+=` of the absent `zVector.h`, the
sum coordinate by coordinate. -/
def add (a b : zVector) : zVector := ⟨a.x.add b.x, a.y.add b.y, a.z.add b.z⟩

/-- Modelled from the spec: `zVector::operator*(zVector)` of the absent
`zVector.h`, the dot product `x * v.x + y * v.y + z * v.z`. -/
def dot (a b : zVector) : Double := ((a.x.mul b.x).add (a.y.mul b.y)).add (a.z.mul b.z)

/-- Modelled from the spec: `zVector::operator^` of the absent `zVector.h`, the
cross product. -/
def cross (a b : zVector) : zVector :=
  ⟨(a.y.mul b.z).sub (a.z.mul b.y), (a.z.mul b.x).sub (a.x.mul b.z),
    (a.x.mul b.y).sub (a.y.mul b.x)⟩

/-- Modelled from the spec: `zVector::operator*(double)` of the absent
`zVector.h`, the product of every coordinate with the scalar. -/
def scale (a : zVector) (d : Double) : zVector := ⟨a.x.mul d, a.y.mul d, a.z.mul d⟩

/-- Modelled from the spec: `zVector::length` of the absent `zVector.h`,
`sqrt(x * x + y * y + z * z)`. -/
def length (a : zVector) : Double := (((a.x.mul a.x).add (a.y.mul a.y)).add (a.z.mul a.z)).sqrt

/-- Modelled from the spec: `zVector::normalize` of the absent `zVector.h`: every
coordinate is divided by the length. -/
def normalize (a : zVector) : zVector := ⟨a.x.div a.length, a.y.div a.length, a.z.div a.length⟩

/-- The vector with the given integer coordinates. -/
def ofInts (x y z : ℤ) : zVector := ⟨Double.ofInt x, Double.ofInt y, Double.ofInt z⟩

end zVector

/-- Function `line_lineClosestPoints`.  The result is the returned flag and the
values of `uA` and `uB` after the call; they are assigned only if `denom != 0`. -/
def line_lineClosestPoints (a0 a1 b0 b1 : zVector) (uA uB : Double) : Bool × Double × Double :=
  let u := a1.sub a0
  let v := b1.sub b0
  let w := a0.sub b0
  let uu := u.dot u
  let uv := u.dot v
  let vv := v.dot v
  let uw := u.dot w
  let vw := v.dot w
  let denom := (Double.ofInt 1).div ((uu.mul vv).sub (uv.mul uv))
  if denom.ne (Double.ofInt 0) then
    (true, ((uv.mul vw).sub (vv.mul uw)).mul denom, ((uu.mul vw).sub (uv.mul uw)).mul denom)
  else (false, uA, uB)

/-- Function `line_PlaneIntersection`.  The result is the returned flag and the
value of `intersectionPt` after the call; it is assigned only if the flag is
`true`. -/
def line_PlaneIntersection (p1 p2 planeNorm p3 intersectionPt : zVector) : Bool × zVector :=
  let p31 := p3.sub p1
  let p21 := p2.sub p1
  let denom := planeNorm.dot p21
  if denom.ne (Double.ofInt 0) then
    let u := (planeNorm.dot p31).div denom
    if u.ge (Double.ofInt 0) && u.le (Double.ofInt 1) then
      let lenP21 := p21.length
      (true, ((p21.normalize.scale lenP21).scale u).add p1)
    else (false, intersectionPt)
  else (false, intersectionPt)

/-- Function `triangleArea`. -/
def triangleArea (v1 v2 v3 : zVector) : Double :=
  let e12 := v2.sub v1
  let e13 := v3.sub v1
  (e12.cross e13).length.mul (Double.fin (1 / 2))

/-- A vector with integer coordinates. -/
structure IntVector where
  x : ℤ
  y : ℤ
  z : ℤ
deriving DecidableEq

namespace IntVector

/-- The `zVector` with the given integer coordinates, as `zVector(x, y, z)`
builds it. -/
def toDouble (p : IntVector) : zVector := zVector.ofInts p.x p.y p.z

/-- Every coordinate is of magnitude at most `B`. -/
def Bounded (p : IntVector) (B : ℤ) : Prop := |p.x| ≤ B ∧ |p.y| ≤ B ∧ |p.z| ≤ B

instance (p : IntVector) (B : ℤ) : Decidable (p.Bounded B) := by
  unfold Bounded
  infer_instance

/-- The difference of two vectors, exactly. -/
def sub (a b : IntVector) : IntVector := ⟨a.x - b.x, a.y - b.y, a.z - b.z⟩

/-- The dot product, exactly. -/
def dot (a b : IntVector) : ℤ := a.x * b.x + a.y * b.y + a.z * b.z

/-- The cross product, exactly. -/
def cross (a b : IntVector) : IntVector :=
  ⟨a.y * b.z - a.z * b.y, a.z * b.x - a.x * b.z, a.x * b.y - a.y * b.x⟩

end IntVector

/-- The `double` `a` is the integer `m`, of magnitude at most `B`. -/
def IsInt (a : Double) (m B : ℤ) : Prop := a.val = some (m : ℚ) ∧ |m| ≤ B

/-- The coordinates of `a` are the integers `p`, of magnitude at most `B`. -/
def IsIntVec (a : zVector) (p : IntVector) (B : ℤ) : Prop :=
  IsInt a.x p.x B ∧ IsInt a.y p.y B ∧ IsInt a.z p.z B

/-- The vector with the given integer coordinates, exactly. -/
def IntVector.toRat (p : IntVector) : zSpace.zVector := ⟨p.x, p.y, p.z⟩

/-- The exact square of the norm of `(v2 - v1) x (v3 - v1)`. -/
def crossSq (v1 v2 v3 : IntVector) : ℤ :=
  ((v2.sub v1).cross (v3.sub v1)).dot ((v2.sub v1).cross (v3.sub v1))

/-- The result of `triangleArea` on the square `N` of the norm of the cross
product. -/
def areaOfSq (N : ℤ) : Double := ((Double.ofInt N).sqrt).mul (Double.fin (1 / 2))

end binary64

/-! ## Element store: active flags, garbage collection and triangulation

`zFnMesh.h` declares `garbageCollection` and `faceTriangulate`; their bodies
(`zFnMesh.cpp`), the enumeration `zHEData` and the mesh object `zObjMesh` are not
part of the sources at hand.  The definitions below follow the specification
(§3, §4.1, §4.3, §4.4, §7) and are built on the mesh operators above. -/

/-- Modelled from the spec: the enumeration `zHEData` of the element kinds, as the
comment of `zFnMesh::garbageCollection` lists them ("zVertexData or zEdgeData or
zHalfEdgeData or zFaceData"); its declaration is not in the sources. -/
inductive zHEData where
  | zVertexData
  | zHalfEdgeData
  | zEdgeData
  | zFaceData
deriving DecidableEq, Repr

/-- Modelled from the spec: the mesh object behind `zFnMesh::meshObj`, the
Element Store of §4.1: the mesh and, for each kind, the active flag of every
slot, in identity order ("tagged-active arena", §9). -/
structure zObjMesh where
  mesh : zMesh
  vertexActive : List Bool
  halfEdgeActive : List Bool
  edgeActive : List Bool
  faceActive : List Bool
deriving DecidableEq

namespace zObjMesh

/-- Modelled from the spec: `allocate` (§4.1) on the flags: the slots appended
up to `size` are active. -/
def allocated (flags : List Bool) (size : Nat) : List Bool :=
  flags ++ List.replicate (size - flags.length) true

/-- Modelled from the spec: the mesh object of a mesh built by the construction
operators alone: every element is active. -/
def ofMesh (m : zMesh) : zObjMesh :=
  { mesh := m
    vertexActive := List.replicate m.numVertices true
    halfEdgeActive := List.replicate m.numHalfEdges true
    edgeActive := List.replicate m.numEdges true
    faceActive := List.replicate m.numPolygons true }

/-- Modelled from the spec: the mesh object after a construction operator has
turned its mesh into `m`: the slots allocated by the operator are active, the
flags of the slots before are kept. -/
def withMesh (o : zObjMesh) (m : zMesh) : zObjMesh :=
  { mesh := m
    vertexActive := allocated o.vertexActive m.numVertices
    halfEdgeActive := allocated o.halfEdgeActive m.numHalfEdges
    edgeActive := allocated o.edgeActive m.numEdges
    faceActive := allocated o.faceActive m.numPolygons }

/-- Modelled from the spec: `isActive` (§4.1): the flag of slot `i`; a slot that
does not exist is not active. -/
def isActive (flags : List Bool) (i : Nat) : Bool := flags.getD i false

/-- Modelled from the spec: `deactivate` (§4.1): "it only flips an active flag",
no slot is reordered. -/
def deactivate (flags : List Bool) (i : Nat) : List Bool := flags.set i false

/-- Modelled from the spec: the walk of `compact` (§4.1) "in identity order",
`next` being the next dense identity: the new identity of each active slot,
nothing for an inactive one. -/
def compactFrom (next : Nat) : List Bool → List (Option Nat)
  | [] => []
  | true :: rest => some next :: compactFrom (next + 1) rest
  | false :: rest => none :: compactFrom next rest

/-- Modelled from the spec: `compact(kind) -> old_to_new_index_map` (§4.1):
"walks active elements in identity order, reassigns dense contiguous
identities, and returns the remap". -/
def compact (active : List Bool) : List (Option Nat) := compactFrom 0 active

/-- Modelled from the spec: the new identity of the old identity `i` under the
old→new map; none when the slot was removed or never existed. -/
def remapId (map : List (Option Nat)) (i : Nat) : Option Nat := map.getD i none

/-- Modelled from the spec: a cross-reference remapped "via the returned old→new
map" (§4.4); a reference to a removed element becomes null. -/
def remap (map : List (Option Nat)) (p : Ptr) : Ptr := p.bind (remapId map)

/-- Modelled from the spec: the records of the active slots, in identity order. -/
def survivors {α : Type} : List Bool → List α → List α
  | true :: flags, x :: xs => x :: survivors flags xs
  | false :: flags, _ :: xs => survivors flags xs
  | _, _ => []

/-- Modelled from the spec: "reassigns dense contiguous identities" (§4.1): the
stored identity of each record becomes its position, counted from `next`. -/
def renumberFrom {α : Type} (setId : α → Nat → α) (next : Nat) : List α → List α
  | [] => []
  | x :: xs => setId x next :: renumberFrom setId (next + 1) xs

/-- Modelled from the spec: `zFnMesh::garbageCollection` (§4.4): "compacts the
Element Store for the given kind (vertex/half-edge/edge/face), remaps every
cross-reference in the Half-Edge Topology via the returned old→new map".
Vertices are referred to by the half-edges and by the keys of the half-edge
lookup; half-edges by one another, by the vertices, the faces, the edges and
the values of the lookup (an edge or lookup entry that lost a half-edge goes
with it); faces by the half-edges; nothing refers to an edge identity. -/
def garbageCollection (o : zObjMesh) (type : zHEData) : zObjMesh :=
  match type with
  | .zVertexData =>
    let map := compact o.vertexActive
    { o with
      mesh := { o.mesh with
        vertices := renumberFrom (fun vp id => ({ vp.1 with vertexId := id }, vp.2)) 0
          (survivors o.vertexActive o.mesh.vertices)
        halfEdges := o.mesh.halfEdges.map (fun e => { e with v := remap map e.v })
        halfEdgesMap := o.mesh.halfEdgesMap.filterMap (fun kh => do
          let a ← remapId map kh.1.1
          let b ← remapId map kh.1.2
          some ((a, b), kh.2)) }
      vertexActive := survivors o.vertexActive o.vertexActive }
  | .zHalfEdgeData =>
    let map := compact o.halfEdgeActive
    let kept := (o.mesh.edges.zip o.edgeActive).filterMap (fun ef => do
      let a ← remapId map ef.1.1
      let b ← remapId map ef.1.2
      some ((a, b), ef.2))
    { o with
      mesh := { o.mesh with
        vertices := o.mesh.vertices.map (fun vp => ({ vp.1 with e := remap map vp.1.e }, vp.2))
        halfEdges := renumberFrom (fun e id => { e with edgeId := id }) 0
          (survivors o.halfEdgeActive (o.mesh.halfEdges.map (fun e =>
            { e with sym := remap map e.sym, next := remap map e.next, prev := remap map e.prev })))
        edges := kept.map Prod.fst
        faces := o.mesh.faces.map (fun f => { f with e := remap map f.e })
        halfEdgesMap := o.mesh.halfEdgesMap.filterMap (fun kh =>
          (remapId map kh.2).map (fun h => (kh.1, h))) }
      halfEdgeActive := survivors o.halfEdgeActive o.halfEdgeActive
      edgeActive := kept.map Prod.snd }
  | .zEdgeData =>
    { o with
      mesh := { o.mesh with edges := survivors o.edgeActive o.mesh.edges }
      edgeActive := survivors o.edgeActive o.edgeActive }
  | .zFaceData =>
    let map := compact o.faceActive
    { o with
      mesh := { o.mesh with
        halfEdges := o.mesh.halfEdges.map (fun e => { e with f := remap map e.f })
        faces := renumberFrom (fun f id => { f with faceId := id }) 0
          (survivors o.faceActive o.mesh.faces) }
      faceActive := survivors o.faceActive o.faceActive }

/-- The reference `p` is null or the identity of one of `n` slots. -/
def InRange (p : Ptr) (n : Nat) : Prop := ∀ i ∈ p, i < n

instance (p : Ptr) (n : Nat) : Decidable (InRange p n) := by
  unfold InRange
  infer_instance

/-- Representation invariant of a mesh object (§3, §4.1): every slot has its
flag, the stored identity of every record is its position ("identity = current
size" at allocation), and every reference is null or the identity of a slot of
the store it points into. -/
structure WellFormed (o : zObjMesh) : Prop where
  vertexFlags : o.vertexActive.length = o.mesh.numVertices
  halfEdgeFlags : o.halfEdgeActive.length = o.mesh.numHalfEdges
  edgeFlags : o.edgeActive.length = o.mesh.numEdges
  faceFlags : o.faceActive.length = o.mesh.numPolygons
  vertexIds : o.mesh.vertices.map (fun vp => vp.1.vertexId) =
    (List.range o.mesh.numVertices).map Int.ofNat
  halfEdgeIds : o.mesh.halfEdges.map zEdge.edgeId =
    (List.range o.mesh.numHalfEdges).map Int.ofNat
  faceIds : o.mesh.faces.map zFace.faceId = (List.range o.mesh.numPolygons).map Int.ofNat
  vertexLinks : ∀ vp ∈ o.mesh.vertices, InRange vp.1.e o.mesh.numHalfEdges
  halfEdgeLinks : ∀ e ∈ o.mesh.halfEdges,
    InRange e.v o.mesh.numVertices ∧ InRange e.sym o.mesh.numHalfEdges ∧
    InRange e.next o.mesh.numHalfEdges ∧ InRange e.prev o.mesh.numHalfEdges ∧
    InRange e.f o.mesh.numPolygons
  faceLinks : ∀ f ∈ o.mesh.faces, InRange f.e o.mesh.numHalfEdges
  edgeLinks : ∀ pr ∈ o.mesh.edges, pr.1 < o.mesh.numHalfEdges ∧ pr.2 < o.mesh.numHalfEdges
  lookupLinks : ∀ kh ∈ o.mesh.halfEdgesMap,
    kh.1.1 < o.mesh.numVertices ∧ kh.1.2 < o.mesh.numVertices ∧ kh.2 < o.mesh.numHalfEdges

/-- The record `e` at position `i` of a store of `n` half-edges has `i` as its
stored identity, and its references are null or in range, for `nV` vertices
and `nF` faces. -/
def RecordOK (e : zEdge) (i nV n nF : Nat) : Prop :=
  e.edgeId = i ∧ InRange e.v nV ∧ InRange e.sym n ∧ InRange e.next n ∧ InRange e.prev n ∧
    InRange e.f nF

/-- Every record of the half-edge store is in order, for `nV` vertices and
`nF` faces. -/
def StoreOK (s : EdgeStore) (nV nF : Nat) : Prop :=
  ∀ (i : Nat) (e : zEdge), s[i]? = some e → RecordOK e i nV s.length nF

/-- The representation invariant on the mesh alone, record by record: stored
identities are positions and references are null or in range. -/
structure MeshOK (m : zMesh) : Prop where
  vertices : ∀ (i : Nat) (vp : zVertex × zVector), m.vertices[i]? = some vp →
    vp.1.vertexId = i ∧ InRange vp.1.e m.numHalfEdges
  halfEdges : StoreOK m.halfEdges m.numVertices m.numPolygons
  faces : ∀ (i : Nat) (f : zFace), m.faces[i]? = some f →
    f.faceId = i ∧ InRange f.e m.numHalfEdges
  edges : ∀ pr ∈ m.edges, pr.1 < m.numHalfEdges ∧ pr.2 < m.numHalfEdges
  lookup : ∀ kh ∈ m.halfEdgesMap,
    kh.1.1 < m.numVertices ∧ kh.1.2 < m.numVertices ∧ kh.2 < m.numHalfEdges

/-- The mesh object has no inactive element, of any kind. -/
def AllActive (o : zObjMesh) : Prop :=
  (∀ b ∈ o.vertexActive, b = true) ∧ (∀ b ∈ o.halfEdgeActive, b = true) ∧
  (∀ b ∈ o.edgeActive, b = true) ∧ (∀ b ∈ o.faceActive, b = true)

/-- Modelled from the spec: the triangles of the fan "from its first boundary
vertex" `w0` (§4.4) over the remaining boundary vertices, in order: one
triangle `w0, a, b` per pair `a, b` of consecutive remaining vertices. -/
def fanFrom (w0 : Nat) : List Nat → List (List Nat)
  | a :: b :: rest => [w0, a, b] :: fanFrom w0 (b :: rest)
  | _ => []

/-- Modelled from the spec: the fan triangulation of a boundary loop (§4.4),
"`n-2` triangles for an n-gon". -/
def fanTriangles : List Nat → List (List Nat)
  | [] => []
  | w0 :: rest => fanFrom w0 rest

/-- Modelled from the spec: the face references of the boundary half-edges of a
face are withdrawn (§4.4, `deleteFace`: "deactivates its boundary half-edges'
face references, turning them into boundary edges rather than deleting the
half-edges themselves"). -/
def releaseFaces (s : EdgeStore) : List Nat → Option EdgeStore
  | [] => some s
  | h :: hs => do
    let s1 ← setFace s (some h) none
    releaseFaces s1 hs

/-- Modelled from the spec: a new face on given half-edges, the second step of
`addPolygon` (§4.4): the face claims the half-edges, which must be bound to no
face, links them into its boundary loop and refers to the first of them. -/
def addFace (m : zMesh) (hs : List Nat) : Option zMesh := do
  let s1 ← zMesh.claimFaces m.halfEdges m.numPolygons hs
  let s2 ← zMesh.linkLoop s1 (zMesh.polygonSides hs)
  some { m with
    halfEdges := s2
    faces := m.faces ++ [{ zFace.zFace with faceId := m.numPolygons, e := hs.head? }] }

/-- Modelled from the spec: faces added one by one on given loops of half-edges. -/
def addFaces (m : zMesh) : List (List Nat) → Option zMesh
  | [] => some m
  | hs :: rest => do
    let m1 ← addFace m hs
    addFaces m1 rest

/-- Modelled from the spec: the diagonals of the fan (§4.4): from the first
boundary vertex `w0` to each of the given vertices, one new half-edge pair
each, allocated with `addEdges` without the duplicate check, so that both
sides of every diagonal are free for the two triangles it separates. -/
def addDiagonals (m : zMesh) (w0 : Nat) : List Nat → Option zMesh
  | [] => some m
  | w :: ws => do
    let r ← m.addEdges w0 w false
    addDiagonals r.1 w0 ws

/-- Modelled from the spec: the boundary loops of the triangles of the fan, as
half-edges: `a` runs from the first boundary vertex into the next triangle
(the boundary half-edge `h1` for the first triangle, the diagonal allocated
last afterwards), the boundary half-edges `b` follow in order, and each
triangle is closed by the twin `d + 1` of the next diagonal `d`, the last one
by the boundary half-edge `h0` that runs back to the first boundary vertex. -/
def fanLoops (h0 : Nat) : Nat → Nat → List Nat → List (List Nat)
  | _, _, [] => []
  | a, _, [b] => [[a, b, h0]]
  | a, d, b :: c :: rest => [a, b, d + 1] :: fanLoops h0 d (d + 2) (c :: rest)

/-- Modelled from the spec: `zFnMesh::faceTriangulate` (§4.4, §8), on the
identity of the face: the boundary loop of the face is read (an inactive or
missing face, or a loop of fewer than 3 half-edges, is the domain error of
§4.3), the face is deactivated and its boundary half-edges are released, the
diagonals of the fan from the first boundary vertex are allocated, and the
triangles of the fan are added as active faces on the boundary half-edges and
the diagonals. -/
def faceTriangulate (o : zObjMesh) (face : Nat) : Option zObjMesh :=
  if isActive o.faceActive face = false then none
  else do
    let f ← o.mesh.faces[face]?
    let hs ← o.mesh.faceHalfEdges f
    let ws ← zMesh.loopVertices o.mesh.halfEdges hs
    match hs, ws with
    | h0 :: h1 :: h2 :: rest, w0 :: _ :: wrest =>
      let s1 ← releaseFaces o.mesh.halfEdges hs
      let m1 ← addDiagonals { o.mesh with halfEdges := s1 } w0 wrest.dropLast
      let m2 ← addFaces m1 (fanLoops h0 h1 o.mesh.numHalfEdges (h2 :: rest))
      let o1 := o.withMesh m2
      some { o1 with faceActive := deactivate o1.faceActive face }
    | _, _ => none

/-- Five positions, the corners of a pentagon. -/
def pentagonCorners : List zVector :=
  [⟨0, 0, 0⟩, ⟨2, 0, 0⟩, ⟨3, 2, 0⟩, ⟨1, 3, 0⟩, ⟨-1, 2, 0⟩]

/-- The mesh object with one pentagon face on the vertices `0 1 2 3 4`. -/
def pentagon : zObjMesh :=
  ofMesh ((zMesh.create pentagonCorners [5] [0, 1, 2, 3, 4]).getD zMesh.empty)

/-- The closed mesh on the corners of the unit square with the quadrilateral
`0 1 2 3` on one side and the triangles `1 3 2` and `3 1 0` on the other: the
edge between `1` and `3` has a face on both sides. -/
def pillow : zObjMesh :=
  ofMesh ((zMesh.create zMesh.unitSquare [4, 3, 3] [0, 1, 2, 3, 1, 3, 2, 3, 1, 0]).getD
    zMesh.empty)

end zObjMesh

/-! ## Store lemmas -/

theorem EdgeStore.write_eq_some {s : EdgeStore} {i : Nat} (h : i < s.length) (g : zEdge → zEdge) :
    s.write (some i) g = some (s.set i (g (s.get ⟨i, h⟩))) := by
  simp [EdgeStore.write, h]

theorem EdgeStore.write_length {s s1 : EdgeStore} {p : Ptr} {g : zEdge → zEdge}
    (h : s.write p g = some s1) : s1.length = s.length := by
  cases p with
  | none => simp [EdgeStore.write] at h
  | some i =>
    by_cases hi : i < s.length
    · simp [EdgeStore.write, hi] at h
      subst h
      simp
    · simp [EdgeStore.write, hi] at h

theorem EdgeStore.read_write {s s1 : EdgeStore} {i : Nat} {g : zEdge → zEdge}
    (h : s.write (some i) g = some s1) (j : Nat) :
    s1.read (some j) = if j = i then (s.read (some i)).map g else s.read (some j) := by
  by_cases hi : i < s.length
  · simp [EdgeStore.write, hi] at h
    subst h
    by_cases hj : j = i
    · subst hj
      simp [EdgeStore.read, hi]
    · have hj2 : ¬ i = j := fun h => hj h.symm
      simp [EdgeStore.read, hj, List.getElem?_set, hj2]
  · simp [EdgeStore.write, hi] at h

theorem EdgeStore.read_some_lt {s : EdgeStore} {i : Nat} (h : i < s.length) :
    s.read (some i) = some (s.get ⟨i, h⟩) := by
  simp [EdgeStore.read, List.getElem?_eq_getElem h]

theorem EdgeStore.read_isSome {s : EdgeStore} {i : Nat} {e : zEdge}
    (h : s.read (some i) = some e) : i < s.length := by
  by_contra hc
  simp [EdgeStore.read, List.getElem?_eq_none (Nat.le_of_not_lt hc)] at h

/-- Effect of `setNext` on valid half-edges: it succeeds, keeps the store's
size, and changes exactly the `next` of `A` and the `prev` of `B`. -/
theorem setNext_effect (s : EdgeStore) (A B : Nat) (hA : A < s.length) (hB : B < s.length) :
    ∃ s1, setNext s (some A) (some B) = some s1 ∧ s1.length = s.length ∧
      (∀ j, j < s.length →
        getNext s1 (some j) = if j = A then some (some B) else getNext s (some j)) ∧
      (∀ j, j < s.length →
        getPrev s1 (some j) = if j = B then some (some A) else getPrev s (some j)) := by
  obtain ⟨s0, h0⟩ : ∃ s0, s.write (some A) (fun e => { e with next := some B }) = some s0 :=
    ⟨_, EdgeStore.write_eq_some hA _⟩
  have hl0 := EdgeStore.write_length h0
  obtain ⟨s1, h1⟩ : ∃ s1, s0.write (some B) (fun e => { e with prev := some A }) = some s1 :=
    ⟨_, EdgeStore.write_eq_some (hl0 ▸ hB) _⟩
  have hl1 := EdgeStore.write_length h1
  refine ⟨s1, by simp [setNext, h0, h1], by omega, ?_, ?_⟩
  · intro j hj
    simp only [getNext, EdgeStore.read_write h1, EdgeStore.read_write h0]
    by_cases hjB : j = B <;> by_cases hjA : j = A <;>
      simp [hjB, hjA, EdgeStore.read_some_lt hA, EdgeStore.read_some_lt hB] <;>
      (try subst hjB) <;> (try subst hjA) <;> simp_all [EdgeStore.read_some_lt]
  · intro j hj
    simp only [getPrev, EdgeStore.read_write h1, EdgeStore.read_write h0]
    by_cases hjB : j = B <;> by_cases hjA : j = A <;>
      simp [hjB, hjA, EdgeStore.read_some_lt hA, EdgeStore.read_some_lt hB] <;>
      (try subst hjB) <;> (try subst hjA) <;> simp_all [EdgeStore.read_some_lt]

/-- Two stores through pointers commute when the two field updates commute. -/
theorem EdgeStore.write_comm (s : EdgeStore) (p q : Ptr) (g h : zEdge → zEdge)
    (hgh : ∀ e, g (h e) = h (g e)) :
    (s.write p g).bind (fun s1 => s1.write q h) = (s.write q h).bind (fun s1 => s1.write p g) := by
  cases p with
  | none => cases hq : s.write q h <;> simp [EdgeStore.write]
  | some i =>
    cases q with
    | none => cases hp : s.write (some i) g <;> simp [EdgeStore.write]
    | some j =>
      by_cases hi : i < s.length
      · by_cases hj : j < s.length
        · simp only [EdgeStore.write, hi, hj, dite_true, Option.some_bind, List.length_set]
          congr 1
          apply List.ext_getElem?
          intro k
          by_cases hki : i = k <;> by_cases hkj : j = k
          · subst hki; subst hkj
            simp [List.getElem?_set, hi, hgh]
          · subst hki
            simp [List.getElem?_set, hi, hkj, List.getElem_set, Ne.symm hkj]
          · subst hkj
            simp [List.getElem?_set, hj, hki, List.getElem_set, Ne.symm hki]
          · simp [List.getElem?_set, hki, hkj]
        · simp [EdgeStore.write, hi, hj]
      · by_cases hj : j < s.length
        · simp [EdgeStore.write, hi, hj]
        · simp [EdgeStore.write, hi, hj]

/-- For all pointers, `A.setPrev(B)` and `B.setNext(A)` compute the same store. -/
theorem setPrev_eq_setNext (s : EdgeStore) (A B : Ptr) : setPrev s A B = setNext s B A := by
  have h := EdgeStore.write_comm s A B (fun e => { e with prev := B }) (fun e => { e with next := A })
    (fun e => rfl)
  simpa [setPrev, setNext, bind, Option.bind] using h

/-- Effect of `setSym` on valid half-edges: it succeeds, keeps the store's
size, and changes exactly the `sym` of `A` and of `B`. -/
theorem setSym_effect (s : EdgeStore) (A B : Nat) (hA : A < s.length) (hB : B < s.length) :
    ∃ s1, setSym s (some A) (some B) = some s1 ∧ s1.length = s.length ∧
      (∀ j, j < s.length →
        getSym s1 (some j) =
          if j = B then some (some A) else if j = A then some (some B) else getSym s (some j)) := by
  obtain ⟨s0, h0⟩ : ∃ s0, s.write (some A) (fun e => { e with sym := some B }) = some s0 :=
    ⟨_, EdgeStore.write_eq_some hA _⟩
  have hl0 := EdgeStore.write_length h0
  obtain ⟨s1, h1⟩ : ∃ s1, s0.write (some B) (fun e => { e with sym := some A }) = some s1 :=
    ⟨_, EdgeStore.write_eq_some (hl0 ▸ hB) _⟩
  have hl1 := EdgeStore.write_length h1
  refine ⟨s1, by simp [setSym, h0, h1], by omega, ?_⟩
  intro j hj
  simp only [getSym, EdgeStore.read_write h1, EdgeStore.read_write h0]
  by_cases hjB : j = B <;> by_cases hjA : j = A <;>
    simp [hjB, hjA, EdgeStore.read_some_lt hA, EdgeStore.read_some_lt hB] <;>
    (try subst hjB) <;> (try subst hjA) <;> simp_all [EdgeStore.read_some_lt]

/-- A successful getter names a half-edge of the store. -/
theorem getPrev_lt {s : EdgeStore} {x : Nat} {p : Ptr} (h : getPrev s (some x) = some p) :
    x < s.length := by
  cases hr : s.read (some x) with
  | none => simp [getPrev, hr] at h
  | some e => exact EdgeStore.read_isSome hr

theorem getNext_lt {s : EdgeStore} {x : Nat} {p : Ptr} (h : getNext s (some x) = some p) :
    x < s.length := by
  cases hr : s.read (some x) with
  | none => simp [getNext, hr] at h
  | some e => exact EdgeStore.read_isSome hr

theorem getSym_lt {s : EdgeStore} {x : Nat} {p : Ptr} (h : getSym s (some x) = some p) :
    x < s.length := by
  cases hr : s.read (some x) with
  | none => simp [getSym, hr] at h
  | some e => exact EdgeStore.read_isSome hr

/-- The next/previous invariant survives `A.setNext(B)` when `A` had no other
successor and `B` no other predecessor. -/
theorem nextPrevInv_setNext (s : EdgeStore) (A B : Nat) (hA : A < s.length) (hB : B < s.length)
    (hinv : NextPrevInv s)
    (hN : getNext s (some A) = some none ∨ getNext s (some A) = some (some B))
    (hP : getPrev s (some B) = some none ∨ getPrev s (some B) = some (some A)) :
    ∃ s1, setNext s (some A) (some B) = some s1 ∧ NextPrevInv s1 := by
  obtain ⟨s1, hs1, hlen, hnext, hprev⟩ := setNext_effect s A B hA hB
  refine ⟨s1, hs1, ?_⟩
  intro e he
  rw [hlen] at he
  constructor
  · intro x hx
    rw [hnext e he] at hx
    by_cases heA : e = A
    · simp [heA] at hx
      subst hx
      simp [hprev B hB, heA]
    · simp [heA] at hx
      have hpx := (hinv e he).1 x hx
      have hxl := getPrev_lt hpx
      rw [hprev x hxl]
      by_cases hxB : x = B
      · subst hxB
        rcases hP with h | h
        · rw [h] at hpx; simp at hpx
        · rw [h] at hpx; simp at hpx; exact absurd hpx.symm heA
      · simp [hxB, hpx]
  · intro y hy
    rw [hprev e he] at hy
    by_cases heB : e = B
    · simp [heB] at hy
      subst hy
      simp [hnext A hA, heB]
    · simp [heB] at hy
      have hny := (hinv e he).2 y hy
      have hyl := getNext_lt hny
      rw [hnext y hyl]
      by_cases hyA : y = A
      · subst hyA
        rcases hN with h | h
        · rw [h] at hny; simp at hny
        · rw [h] at hny; simp at hny; exact absurd hny.symm heB
      · simp [hyA, hny]

/-! ## Claims on the link setters -/

/-- C1: for all half-edges `A` and `B` of a store (`A = B` included), the call
`A.setNext(B)` returns, and afterwards the next link of `A` is `B` and the
previous link of `B` is `A`. -/
theorem setNext_links (s : EdgeStore) (A B : Nat) (hA : A < s.length) (hB : B < s.length) :
    ∃ s1, setNext s (some A) (some B) = some s1 ∧
      getNext s1 (some A) = some (some B) ∧ getPrev s1 (some B) = some (some A) := by
  obtain ⟨s1, hs1, _, hnext, hprev⟩ := setNext_effect s A B hA hB
  exact ⟨s1, hs1, by simp [hnext A hA], by simp [hprev B hB]⟩

theorem setNext_links_witness :
    (0 < linkedStore.length ∧ 2 < linkedStore.length) ∧
    ∃ s1, setNext linkedStore (some 0) (some 2) = some s1 ∧
      getNext s1 (some 0) = some (some 2) ∧ getPrev s1 (some 2) = some (some 0) :=
  ⟨by decide, setNext_links linkedStore 0 2 (by decide) (by decide)⟩

/-- C2: for all half-edges `A` and `B` of a store, the call `A.setSym(B)`
returns, and afterwards the twin of `A` is `B`, the twin of `B` is `A`, and
`twin(twin(A)) = A`, `twin(twin(B)) = B`. -/
theorem setSym_twins (s : EdgeStore) (A B : Nat) (hA : A < s.length) (hB : B < s.length) :
    ∃ s1, setSym s (some A) (some B) = some s1 ∧
      getSym s1 (some A) = some (some B) ∧ getSym s1 (some B) = some (some A) ∧
      (getSym s1 (some A)).bind (getSym s1) = some (some A) ∧
      (getSym s1 (some B)).bind (getSym s1) = some (some B) := by
  obtain ⟨s1, hs1, _, hsym⟩ := setSym_effect s A B hA hB
  have h1 : getSym s1 (some A) = some (some B) := by
    rw [hsym A hA]
    by_cases h : A = B <;> simp [h]
  have h2 : getSym s1 (some B) = some (some A) := by simp [hsym B hB]
  exact ⟨s1, hs1, h1, h2, by simp [h1, h2], by simp [h1, h2]⟩

theorem setSym_twins_witness :
    (0 < twinnedStore.length ∧ 2 < twinnedStore.length) ∧
    ∃ s1, setSym twinnedStore (some 0) (some 2) = some s1 ∧
      getSym s1 (some 0) = some (some 2) ∧ getSym s1 (some 2) = some (some 0) ∧
      (getSym s1 (some 0)).bind (getSym s1) = some (some 0) ∧
      (getSym s1 (some 2)).bind (getSym s1) = some (some 2) :=
  ⟨by decide, setSym_twins twinnedStore 0 2 (by decide) (by decide)⟩

/-- C3: for all half-edges `A` and `B` of a store, `A.setPrev(B)` returns a
store in which `A.prev = B` and `B.next = A`, and that store is exactly the
one `B.setNext(A)` returns from the same starting store. -/
theorem setPrev_refines_setNext (s : EdgeStore) (A B : Nat)
    (hA : A < s.length) (hB : B < s.length) :
    ∃ s1, setPrev s (some A) (some B) = some s1 ∧ setNext s (some B) (some A) = some s1 ∧
      getPrev s1 (some A) = some (some B) ∧ getNext s1 (some B) = some (some A) := by
  obtain ⟨s1, hs1, _, hnext, hprev⟩ := setNext_effect s B A hB hA
  exact ⟨s1, by rw [setPrev_eq_setNext, hs1], hs1, by simp [hprev A hA], by simp [hnext B hB]⟩

theorem setPrev_refines_setNext_witness :
    (2 < linkedStore.length ∧ 0 < linkedStore.length) ∧
    ∃ s1, setPrev linkedStore (some 2) (some 0) = some s1 ∧
      setNext linkedStore (some 0) (some 2) = some s1 ∧
      getPrev s1 (some 2) = some (some 0) ∧ getNext s1 (some 0) = some (some 2) :=
  ⟨by decide, setPrev_refines_setNext linkedStore 2 0 (by decide) (by decide)⟩

theorem nextPrevInv_linkedStore : NextPrevInv linkedStore := by
  intro e he
  simp [linkedStore] at he
  interval_cases e <;> simp [getNext, getPrev, EdgeStore.read, linkedStore, zEdge.zEdge]

theorem nextPrevInv_linkedStore4 : NextPrevInv linkedStore4 := by
  intro e he
  simp [linkedStore4, linkedStore] at he
  interval_cases e <;> simp [getNext, getPrev, EdgeStore.read, linkedStore4, linkedStore, zEdge.zEdge]

/-- C4, as stated, fails: in a store where `0.next = 1` and `1.prev = 0` the
invariant holds, and after `0.setNext(2)` (equally after `2.setPrev(0)`)
half-edge `1` still has `prev = 0` while `0.next = 2`. -/
theorem setNext_breaks_nextPrevInv :
    NextPrevInv linkedStore ∧
    (∃ s1, setNext linkedStore (some 0) (some 2) = some s1 ∧ ¬ NextPrevInv s1) ∧
    (∃ s1, setPrev linkedStore (some 2) (some 0) = some s1 ∧ ¬ NextPrevInv s1) := by
  have hbad : ¬ NextPrevInv
      [{ zEdge.zEdge with next := some 2 }, { zEdge.zEdge with prev := some 0 },
        { zEdge.zEdge with prev := some 0 }] := by
    intro h
    have h1 := (h 1 (by decide)).2 0 (by decide)
    revert h1
    decide
  refine ⟨nextPrevInv_linkedStore, ⟨_, by decide, hbad⟩, ⟨_, by decide, hbad⟩⟩

/-- C4, amended: if the next/previous invariant holds in a store, then for all
half-edges `A` and `B` it still holds after `A.setNext(B)` provided `A.next`
was null or `B` and `B.prev` was null or `A`, and it still holds after
`A.setPrev(B)` provided `A.prev` was null or `B` and `B.next` was null or `A`. -/
theorem nextPrevInv_preserved (s : EdgeStore) (A B : Nat)
    (hA : A < s.length) (hB : B < s.length) (hinv : NextPrevInv s) :
    ((getNext s (some A) = some none ∨ getNext s (some A) = some (some B)) →
      (getPrev s (some B) = some none ∨ getPrev s (some B) = some (some A)) →
      ∃ s1, setNext s (some A) (some B) = some s1 ∧ NextPrevInv s1) ∧
    ((getPrev s (some A) = some none ∨ getPrev s (some A) = some (some B)) →
      (getNext s (some B) = some none ∨ getNext s (some B) = some (some A)) →
      ∃ s1, setPrev s (some A) (some B) = some s1 ∧ NextPrevInv s1) := by
  refine ⟨fun hN hP => nextPrevInv_setNext s A B hA hB hinv hN hP, fun hP hN => ?_⟩
  rw [setPrev_eq_setNext]
  exact nextPrevInv_setNext s B A hB hA hinv hN hP

theorem nextPrevInv_preserved_witness :
    (2 < linkedStore4.length ∧ 3 < linkedStore4.length ∧ NextPrevInv linkedStore4) ∧
    (∃ s1, setNext linkedStore4 (some 2) (some 3) = some s1 ∧ NextPrevInv s1) ∧
    (∃ s1, setPrev linkedStore4 (some 2) (some 3) = some s1 ∧ NextPrevInv s1) :=
  ⟨⟨by decide, by decide, nextPrevInv_linkedStore4⟩,
    (nextPrevInv_preserved linkedStore4 2 3 (by decide) (by decide) nextPrevInv_linkedStore4).1
      (Or.inl (by decide)) (Or.inl (by decide)),
    (nextPrevInv_preserved linkedStore4 2 3 (by decide) (by decide) nextPrevInv_linkedStore4).2
      (Or.inl (by decide)) (Or.inl (by decide))⟩

/-- The twin invariant survives `A.setSym(B)` when neither had another twin. -/
theorem twinInv_setSym (s : EdgeStore) (A B : Nat) (hA : A < s.length) (hB : B < s.length)
    (hinv : TwinInv s)
    (hSA : getSym s (some A) = some none ∨ getSym s (some A) = some (some B))
    (hSB : getSym s (some B) = some none ∨ getSym s (some B) = some (some A)) :
    ∃ s1, setSym s (some A) (some B) = some s1 ∧ TwinInv s1 := by
  obtain ⟨s1, hs1, hlen, hsym⟩ := setSym_effect s A B hA hB
  refine ⟨s1, hs1, ?_⟩
  intro e he x hx
  rw [hlen] at he
  rw [hsym e he] at hx
  by_cases heB : e = B
  · simp [heB] at hx
    subst hx
    rw [hsym A hA]
    by_cases hAB : A = B <;> simp [hAB, heB]
  · by_cases heA : e = A
    · simp [heB, heA] at hx
      have hx2 : x = B := by
        by_cases hAB : A = B
        · exact absurd (heA.trans hAB) heB
        · simpa [hAB] using hx.symm
      subst hx2
      simp [hsym x hB, heA]
    · simp [heB, heA] at hx
      have hsx := hinv e he x hx
      have hxl := getSym_lt hsx
      rw [hsym x hxl]
      by_cases hxB : x = B
      · subst hxB
        rcases hSB with h | h
        · rw [h] at hsx; simp at hsx
        · rw [h] at hsx; simp at hsx; exact absurd hsx.symm heA
      · by_cases hxA : x = A
        · subst hxA
          rcases hSA with h | h
          · rw [h] at hsx; simp at hsx
          · rw [h] at hsx; simp at hsx; exact absurd hsx.symm heB
        · simp [hxB, hxA, hsx]

theorem twinInv_twinnedStore : TwinInv twinnedStore := by
  intro e he
  simp [twinnedStore] at he
  interval_cases e <;> simp [getSym, EdgeStore.read, twinnedStore, zEdge.zEdge]

theorem twinInv_twinnedStore4 : TwinInv twinnedStore4 := by
  intro e he
  simp [twinnedStore4, twinnedStore] at he
  interval_cases e <;> simp [getSym, EdgeStore.read, twinnedStore4, twinnedStore, zEdge.zEdge]

/-- C5, as stated, fails: in a store where `0` and `1` are twins the invariant
holds, and after `0.setSym(2)` half-edge `1` still has twin `0` while the
twin of `0` is `2`. -/
theorem setSym_breaks_twinInv :
    TwinInv twinnedStore ∧
    ∃ s1, setSym twinnedStore (some 0) (some 2) = some s1 ∧ ¬ TwinInv s1 := by
  have hbad : ¬ TwinInv
      [{ zEdge.zEdge with sym := some 2 }, { zEdge.zEdge with sym := some 0 },
        { zEdge.zEdge with sym := some 0 }] := by
    intro h
    have h1 := h 1 (by decide) 0 (by decide)
    revert h1
    decide
  exact ⟨twinInv_twinnedStore, _, by decide, hbad⟩

/-- C5, amended: if the twin invariant holds in a store, then for all
half-edges `A` and `B` it still holds after `A.setSym(B)` provided the twin of
`A` was null or `B` and the twin of `B` was null or `A`. -/
theorem twinInv_preserved (s : EdgeStore) (A B : Nat)
    (hA : A < s.length) (hB : B < s.length) (hinv : TwinInv s)
    (hSA : getSym s (some A) = some none ∨ getSym s (some A) = some (some B))
    (hSB : getSym s (some B) = some none ∨ getSym s (some B) = some (some A)) :
    ∃ s1, setSym s (some A) (some B) = some s1 ∧ TwinInv s1 :=
  twinInv_setSym s A B hA hB hinv hSA hSB

theorem twinInv_preserved_witness :
    (2 < twinnedStore4.length ∧ 3 < twinnedStore4.length ∧ TwinInv twinnedStore4 ∧
      (getSym twinnedStore4 (some 2) = some none ∨
        getSym twinnedStore4 (some 2) = some (some 3)) ∧
      (getSym twinnedStore4 (some 3) = some none ∨
        getSym twinnedStore4 (some 3) = some (some 2))) ∧
    ∃ s1, setSym twinnedStore4 (some 2) (some 3) = some s1 ∧ TwinInv s1 :=
  ⟨⟨by decide, by decide, twinInv_twinnedStore4, Or.inl (by decide), Or.inl (by decide)⟩,
    twinInv_preserved twinnedStore4 2 3 (by decide) (by decide) twinInv_twinnedStore4
      (Or.inl (by decide)) (Or.inl (by decide))⟩

/-- At construction a half-edge has a null incident face, null twin, next,
previous and vertex links, and the placeholder id `-2`; the getters on a
store slot holding it return exactly these values. -/
theorem zEdge_constructor_null :
    zEdge.zEdge.f = none ∧ zEdge.zEdge.sym = none ∧ zEdge.zEdge.next = none ∧
    zEdge.zEdge.prev = none ∧ zEdge.zEdge.v = none ∧ zEdge.zEdge.edgeId = -2 ∧
    ∀ s : EdgeStore,
      getFace (s ++ [zEdge.zEdge]) (some s.length) = some none ∧
      getSym (s ++ [zEdge.zEdge]) (some s.length) = some none ∧
      getNext (s ++ [zEdge.zEdge]) (some s.length) = some none ∧
      getPrev (s ++ [zEdge.zEdge]) (some s.length) = some none ∧
      getVertex (s ++ [zEdge.zEdge]) (some s.length) = some none ∧
      getEdgeId (s ++ [zEdge.zEdge]) (some s.length) = some (-2) := by
  refine ⟨rfl, rfl, rfl, rfl, rfl, rfl, fun s => ?_⟩
  simp [getFace, getSym, getNext, getPrev, getVertex, getEdgeId, EdgeStore.read, zEdge.zEdge]

theorem write_read_other {s s1 : EdgeStore} {p : Ptr} {g : zEdge → zEdge} {i : Nat}
    (h : s.write p g = some s1) (hp : p ≠ some i) : s1.read (some i) = s.read (some i) := by
  cases p with
  | none => simp [EdgeStore.write] at h
  | some k =>
    rw [EdgeStore.read_write h i]
    have hik : ¬ i = k := fun hik => hp (by rw [hik])
    simp [hik]

/-- One store through a pointer: the record at `i` is kept when the pointer is
not `i`, and is updated by `g` otherwise. -/
theorem write_read_cases {s s1 : EdgeStore} {p : Ptr} {g : zEdge → zEdge} {i : Nat} {e : zEdge}
    (h : s.write p g = some s1) (he : s.read (some i) = some e) :
    s1.read (some i) = some (if p = some i then g e else e) := by
  by_cases hp : p = some i
  · subst hp
    rw [EdgeStore.read_write h i]
    simp [he]
  · rw [write_read_other h hp, he]
    simp [hp]

/-- Frame of one setter call: the record at `i` keeps every field that the
call does not write. -/
theorem run_frame (c : SetterCall) (i : Nat) (s s1 : EdgeStore) (e : zEdge)
    (hrun : c.run s = some s1) (he : s.read (some i) = some e) :
    ∃ e1, s1.read (some i) = some e1 ∧
      (c.onFace i = false → e1.f = e.f) ∧ (c.onVertex i = false → e1.v = e.v) ∧
      (c.onEdgeId i = false → e1.edgeId = e.edgeId) ∧ (c.onSym i = false → e1.sym = e.sym) ∧
      (c.onNext i = false → e1.next = e.next) ∧ (c.onPrev i = false → e1.prev = e.prev) := by
  cases c with
  | setSym this _sym =>
    simp only [SetterCall.run, setSym] at hrun
    cases h0 : s.write this (fun e => { e with sym := _sym }) with
    | none => simp [h0] at hrun
    | some s0 =>
      have h1 : s0.write _sym (fun e => { e with sym := this }) = some s1 := by
        simpa [h0] using hrun
      have r0 := write_read_cases h0 he
      have r1 := write_read_cases h1 r0
      refine ⟨_, r1, ?_, ?_, ?_, ?_, ?_, ?_⟩ <;>
        by_cases ha : this = some i <;> by_cases hb : _sym = some i <;>
        simp [SetterCall.onFace, SetterCall.onVertex, SetterCall.onEdgeId, SetterCall.onSym,
          SetterCall.onNext, SetterCall.onPrev, ha, hb]
  | setPrev this _prev =>
    simp only [SetterCall.run, setPrev] at hrun
    cases h0 : s.write this (fun e => { e with prev := _prev }) with
    | none => simp [h0] at hrun
    | some s0 =>
      have h1 : s0.write _prev (fun e => { e with next := this }) = some s1 := by
        simpa [h0] using hrun
      have r0 := write_read_cases h0 he
      have r1 := write_read_cases h1 r0
      refine ⟨_, r1, ?_, ?_, ?_, ?_, ?_, ?_⟩ <;>
        by_cases ha : this = some i <;> by_cases hb : _prev = some i <;>
        simp [SetterCall.onFace, SetterCall.onVertex, SetterCall.onEdgeId, SetterCall.onSym,
          SetterCall.onNext, SetterCall.onPrev, ha, hb]
  | setNext this _next =>
    simp only [SetterCall.run, setNext] at hrun
    cases h0 : s.write this (fun e => { e with next := _next }) with
    | none => simp [h0] at hrun
    | some s0 =>
      have h1 : s0.write _next (fun e => { e with prev := this }) = some s1 := by
        simpa [h0] using hrun
      have r0 := write_read_cases h0 he
      have r1 := write_read_cases h1 r0
      refine ⟨_, r1, ?_, ?_, ?_, ?_, ?_, ?_⟩ <;>
        by_cases ha : this = some i <;> by_cases hb : _next = some i <;>
        simp [SetterCall.onFace, SetterCall.onVertex, SetterCall.onEdgeId, SetterCall.onSym,
          SetterCall.onNext, SetterCall.onPrev, ha, hb]
  | setVertex this _v =>
    simp only [SetterCall.run, setVertex] at hrun
    have r0 := write_read_cases hrun he
    refine ⟨_, r0, ?_, ?_, ?_, ?_, ?_, ?_⟩ <;>
      by_cases ha : this = some i <;>
      simp [SetterCall.onFace, SetterCall.onVertex, SetterCall.onEdgeId, SetterCall.onSym,
        SetterCall.onNext, SetterCall.onPrev, ha]
  | setFace this _f =>
    simp only [SetterCall.run, setFace] at hrun
    have r0 := write_read_cases hrun he
    refine ⟨_, r0, ?_, ?_, ?_, ?_, ?_, ?_⟩ <;>
      by_cases ha : this = some i <;>
      simp [SetterCall.onFace, SetterCall.onVertex, SetterCall.onEdgeId, SetterCall.onSym,
        SetterCall.onNext, SetterCall.onPrev, ha]
  | setEdgeId this _edgeId =>
    simp only [SetterCall.run, setEdgeId] at hrun
    have r0 := write_read_cases hrun he
    refine ⟨_, r0, ?_, ?_, ?_, ?_, ?_, ?_⟩ <;>
      by_cases ha : this = some i <;>
      simp [SetterCall.onFace, SetterCall.onVertex, SetterCall.onEdgeId, SetterCall.onSym,
        SetterCall.onNext, SetterCall.onPrev, ha]

/-- Frame of a sequence of setter calls. -/
theorem runCalls_frame (calls : List SetterCall) (i : Nat) (s s1 : EdgeStore) (e : zEdge)
    (hrun : runCalls s calls = some s1) (he : s.read (some i) = some e) :
    ∃ e1, s1.read (some i) = some e1 ∧
      ((∀ c ∈ calls, c.onFace i = false) → e1.f = e.f) ∧
      ((∀ c ∈ calls, c.onVertex i = false) → e1.v = e.v) ∧
      ((∀ c ∈ calls, c.onEdgeId i = false) → e1.edgeId = e.edgeId) ∧
      ((∀ c ∈ calls, c.onSym i = false) → e1.sym = e.sym) ∧
      ((∀ c ∈ calls, c.onNext i = false) → e1.next = e.next) ∧
      ((∀ c ∈ calls, c.onPrev i = false) → e1.prev = e.prev) := by
  induction calls generalizing s e with
  | nil =>
    simp [runCalls] at hrun
    subst hrun
    exact ⟨e, he, fun _ => rfl, fun _ => rfl, fun _ => rfl, fun _ => rfl, fun _ => rfl,
      fun _ => rfl⟩
  | cons c cs ih =>
    cases h0 : c.run s with
    | none => simp [runCalls, h0] at hrun
    | some s0 =>
      have h1 : runCalls s0 cs = some s1 := by simpa [runCalls, h0] using hrun
      obtain ⟨e0, he0, a1, a2, a3, a4, a5, a6⟩ := run_frame c i s s0 e h0 he
      obtain ⟨e1, he1, b1, b2, b3, b4, b5, b6⟩ := ih s0 e0 h1 he0
      refine ⟨e1, he1, ?_, ?_, ?_, ?_, ?_, ?_⟩
      · intro h
        rw [b1 (fun c hc => h c (by simp [hc])), a1 (h c (by simp))]
      · intro h
        rw [b2 (fun c hc => h c (by simp [hc])), a2 (h c (by simp))]
      · intro h
        rw [b3 (fun c hc => h c (by simp [hc])), a3 (h c (by simp))]
      · intro h
        rw [b4 (fun c hc => h c (by simp [hc])), a4 (h c (by simp))]
      · intro h
        rw [b5 (fun c hc => h c (by simp [hc])), a5 (h c (by simp))]
      · intro h
        rw [b6 (fun c hc => h c (by simp [hc])), a6 (h c (by simp))]

/-- C6, as stated, fails: of two newly constructed half-edges in a store,
`setNext` called on the first with the second as argument leaves the second
with a non-null previous link, although no setter was called on the second. -/
theorem setNext_writes_argument_prev :
    ∃ s1, setNext [zEdge.zEdge, zEdge.zEdge] (some 0) (some 1) = some s1 ∧
      getPrev [zEdge.zEdge, zEdge.zEdge] (some 1) = some none ∧
      getPrev s1 (some 1) = some (some 0) :=
  ⟨[{ zEdge.zEdge with next := some 1 }, { zEdge.zEdge with prev := some 0 }],
    by decide, by decide, by decide⟩

/-- C6, amended: a half-edge newly constructed in a store has a null face,
vertex, twin, next and previous link and the id `-2`, and after any sequence of
setter calls on the store that all return, its face (vertex, id) is still so
unless `setFace` (`setVertex`, `setEdgeId`) was called on it, its twin is
still null unless `setSym` was called on it or with it as argument, its next
unless `setNext` was called on it or `setPrev` with it as argument, and its
previous unless `setPrev` was called on it or `setNext` with it as argument. -/
theorem zEdge_constructor_null_until (s : EdgeStore) (calls : List SetterCall) (s1 : EdgeStore)
    (hrun : runCalls (s ++ [zEdge.zEdge]) calls = some s1) :
    ((∀ c ∈ calls, c.onFace s.length = false) → getFace s1 (some s.length) = some none) ∧
    ((∀ c ∈ calls, c.onVertex s.length = false) → getVertex s1 (some s.length) = some none) ∧
    ((∀ c ∈ calls, c.onEdgeId s.length = false) → getEdgeId s1 (some s.length) = some (-2)) ∧
    ((∀ c ∈ calls, c.onSym s.length = false) → getSym s1 (some s.length) = some none) ∧
    ((∀ c ∈ calls, c.onNext s.length = false) → getNext s1 (some s.length) = some none) ∧
    ((∀ c ∈ calls, c.onPrev s.length = false) → getPrev s1 (some s.length) = some none) := by
  have he : (s ++ [zEdge.zEdge]).read (some s.length) = some zEdge.zEdge := by
    simp [EdgeStore.read]
  obtain ⟨e1, he1, b1, b2, b3, b4, b5, b6⟩ := runCalls_frame calls s.length _ s1 _ hrun he
  refine ⟨?_, ?_, ?_, ?_, ?_, ?_⟩
  · intro h
    simp [getFace, he1, b1 h, zEdge.zEdge]
  · intro h
    simp [getVertex, he1, b2 h, zEdge.zEdge]
  · intro h
    simp [getEdgeId, he1, b3 h, zEdge.zEdge]
  · intro h
    simp [getSym, he1, b4 h, zEdge.zEdge]
  · intro h
    simp [getNext, he1, b5 h, zEdge.zEdge]
  · intro h
    simp [getPrev, he1, b6 h, zEdge.zEdge]

theorem zEdge_constructor_null_until_witness :
    runCalls ([zEdge.zEdge] ++ [zEdge.zEdge])
        [.setNext (some 0) (some 1), .setFace (some 0) (some 3)] =
      some [{ zEdge.zEdge with next := some 1, f := some 3 },
        { zEdge.zEdge with prev := some 0 }] ∧
    (((∀ c ∈ [SetterCall.setNext (some 0) (some 1), .setFace (some 0) (some 3)],
          c.onFace 1 = false) →
        getFace [{ zEdge.zEdge with next := some 1, f := some 3 },
          { zEdge.zEdge with prev := some 0 }] (some 1) = some none) ∧
      ((∀ c ∈ [SetterCall.setNext (some 0) (some 1), .setFace (some 0) (some 3)],
          c.onVertex 1 = false) →
        getVertex [{ zEdge.zEdge with next := some 1, f := some 3 },
          { zEdge.zEdge with prev := some 0 }] (some 1) = some none) ∧
      ((∀ c ∈ [SetterCall.setNext (some 0) (some 1), .setFace (some 0) (some 3)],
          c.onEdgeId 1 = false) →
        getEdgeId [{ zEdge.zEdge with next := some 1, f := some 3 },
          { zEdge.zEdge with prev := some 0 }] (some 1) = some (-2)) ∧
      ((∀ c ∈ [SetterCall.setNext (some 0) (some 1), .setFace (some 0) (some 3)],
          c.onSym 1 = false) →
        getSym [{ zEdge.zEdge with next := some 1, f := some 3 },
          { zEdge.zEdge with prev := some 0 }] (some 1) = some none) ∧
      ((∀ c ∈ [SetterCall.setNext (some 0) (some 1), .setFace (some 0) (some 3)],
          c.onNext 1 = false) →
        getNext [{ zEdge.zEdge with next := some 1, f := some 3 },
          { zEdge.zEdge with prev := some 0 }] (some 1) = some none) ∧
      ((∀ c ∈ [SetterCall.setNext (some 0) (some 1), .setFace (some 0) (some 3)],
          c.onPrev 1 = false) →
        getPrev [{ zEdge.zEdge with next := some 1, f := some 3 },
          { zEdge.zEdge with prev := some 0 }] (some 1) = some none)) :=
  ⟨by decide,
    zEdge_constructor_null_until [zEdge.zEdge]
      [.setNext (some 0) (some 1), .setFace (some 0) (some 3)] _ (by decide)⟩

/-! ## Mesh function set: vertices and edges -/

namespace zMesh

theorem firstIndex_eq_none {α : Type} (p : α → Bool) (l : List α) :
    firstIndex p l = none ↔ ∀ a ∈ l, p a = false := by
  induction l with
  | nil => simp [firstIndex]
  | cons a as ih =>
    by_cases h : p a
    · simp [firstIndex, h]
    · simp [firstIndex, h, ih]

theorem firstIndex_eq_some {α : Type} (p : α → Bool) (l : List α) (i : Nat) :
    firstIndex p l = some i ↔
      (∃ a, l[i]? = some a ∧ p a = true) ∧ ∀ j, j < i → ∀ a, l[j]? = some a → p a = false := by
  induction l generalizing i with
  | nil => simp [firstIndex]
  | cons a as ih =>
    by_cases h : p a
    · simp only [firstIndex, h, if_true, Option.some.injEq]
      constructor
      · intro hi
        subst hi
        simp [h]
      · rintro ⟨_, hmin⟩
        by_contra hne
        have hpos : 0 < i := Nat.pos_of_ne_zero (fun h0 => hne h0.symm)
        have := hmin 0 hpos a (by simp)
        simp [h] at this
    · have hf : p a = false := by simpa using h
      simp only [firstIndex, hf, Bool.false_eq_true, if_false, Option.map_eq_some']
      constructor
      · rintro ⟨k, hk, rfl⟩
        obtain ⟨hex, hmin⟩ := (ih k).1 hk
        refine ⟨by simpa using hex, ?_⟩
        intro j hj b hb
        cases j with
        | zero =>
          simp at hb
          subst hb
          exact hf
        | succ j => exact hmin j (by omega) b (by simpa using hb)
      · rintro ⟨⟨b, hb, hpb⟩, hmin⟩
        cases i with
        | zero =>
          simp at hb
          subst hb
          simp [hpb] at hf
        | succ k =>
          refine ⟨k, (ih k).2 ⟨⟨b, by simpa using hb, hpb⟩, ?_⟩, rfl⟩
          intro j hj c hc
          exact hmin (j + 1) (by omega) c (by simpa using hc)

/-- Twinning the two half-edges just appended to a store always succeeds. -/
theorem setSym_append_pair (s : EdgeStore) (a b : zEdge) :
    setSym (s ++ [a, b]) (some s.length) (some (s.length + 1)) =
      some (s ++ [{ a with sym := some (s.length + 1) }, { b with sym := some s.length }]) := by
  simp [setSym, EdgeStore.write, bind, Option.bind, List.set_append, List.getElem_append_right]

/-- Shape of a successful `addEdges`: either the registered half-edge is
returned and the mesh is unchanged, or a pair is allocated and registered. -/
theorem addEdges_cases (m : zMesh) (v1 v2 : Nat) (cd : Bool)
    (h1 : v1 < m.numVertices) (h2 : v2 < m.numVertices) :
    (∃ he, cd = true ∧ m.halfEdgeExists v1 v2 = some he ∧
        m.addEdges v1 v2 cd = some (m, false, he)) ∨
    ((cd = false ∨ m.halfEdgeExists v1 v2 = none) ∧
      m.addEdges v1 v2 cd = some (m.withNewEdge v1 v2, true, m.numHalfEdges)) := by
  cases cd with
  | false =>
    right
    refine ⟨Or.inl rfl, ?_⟩
    simp [addEdges, h1, h2, numHalfEdges, setSym_append_pair, withNewEdge]
  | true =>
    cases hl : m.halfEdgeExists v1 v2 with
    | some he =>
      left
      exact ⟨he, rfl, rfl, by simp [addEdges, h1, h2, hl]⟩
    | none =>
      right
      refine ⟨Or.inr rfl, ?_⟩
      simp [addEdges, h1, h2, hl, numHalfEdges, setSym_append_pair, withNewEdge]

/-- C7: for every mesh and existing vertex ids `v1`, `v2`, after a first call
`addEdges(v1, v2, _)` a second call with `checkDuplicates = true` outputs the
same half-edge, returns `false`, and leaves `numHalfEdges` and `numEdges`
unchanged. -/
theorem addEdges_twice (m : zMesh) (v1 v2 : Nat) (cd : Bool)
    (h1 : v1 < m.numVertices) (h2 : v2 < m.numVertices) :
    ∃ m1 r1 he m2, m.addEdges v1 v2 cd = some (m1, r1, he) ∧
      m1.addEdges v1 v2 true = some (m2, false, he) ∧
      m2.numHalfEdges = m1.numHalfEdges ∧ m2.numEdges = m1.numEdges := by
  rcases addEdges_cases m v1 v2 cd h1 h2 with ⟨he, _, hl, hres⟩ | ⟨_, hres⟩
  · exact ⟨m, false, he, m, hres, by simp [addEdges, h1, h2, hl], rfl, rfl⟩
  · refine ⟨_, true, m.numHalfEdges, _, hres, ?_, rfl, rfl⟩
    have h1' : v1 < m.vertices.length := h1
    have h2' : v2 < m.vertices.length := h2
    simp [addEdges, numVertices, withNewEdge, h1', h2', halfEdgeExists, List.lookup]

theorem addEdges_twice_witness :
    (0 < twoVertexMesh.numVertices ∧ 1 < twoVertexMesh.numVertices) ∧
    ∃ m1 r1 he m2, twoVertexMesh.addEdges 0 1 false = some (m1, r1, he) ∧
      m1.addEdges 0 1 true = some (m2, false, he) ∧
      m2.numHalfEdges = m1.numHalfEdges ∧ m2.numEdges = m1.numEdges :=
  ⟨by decide!, addEdges_twice twoVertexMesh 0 1 false (by decide!) (by decide!)⟩

/-- C8: for every mesh and position `p`, `addVertex(p, checkDuplicates = true)`
returns `false`, outputs the first vertex in id order whose position rounded
to 6 decimals equals the rounded `p`, and leaves the mesh (so `numVertices`)
unchanged when such a vertex exists; otherwise it returns `true`, outputs the
new vertex, whose id is the old `numVertices`, and `numVertices` grows by one. -/
theorem addVertex_checkDuplicates (m : zMesh) (p : zVector) :
    (∀ i q, m.getVertexPositions[i]? = some q → q.rounded 6 = p.rounded 6 →
      (∀ j, j < i → ∀ r, m.getVertexPositions[j]? = some r → r.rounded 6 ≠ p.rounded 6) →
      m.addVertex p true = (m, false, i) ∧
        (m.addVertex p true).1.numVertices = m.numVertices) ∧
    ((∀ q ∈ m.getVertexPositions, q.rounded 6 ≠ p.rounded 6) →
      (m.addVertex p true).2 = (true, m.numVertices) ∧
        (m.addVertex p true).1.numVertices = m.numVertices + 1 ∧
        (m.addVertex p true).1.getVertexPositions = m.getVertexPositions ++ [p]) := by
  constructor
  · intro i q hq hqp hmin
    have hfi : m.vertexExists p = some i := by
      rw [vertexExists, firstIndex_eq_some]
      refine ⟨⟨q, hq, by simpa using hqp⟩, ?_⟩
      intro j hj r hr
      simpa using hmin j hj r hr
    simp [addVertex, hfi]
  · intro hall
    have hfi : m.vertexExists p = none := by
      rw [vertexExists, firstIndex_eq_none]
      intro a ha
      simpa using hall a ha
    simp [addVertex, hfi, numVertices, getVertexPositions]

theorem addVertex_checkDuplicates_witness :
    (twoVertexMesh.getVertexPositions[1]? = some ⟨1, 0, 0⟩ ∧
      (∀ q ∈ twoVertexMesh.getVertexPositions,
        q.rounded 6 ≠ (⟨0, 1, 0⟩ : zVector).rounded 6)) ∧
    (twoVertexMesh.addVertex ⟨1, 0, mkRat 1 10000000⟩ true = (twoVertexMesh, false, 1) ∧
      (twoVertexMesh.addVertex ⟨1, 0, mkRat 1 10000000⟩ true).1.numVertices =
        twoVertexMesh.numVertices) ∧
    ((twoVertexMesh.addVertex ⟨0, 1, 0⟩ true).2 = (true, twoVertexMesh.numVertices) ∧
      (twoVertexMesh.addVertex ⟨0, 1, 0⟩ true).1.numVertices = twoVertexMesh.numVertices + 1 ∧
      (twoVertexMesh.addVertex ⟨0, 1, 0⟩ true).1.getVertexPositions =
        twoVertexMesh.getVertexPositions ++ [⟨0, 1, 0⟩]) :=
  ⟨⟨by decide!, by decide!⟩,
    (addVertex_checkDuplicates twoVertexMesh ⟨1, 0, mkRat 1 10000000⟩).1 1 ⟨1, 0, 0⟩
      (by decide!) (by decide!) (by decide!),
    (addVertex_checkDuplicates twoVertexMesh ⟨0, 1, 0⟩).2 (by decide!)⟩

/-! ## Mesh function set: polygons -/

/-- Record-level effect of a store through a valid pointer. -/
theorem write_records (s : EdgeStore) (i : Nat) (g : zEdge → zEdge) (hi : i < s.length) :
    ∃ s1, s.write (some i) g = some s1 ∧ s1.length = s.length ∧
      ∀ j, s1[j]? = if j = i then (s[i]?).map g else s[j]? := by
  refine ⟨_, EdgeStore.write_eq_some hi g, by simp, ?_⟩
  intro j
  by_cases hj : j = i
  · subst hj
    simp [hi]
  · have hj2 : ¬ i = j := fun h => hj h.symm
    simp [List.getElem?_set, hj, hj2]

/-- Record-level effect of `setFace` on a valid half-edge. -/
theorem setFace_records (s : EdgeStore) (h : Nat) (p : Ptr) (hh : h < s.length) :
    ∃ s1, setFace s (some h) p = some s1 ∧ s1.length = s.length ∧
      ∀ j, s1[j]? = if j = h then (s[h]?).map (fun e => { e with f := p }) else s[j]? :=
  write_records s h _ hh

/-- Record-level effect of `setNext` on valid half-edges. -/
theorem setNext_records (s : EdgeStore) (A B : Nat) (hA : A < s.length) (hB : B < s.length) :
    ∃ s1, setNext s (some A) (some B) = some s1 ∧ s1.length = s.length ∧
      ∀ (j : Nat) (e : zEdge), s[j]? = some e →
        s1[j]? = some { e with next := (if j = A then some B else e.next),
                               prev := (if j = B then some A else e.prev) } := by
  obtain ⟨s0, h0, hl0, hr0⟩ := write_records s A (fun e => { e with next := some B }) hA
  obtain ⟨s1, h1, hl1, hr1⟩ := write_records s0 B (fun e => { e with prev := some A })
    (hl0 ▸ hB)
  refine ⟨s1, by simp [setNext, h0, h1], by omega, ?_⟩
  intro j e hje
  rw [hr1 j]
  by_cases hjB : j = B
  · subst hjB
    rw [hr0 j]
    by_cases hjA : j = A
    · subst hjA
      simp [hje]
    · simp [hjA, hje]
  · rw [hr0 j]
    by_cases hjA : j = A
    · subst hjA
      simp [hjB, hje]
    · simp [hjA, hjB, hje]

/-- Effect of `claimFaces`: when the half-edges are distinct, in the store and
bound to no face, they all get the face and nothing else changes. -/
theorem claimFaces_records (F : Nat) (hs : List Nat) (s : EdgeStore) (hnd : hs.Nodup)
    (hfree : ∀ h ∈ hs, ∃ e, s[h]? = some e ∧ e.f = none) :
    ∃ s1, claimFaces s F hs = some s1 ∧ s1.length = s.length ∧
      ∀ j, s1[j]? = if j ∈ hs then (s[j]?).map (fun e => { e with f := some F }) else s[j]? := by
  induction hs generalizing s with
  | nil => exact ⟨s, rfl, rfl, by simp⟩
  | cons h hs ih =>
    obtain ⟨e, he, hef⟩ := hfree h (by simp)
    have hh : h < s.length := by
      by_contra hc
      simp [List.getElem?_eq_none (Nat.le_of_not_lt hc)] at he
    obtain ⟨s0, h0, hl0, hr0⟩ := setFace_records s h (some F) hh
    have hnd2 := List.nodup_cons.1 hnd
    have hfree0 : ∀ k ∈ hs, ∃ e, s0[k]? = some e ∧ e.f = none := by
      intro k hk
      have hkh : k ≠ h := fun hkh => hnd2.1 (hkh ▸ hk)
      rw [hr0 k]
      simpa [hkh] using hfree k (by simp [hk])
    obtain ⟨s1, h1, hl1, hr1⟩ := ih s0 hnd2.2 hfree0
    refine ⟨s1, ?_, by omega, ?_⟩
    · simp [claimFaces, EdgeStore.read, he, hef, h0, h1]
    · intro j
      rw [hr1 j, hr0 j]
      by_cases hjh : j = h
      · subst hjh
        simp [hnd2.1]
      · by_cases hjm : j ∈ hs
        · simp [hjh, hjm]
        · simp [hjh, hjm]

/-- Effect of `linkLoop` on pairs of half-edges of the store: it succeeds, keeps
every field but `next` and `prev`, sets `next` along every pair when the first
components are distinct, and leaves `next` and `prev` of other half-edges. -/
theorem linkLoop_records (pairs : List (Nat × Nat)) (s : EdgeStore)
    (hin : ∀ pr ∈ pairs, pr.1 < s.length ∧ pr.2 < s.length) :
    ∃ s2, linkLoop s pairs = some s2 ∧ s2.length = s.length ∧
      ∀ j e, s[j]? = some e → ∃ e2, s2[j]? = some e2 ∧
        e2.edgeId = e.edgeId ∧ e2.v = e.v ∧ e2.f = e.f ∧ e2.sym = e.sym ∧
        (j ∉ pairs.map Prod.fst → e2.next = e.next) ∧
        (j ∉ pairs.map Prod.snd → e2.prev = e.prev) ∧
        ((pairs.map Prod.fst).Nodup → ∀ b, (j, b) ∈ pairs → e2.next = some b) := by
  induction pairs generalizing s with
  | nil =>
    refine ⟨s, rfl, rfl, ?_⟩
    intro j e hje
    exact ⟨e, hje, rfl, rfl, rfl, rfl, fun _ => rfl, fun _ => rfl, by simp⟩
  | cons pr rest ih =>
    obtain ⟨a, b⟩ := pr
    have hab := hin (a, b) (by simp)
    obtain ⟨s1, h1, hl1, hr1⟩ := setNext_records s a b hab.1 hab.2
    have hin1 : ∀ pr ∈ rest, pr.1 < s1.length ∧ pr.2 < s1.length := by
      intro pr hpr
      rw [hl1]
      exact hin pr (by simp [hpr])
    obtain ⟨s2, h2, hl2, hr2⟩ := ih s1 hin1
    refine ⟨s2, by simp [linkLoop, h1, h2], by omega, ?_⟩
    intro j e hje
    obtain ⟨e2, he2, hid, hv, hf, hsym, hnext, hprev, hlink⟩ := hr2 j _ (hr1 j e hje)
    refine ⟨e2, he2, by simpa using hid, by simpa using hv, by simpa using hf,
      by simpa using hsym, ?_, ?_, ?_⟩
    · intro hj
      simp only [List.map_cons, List.mem_cons, not_or] at hj
      rw [hnext hj.2]
      simp [hj.1]
    · intro hj
      simp only [List.map_cons, List.mem_cons, not_or] at hj
      rw [hprev hj.2]
      simp [hj.1]
    · intro hnd c hc
      simp only [List.map_cons, List.nodup_cons] at hnd
      simp only [List.mem_cons, Prod.mk.injEq] at hc
      rcases hc with ⟨hja, hcb⟩ | hc
      · subst hja; subst hcb
        rw [hnext hnd.1]
        simp
      · exact hlink hnd.2 c hc

theorem withNewEdge_forward (m : zMesh) (a b : Nat) :
    (m.withNewEdge a b).halfEdges[m.halfEdges.length]? =
      some { zEdge.zEdge with
        edgeId := m.numHalfEdges, v := some b, sym := some (m.numHalfEdges + 1) } := by
  simp only [withNewEdge]
  rw [List.getElem?_append_right (le_refl _)]
  simp

theorem withNewEdge_twin (m : zMesh) (a b : Nat) :
    (m.withNewEdge a b).halfEdges[m.halfEdges.length + 1]? =
      some { zEdge.zEdge with
        edgeId := m.numHalfEdges + 1, v := some a, sym := some m.numHalfEdges } := by
  simp only [withNewEdge]
  rw [List.getElem?_append_right (Nat.le_succ _)]
  simp

theorem withNewEdge_old (m : zMesh) (a b : Nat) (h : Nat) (e : zEdge)
    (hhe : m.halfEdges[h]? = some e) : (m.withNewEdge a b).halfEdges[h]? = some e := by
  have hh : h < m.halfEdges.length := by
    by_contra hc
    simp [List.getElem?_eq_none (Nat.le_of_not_lt hc)] at hhe
  simp [withNewEdge, List.getElem?_append_left hh, hhe]

theorem lookup_cons_ne {k k1 : Nat × Nat} {h : Nat} {l : List ((Nat × Nat) × Nat)}
    (hne : k ≠ k1) : List.lookup k ((k1, h) :: l) = List.lookup k l := by
  have : (k == k1) = false := by simpa using hne
  simp [List.lookup, this]

/-- On sides whose edges do not exist yet and are pairwise different edges,
`ensureEdges` allocates one half-edge pair per side, appended to the store in
order, and returns the forward half-edges. -/
theorem ensureEdges_fresh (sides : List (Nat × Nat)) (m : zMesh)
    (hv : ∀ sd ∈ sides, sd.1 < m.numVertices ∧ sd.2 < m.numVertices)
    (hnd : (sides.map (fun sd => pairKey sd.1 sd.2)).Nodup)
    (hnew : ∀ sd ∈ sides, m.halfEdgesMap.lookup (pairKey sd.1 sd.2) = none) :
    ∃ m1, ensureEdges m sides =
        some (m1, List.iterate (· + 2) m.numHalfEdges sides.length) ∧
      m1.vertices = m.vertices ∧ m1.faces = m.faces ∧
      m1.edges = m.edges ++
        (List.iterate (· + 2) m.numHalfEdges sides.length).map (fun h => (h, h + 1)) ∧
      m1.halfEdges.length = m.halfEdges.length + 2 * sides.length ∧
      (∀ (h : Nat) (e : zEdge), m.halfEdges[h]? = some e → m1.halfEdges[h]? = some e) ∧
      (∀ h ∈ List.iterate (· + 2) m.numHalfEdges sides.length, ∃ e t,
        m1.halfEdges[h]? = some e ∧ e.f = none ∧ e.sym = some (h + 1) ∧
        m1.halfEdges[h + 1]? = some t ∧ t.f = none ∧ t.sym = some h) := by
  induction sides generalizing m with
  | nil => exact ⟨m, rfl, rfl, rfl, by simp, by simp, fun _ _ h => h, by simp⟩
  | cons sd rest ih =>
    obtain ⟨a, b⟩ := sd
    have hab := hv (a, b) (by simp)
    have hlk : m.halfEdgeExists a b = none := hnew (a, b) (by simp)
    rcases addEdges_cases m a b true hab.1 hab.2 with ⟨he, _, hl, _⟩ | ⟨_, hres⟩
    · rw [hlk] at hl; simp at hl
    · simp only [List.map_cons, List.nodup_cons] at hnd
      have hv1 : ∀ sd ∈ rest,
          sd.1 < (m.withNewEdge a b).numVertices ∧ sd.2 < (m.withNewEdge a b).numVertices :=
        fun sd hsd => hv sd (by simp [hsd])
      have hnew1 : ∀ sd ∈ rest,
          List.lookup (pairKey sd.1 sd.2) (m.withNewEdge a b).halfEdgesMap = none := by
        intro sd hsd
        have hne : pairKey sd.1 sd.2 ≠ pairKey a b := by
          intro heq
          exact hnd.1 (List.mem_map.2 ⟨sd, hsd, heq⟩)
        simp only [withNewEdge]
        rw [lookup_cons_ne hne]
        exact hnew sd (by simp [hsd])
      obtain ⟨m1, hens, hvs, hfs, hes, hlen, hold, hpairs⟩ :=
        ih (m.withNewEdge a b) hv1 hnd.2 hnew1
      have hN : (m.withNewEdge a b).numHalfEdges = m.numHalfEdges + 2 := by
        simp [withNewEdge, numHalfEdges]
      rw [hN] at hens hes hpairs
      have hside : sideHalfEdge (m.withNewEdge a b).halfEdges m.numHalfEdges b =
          some m.numHalfEdges := by
        simp [sideHalfEdge, EdgeStore.read, numHalfEdges, withNewEdge_forward, bind, Option.bind]
      have hold0 := withNewEdge_old m a b
      refine ⟨m1, ?_, hvs, hfs, ?_, ?_, fun h e hhe => hold h e (hold0 h e hhe), ?_⟩
      · simp [ensureEdges, hres, hside, hens, List.iterate]
      · rw [hes]
        simp [List.iterate, withNewEdge]
      · rw [hlen]
        simp [withNewEdge]
        omega
      · intro h hh
        simp only [List.length_cons, List.iterate, List.mem_cons] at hh
        rcases hh with hh | hh
        · subst hh
          exact ⟨_, _, hold _ _ (withNewEdge_forward m a b), rfl, rfl,
            hold _ _ (withNewEdge_twin m a b), rfl, rfl⟩
        · exact hpairs h hh

theorem mem_iterate_add_two (N k h : Nat) :
    h ∈ List.iterate (· + 2) N k ↔ ∃ i, i < k ∧ h = N + 2 * i := by
  induction k generalizing N with
  | zero => simp [List.iterate]
  | succ k ih =>
    simp only [List.iterate, List.mem_cons, ih]
    constructor
    · rintro (h0 | ⟨i, hi, hh⟩)
      · exact ⟨0, by omega, by omega⟩
      · exact ⟨i + 1, by omega, by omega⟩
    · rintro ⟨i, hi, hh⟩
      cases i with
      | zero => left; omega
      | succ i => right; exact ⟨i, by omega, by omega⟩

theorem nodup_iterate_add_two (N k : Nat) : (List.iterate (· + 2) N k).Nodup := by
  induction k generalizing N with
  | zero => simp [List.iterate]
  | succ k ih =>
    simp only [List.iterate, List.nodup_cons]
    refine ⟨?_, ih _⟩
    rw [mem_iterate_add_two]
    rintro ⟨i, _, hh⟩
    omega

theorem closedPairs_length {α : Type} (first : α) (l : List α) :
    (closedPairs first l).length = l.length := by
  induction l with
  | nil => rfl
  | cons a l ih =>
    cases l with
    | nil => rfl
    | cons b rest => simpa [closedPairs] using ih

theorem polygonSides_length {α : Type} (l : List α) : (polygonSides l).length = l.length := by
  cases l with
  | nil => rfl
  | cons a rest => exact closedPairs_length a _

theorem closedPairs_mem {α : Type} (first : α) (l : List α) (pr : α × α)
    (h : pr ∈ closedPairs first l) : pr.1 ∈ l ∧ (pr.2 ∈ l ∨ pr.2 = first) := by
  induction l with
  | nil => simp [closedPairs] at h
  | cons a l ih =>
    cases l with
    | nil =>
      simp only [closedPairs, List.mem_singleton] at h
      subst h
      simp
    | cons b rest =>
      simp only [closedPairs, List.mem_cons] at h
      rcases h with h | h
      · subst h
        simp
      · have := ih (by simpa using h)
        rcases this with ⟨h1, h2 | h2⟩
        · exact ⟨List.mem_cons_of_mem _ h1, Or.inl (List.mem_cons_of_mem _ h2)⟩
        · exact ⟨List.mem_cons_of_mem _ h1, Or.inr h2⟩

theorem polygonSides_mem {α : Type} (l : List α) (pr : α × α) (h : pr ∈ polygonSides l) :
    pr.1 ∈ l ∧ pr.2 ∈ l := by
  cases l with
  | nil => simp [polygonSides] at h
  | cons a rest =>
    obtain ⟨h1, h2 | h2⟩ := closedPairs_mem a (a :: rest) pr h
    · exact ⟨h1, h2⟩
    · exact ⟨h1, by simp [h2]⟩

theorem closedPairs_range' (first k len : Nat) :
    closedPairs first (List.range' k (len + 1)) =
      (List.range' k len).map (fun i => (i, i + 1)) ++ [(k + len, first)] := by
  induction len generalizing k with
  | zero => simp [closedPairs]
  | succ len ih =>
    have h1 : List.range' k (len + 1 + 1) = k :: (k + 1) :: List.range' (k + 1 + 1) len := by
      simp [List.range'_succ]
    have h2 : List.range' (k + 1) (len + 1) = (k + 1) :: List.range' (k + 1 + 1) len := by
      simp [List.range'_succ]
    rw [h1, closedPairs, ← h2, ih (k + 1)]
    simp [List.range'_succ]
    omega

/-- The sides of the polygon on the vertices `0, 1, ..., n-1` are `n` different
edges when `n ≥ 3`. -/
theorem polygonSides_range_keys (n : Nat) (hn : 3 ≤ n) :
    ((polygonSides (List.range' 0 n)).map (fun sd => pairKey sd.1 sd.2)).Nodup := by
  obtain ⟨k, rfl⟩ : ∃ k, n = k + 1 := ⟨n - 1, by omega⟩
  have hps : polygonSides (List.range' 0 (k + 1)) = closedPairs 0 (List.range' 0 (k + 1)) := by
    simp [polygonSides, List.range'_succ]
  rw [hps, closedPairs_range', List.map_append, List.nodup_append]
  refine ⟨?_, by simp, ?_⟩
  · rw [List.map_map]
    refine List.Nodup.map ?_ (List.nodup_range' 0 k)
    intro i j hij
    simp only [Function.comp, pairKey, Prod.mk.injEq] at hij
    have := hij.1
    simp at this
    omega
  · intro x hx1 hx2
    simp only [List.map_map, List.mem_map, List.mem_range', Function.comp, pairKey] at hx1
    obtain ⟨i, ⟨j, hj⟩, hi⟩ := hx1
    simp only [List.map_cons, List.map_nil, List.mem_singleton, pairKey] at hx2
    rw [hx2] at hi
    simp only [Prod.mk.injEq] at hi
    have h1 := hi.1
    have h2 := hi.2
    simp at h1 h2
    omega

/-- Vertices added without the duplicate check: each position gets the next
identity, and nothing but the vertex store changes. -/
theorem addVertices_new (ps : List zVector) (m : zMesh) :
    (addVertices m false ps).2 = List.range' m.numVertices ps.length ∧
    (addVertices m false ps).1.numVertices = m.numVertices + ps.length ∧
    (addVertices m false ps).1.halfEdges = m.halfEdges ∧
    (addVertices m false ps).1.edges = m.edges ∧
    (addVertices m false ps).1.faces = m.faces ∧
    (addVertices m false ps).1.halfEdgesMap = m.halfEdgesMap := by
  induction ps generalizing m with
  | nil => simp [addVertices]
  | cons p ps ih =>
    obtain ⟨h1, h2, h3, h4, h5, h6⟩ := ih (m.addVertex p false).1
    simp only [addVertices]
    rw [h1, h2, h3, h4, h5, h6]
    simp [addVertex, numVertices, List.range'_succ]
    omega

theorem getElem?_lt_length {s : EdgeStore} {h : Nat} {e : zEdge} (hhe : s[h]? = some e) :
    h < s.length := by
  by_contra hc
  simp [List.getElem?_eq_none (Nat.le_of_not_lt hc)] at hhe

/-- C9: for every polygon of `n ≥ 3` positions (distinct or not) added with
`addPolygon` to an empty mesh, the call returns, and afterwards
`numVertices = n`, `numEdges = n`, `numHalfEdges = 2n`, `numPolygons = 1`, and
every logical edge is a twin pair in which exactly one half-edge has the new
face and its twin has a null face. -/
theorem addPolygon_on_empty (ps : List zVector) (hn : 3 ≤ ps.length) :
    ∃ m f, addPolygonPositions empty ps = some (m, true, f) ∧
      m.numVertices = ps.length ∧ m.numEdges = ps.length ∧
      m.numHalfEdges = 2 * ps.length ∧ m.numPolygons = 1 ∧
      ∀ pr ∈ m.edges,
        getSym m.halfEdges (some pr.1) = some (some pr.2) ∧
        getSym m.halfEdges (some pr.2) = some (some pr.1) ∧
        ((getFace m.halfEdges (some pr.1) = some (some f) ∧
            getFace m.halfEdges (some pr.2) = some none) ∨
          (getFace m.halfEdges (some pr.2) = some (some f) ∧
            getFace m.halfEdges (some pr.1) = some none)) := by
  obtain ⟨hids, hnv, hhe, hed, hfa, hmap⟩ := addVertices_new ps empty
  generalize hm0 : (addVertices empty false ps).1 = m0 at hnv hhe hed hfa hmap
  have hnv0 : m0.numVertices = ps.length := by simpa [numVertices, empty] using hnv
  have hids0 : (addVertices empty false ps).2 = List.range' 0 ps.length := by
    simpa [numVertices, empty] using hids
  have hhe0 : m0.halfEdges = [] := by simpa [empty] using hhe
  have hN0 : m0.numHalfEdges = 0 := by simp [numHalfEdges, hhe0]
  -- the edges of the sides
  have hv : ∀ sd ∈ polygonSides (List.range' 0 ps.length),
      sd.1 < m0.numVertices ∧ sd.2 < m0.numVertices := by
    intro sd hsd
    have := polygonSides_mem _ sd hsd
    simp only [List.mem_range'_1] at this
    omega
  have hnew : ∀ sd ∈ polygonSides (List.range' 0 ps.length),
      m0.halfEdgesMap.lookup (pairKey sd.1 sd.2) = none := by
    intro sd _
    rw [hmap]
    rfl
  obtain ⟨m1, hens, hvs, hfs, hes, hlen, _, hpairs⟩ :=
    ensureEdges_fresh _ m0 hv (polygonSides_range_keys ps.length hn) hnew
  rw [polygonSides_length, List.length_range', hN0] at hens hes hpairs
  rw [polygonSides_length, List.length_range', hhe0] at hlen
  -- the face claims the forward half-edges
  have hfree : ∀ h ∈ List.iterate (· + 2) 0 ps.length,
      ∃ e, m1.halfEdges[h]? = some e ∧ e.f = none := by
    intro h hh
    obtain ⟨e, _, he, hf, _⟩ := hpairs h hh
    exact ⟨e, he, hf⟩
  obtain ⟨s1, hcl, hl1, hr1⟩ :=
    claimFaces_records m1.numPolygons _ m1.halfEdges (nodup_iterate_add_two 0 ps.length) hfree
  -- the loop is linked
  have hin : ∀ pr ∈ polygonSides (List.iterate (· + 2) 0 ps.length),
      pr.1 < s1.length ∧ pr.2 < s1.length := by
    intro pr hpr
    obtain ⟨h1, h2⟩ := polygonSides_mem _ pr hpr
    obtain ⟨_, _, he1, _⟩ := hpairs _ h1
    obtain ⟨_, _, he2, _⟩ := hpairs _ h2
    rw [hl1]
    exact ⟨getElem?_lt_length he1, getElem?_lt_length he2⟩
  obtain ⟨s2, hlk, hl2, hr2⟩ := linkLoop_records _ s1 hin
  have hpoly : m1.numPolygons = 0 := by simp [numPolygons, hfs, hfa, empty]
  refine ⟨{ m1 with
    halfEdges := s2
    faces := m1.faces ++ [{ zFace.zFace with
      faceId := m1.numPolygons, e := (List.iterate (· + 2) 0 ps.length).head? }] },
    m1.numPolygons, ?_, ?_, ?_, ?_, ?_, ?_⟩
  · have hlen3 : ¬ ps.length < 3 := by omega
    simp [addPolygonPositions, hm0, hids0, addPolygon, hlen3, hens, hcl, hlk]
  · simpa [numVertices, hvs] using hnv0
  · simp [numEdges, hes, hed, empty]
  · simp only [numHalfEdges, hl2, hl1, hlen, List.length_nil]
    omega
  · simp [numPolygons, hfs, hfa, empty]
  · intro pr hpr
    simp only [hes, hed, empty, List.nil_append, List.mem_map] at hpr
    obtain ⟨h, hh, rfl⟩ := hpr
    obtain ⟨e, t, he, hef, hes, ht, htf, hts⟩ := hpairs h hh
    have hnot : h + 1 ∉ List.iterate (· + 2) 0 ps.length := by
      rw [mem_iterate_add_two]
      rintro ⟨i, _, hi⟩
      rw [mem_iterate_add_two] at hh
      obtain ⟨j, _, hj⟩ := hh
      omega
    have he1 : s1[h]? = some { e with f := some m1.numPolygons } := by
      rw [hr1 h]
      simp [hh, he]
    have ht1 : s1[h + 1]? = some t := by
      rw [hr1 (h + 1)]
      simp [hnot, ht]
    obtain ⟨e2, he2, _, _, hf2, hs2, _⟩ := hr2 h _ he1
    obtain ⟨t2, ht2, _, _, hft2, hst2, _⟩ := hr2 (h + 1) _ ht1
    refine ⟨?_, ?_, Or.inl ⟨?_, ?_⟩⟩
    · simp [getSym, EdgeStore.read, he2, hs2, hes]
    · simp [getSym, EdgeStore.read, ht2, hst2, hts]
    · simp [getFace, EdgeStore.read, he2, hf2]
    · simp [getFace, EdgeStore.read, ht2, hft2, htf]

theorem addPolygon_on_empty_witness :
    3 ≤ unitSquare.length ∧
    ∃ m f, addPolygonPositions empty unitSquare = some (m, true, f) ∧
      m.numVertices = unitSquare.length ∧ m.numEdges = unitSquare.length ∧
      m.numHalfEdges = 2 * unitSquare.length ∧ m.numPolygons = 1 ∧
      ∀ pr ∈ m.edges,
        getSym m.halfEdges (some pr.1) = some (some pr.2) ∧
        getSym m.halfEdges (some pr.2) = some (some pr.1) ∧
        ((getFace m.halfEdges (some pr.1) = some (some f) ∧
            getFace m.halfEdges (some pr.2) = some none) ∨
          (getFace m.halfEdges (some pr.2) = some (some f) ∧
            getFace m.halfEdges (some pr.1) = some none)) :=
  ⟨by decide, addPolygon_on_empty unitSquare (by decide)⟩

/-! ## Mesh function set: rebuilding a mesh from its polygon data -/

theorem pairKey_eq {a b c d : Nat} (h : pairKey a b = pairKey c d) :
    (a = c ∧ b = d) ∨ (a = d ∧ b = c) := by
  simp only [pairKey, Prod.mk.injEq] at h
  omega

theorem IsSide.unique {s : EdgeStore} {h a b c d : Nat}
    (h1 : IsSide s h a b) (h2 : IsSide s h c d) : a = c ∧ b = d := by
  obtain ⟨e, t, te, he, hv, hs, ht, htv, _⟩ := h1
  obtain ⟨e', t', te', he', hv', hs', ht', htv', _⟩ := h2
  rw [he] at he'
  cases he'
  rw [hs] at hs'
  cases hs'
  rw [ht] at ht'
  cases ht'
  rw [hv] at hv'
  rw [htv] at htv'
  cases hv'
  cases htv'
  exact ⟨rfl, rfl⟩

theorem getElem?_append_some {s ext : EdgeStore} {h : Nat} {e : zEdge}
    (hhe : s[h]? = some e) : (s ++ ext)[h]? = some e := by
  rw [List.getElem?_append_left (getElem?_lt_length hhe)]
  exact hhe

theorem Grows.refl (s : EdgeStore) : Grows s s := ⟨[], by simp, by simp⟩

theorem Grows.trans {s s1 s2 : EdgeStore} (h1 : Grows s s1) (h2 : Grows s1 s2) : Grows s s2 := by
  obtain ⟨x, rfl, hx⟩ := h1
  obtain ⟨y, rfl, hy⟩ := h2
  refine ⟨x ++ y, by simp, ?_⟩
  intro e he
  rcases List.mem_append.1 he with h | h
  · exact hx e h
  · exact hy e h

theorem Grows.old {s s1 : EdgeStore} (hg : Grows s s1) {h : Nat} {e : zEdge}
    (hhe : s[h]? = some e) : s1[h]? = some e := by
  obtain ⟨x, rfl, _⟩ := hg
  exact getElem?_append_some hhe

theorem Grows.new {s s1 : EdgeStore} (hg : Grows s s1) {h : Nat} {e : zEdge}
    (hhe : s1[h]? = some e) (hf : e.f ≠ none) : s[h]? = some e := by
  obtain ⟨x, rfl, hx⟩ := hg
  by_cases hh : h < s.length
  · rwa [List.getElem?_append_left hh] at hhe
  · rw [List.getElem?_append_right (Nat.le_of_not_lt hh)] at hhe
    exact absurd (hx e (List.getElem?_mem hhe)) hf

theorem Grows.isSide {s s1 : EdgeStore} (hg : Grows s s1) {h a b : Nat}
    (hs : IsSide s h a b) : IsSide s1 h a b := by
  obtain ⟨e, t, te, he, hv, hsy, ht, htv, hts⟩ := hs
  exact ⟨e, t, te, hg.old he, hv, hsy, hg.old ht, htv, hts⟩

theorem grows_withNewEdge (m : zMesh) (a b : Nat) :
    Grows m.halfEdges (m.withNewEdge a b).halfEdges := by
  refine ⟨_, rfl, ?_⟩
  intro e he
  simp only [List.mem_cons, List.mem_singleton, List.not_mem_nil, or_false] at he
  rcases he with rfl | rfl <;> rfl

theorem isSide_withNewEdge (m : zMesh) (a b : Nat) :
    IsSide (m.withNewEdge a b).halfEdges m.numHalfEdges a b :=
  ⟨_, _, _, withNewEdge_forward m a b, rfl, rfl, withNewEdge_twin m a b, rfl, rfl⟩

theorem built_withNewEdge {m : zMesh} {used : List (Nat × Nat)} (hB : Built m used)
    (a b : Nat) : Built (m.withNewEdge a b) used := by
  have hg := grows_withNewEdge m a b
  constructor
  · intro k h hk
    by_cases hkk : k = pairKey a b
    · subst hkk
      have : h = m.numHalfEdges := by
        simpa [withNewEdge, List.lookup] using hk.symm
      subst this
      exact ⟨a, b, isSide_withNewEdge m a b, rfl⟩
    · have hk2 : m.halfEdgesMap.lookup k = some h := by
        simp only [withNewEdge] at hk
        rwa [lookup_cons_ne hkk] at hk
      obtain ⟨c, d, hs, hkey⟩ := hB.registered k h hk2
      exact ⟨c, d, hg.isSide hs, hkey⟩
  · intro h e hhe hf
    obtain ⟨c, d, hs, hu⟩ := hB.bound h e (hg.new hhe hf) hf
    exact ⟨c, d, hg.isSide hs, hu⟩

theorem sideHalfEdge_isSide {s : EdgeStore} {he a b c d : Nat} (hs : IsSide s he c d)
    (hk : pairKey c d = pairKey a b) : ∃ h, sideHalfEdge s he b = some h ∧ IsSide s h a b := by
  obtain ⟨e, t, te, hhe, hv, hsy, ht, htv, hts⟩ := hs
  by_cases hdb : d = b
  · subst hdb
    have hca : c = a := by
      rcases pairKey_eq hk with h | h <;> omega
    subst hca
    refine ⟨he, ?_, e, t, te, hhe, hv, hsy, ht, htv, hts⟩
    simp [sideHalfEdge, EdgeStore.read, hhe, hv]
  · have hcd : c = b ∧ d = a := by
      rcases pairKey_eq hk with h | h
      · exact absurd h.2 hdb
      · exact h
    obtain ⟨rfl, rfl⟩ := hcd
    refine ⟨t, ?_, te, he, e, ht, htv, hts, hhe, hv, hsy⟩
    have : ¬ e.v = some c := by
      rw [hv]
      intro h
      exact hdb (Option.some.inj h)
    simp [sideHalfEdge, EdgeStore.read, hhe, this, hsy]

/-- On a consistent mesh, `ensureEdges` returns, for every side between
existing vertices, a half-edge running along that side; it only appends fresh
half-edges and keeps the mesh consistent. -/
theorem ensureEdges_built (sides : List (Nat × Nat)) (m : zMesh) (used : List (Nat × Nat))
    (hB : Built m used)
    (hv : ∀ sd ∈ sides, sd.1 < m.numVertices ∧ sd.2 < m.numVertices) :
    ∃ m1 hs, ensureEdges m sides = some (m1, hs) ∧ Built m1 used ∧
      m1.vertices = m.vertices ∧ m1.faces = m.faces ∧ Grows m.halfEdges m1.halfEdges ∧
      List.Forall₂ (fun sd h => IsSide m1.halfEdges h sd.1 sd.2) sides hs := by
  induction sides generalizing m with
  | nil => exact ⟨m, [], rfl, hB, rfl, rfl, Grows.refl _, List.Forall₂.nil⟩
  | cons sd rest ih =>
    obtain ⟨a, b⟩ := sd
    have hab := hv (a, b) (by simp)
    rcases addEdges_cases m a b true hab.1 hab.2 with ⟨he, _, hl, hres⟩ | ⟨_, hres⟩
    · obtain ⟨c, d, hcd, hk⟩ := hB.registered _ _ hl
      obtain ⟨h, hside, hhs⟩ := sideHalfEdge_isSide hcd hk
      obtain ⟨m1, hs, hens, hB1, hvs, hfs, hg, hall⟩ :=
        ih m hB (fun sd hsd => hv sd (by simp [hsd]))
      refine ⟨m1, h :: hs, ?_, hB1, hvs, hfs, hg, List.Forall₂.cons (hg.isSide hhs) hall⟩
      simp [ensureEdges, hres, hside, hens]
    · have hv1 : ∀ sd ∈ rest,
          sd.1 < (m.withNewEdge a b).numVertices ∧ sd.2 < (m.withNewEdge a b).numVertices :=
        fun sd hsd => hv sd (by simp [hsd])
      obtain ⟨m1, hs, hens, hB1, hvs, hfs, hg, hall⟩ :=
        ih (m.withNewEdge a b) (built_withNewEdge hB a b) hv1
      have hside : sideHalfEdge (m.withNewEdge a b).halfEdges m.numHalfEdges b =
          some m.numHalfEdges := by
        simp [sideHalfEdge, EdgeStore.read, numHalfEdges, withNewEdge_forward, bind, Option.bind]
      refine ⟨m1, m.numHalfEdges :: hs, ?_, hB1, hvs, hfs,
        (grows_withNewEdge m a b).trans hg,
        List.Forall₂.cons (hg.isSide (isSide_withNewEdge m a b)) hall⟩
      simp [ensureEdges, hres, hside, hens]

theorem faceLoopAux_closed (s : EdgeStore) (h0 : Nat) (l : List Nat) (cur fuel : Nat)
    (hnext : ∀ pr ∈ closedPairs h0 (cur :: l), ∃ e, s[pr.1]? = some e ∧ e.next = some pr.2)
    (h0l : h0 ∉ l) (hfuel : l.length < fuel) :
    faceLoopAux s h0 fuel cur = some (cur :: l) := by
  induction l generalizing cur fuel with
  | nil =>
    obtain ⟨k, rfl⟩ : ∃ k, fuel = k + 1 := ⟨fuel - 1, by simp at hfuel; omega⟩
    obtain ⟨e, he, hn⟩ := hnext (cur, h0) (by simp [closedPairs])
    simp [faceLoopAux, EdgeStore.read, he, hn]
  | cons c l ih =>
    obtain ⟨k, rfl⟩ : ∃ k, fuel = k + 1 := ⟨fuel - 1, by simp at hfuel; omega⟩
    obtain ⟨e, he, hn⟩ := hnext (cur, c) (by simp [closedPairs])
    simp only [List.mem_cons, not_or] at h0l
    have hc : ¬ c = h0 := fun h => h0l.1 h.symm
    have hrec := ih c k (fun pr hpr => hnext pr (by simp [closedPairs, hpr])) h0l.2
      (by simp at hfuel; omega)
    simp [faceLoopAux, EdgeStore.read, he, hn, hc, hrec]

theorem loopVertices_of_forall₂ (s : EdgeStore) (hs vs : List Nat)
    (h : List.Forall₂ (fun h v => ∃ e, s[h]? = some e ∧ e.v = some v ∧ e.f ≠ none) hs vs) :
    loopVertices s hs = some vs := by
  induction h with
  | nil => rfl
  | cons hhv _ ih =>
    obtain ⟨e, he, hv, _⟩ := hhv
    simp [loopVertices, EdgeStore.read, he, hv, ih]

theorem nodup_length_le {l : List Nat} {n : Nat} (hnd : l.Nodup) (hlt : ∀ x ∈ l, x < n) :
    l.length ≤ n := by
  have hsub : l ⊆ List.range n := fun x hx => List.mem_range.2 (hlt x hx)
  have := (List.subperm_of_subset hnd hsub).length_le
  simpa using this

theorem forall₂_left_mem {α β : Type} {R : α → β → Prop} {l1 : List α} {l2 : List β}
    (h : List.Forall₂ R l1 l2) {a : α} (ha : a ∈ l1) : ∃ b, b ∈ l2 ∧ R a b := by
  induction h with
  | nil => simp at ha
  | cons hr _ ih =>
    rcases List.mem_cons.1 ha with rfl | ha
    · exact ⟨_, by simp, hr⟩
    · obtain ⟨b, hb, hrb⟩ := ih ha
      exact ⟨b, List.mem_cons_of_mem _ hb, hrb⟩

/-- The traversal of a face that refers to the first half-edge of a closed loop
returns the vertices of that loop. -/
theorem faceVertices_of_loop (m : zMesh) (f : zFace) (h : Nat) (hs vs : List Nat)
    (hf : f.e = some h) (hl : LoopOf m.halfEdges (h :: hs) vs) :
    m.faceVertices f = some vs := by
  obtain ⟨hnd, hnext, hvs⟩ := hl
  have hlen : (h :: hs).length ≤ m.halfEdges.length := by
    apply nodup_length_le hnd
    intro x hx
    obtain ⟨_, _, e, he, _⟩ := forall₂_left_mem hvs hx
    exact getElem?_lt_length he
  have hwalk : faceLoopAux m.halfEdges h m.halfEdges.length h = some (h :: hs) := by
    apply faceLoopAux_closed
    · intro pr hpr
      obtain ⟨e, he, hn, _⟩ := hnext pr hpr
      exact ⟨e, he, hn⟩
    · exact (List.nodup_cons.1 hnd).1
    · simpa using hlen
  simp [faceVertices, faceHalfEdges, hf, hwalk, loopVertices_of_forall₂ _ _ _ hvs]

theorem Frame.loopOf {s s1 : EdgeStore} (hfr : Frame s s1) {hs vs : List Nat}
    (hl : LoopOf s hs vs) : LoopOf s1 hs vs := by
  obtain ⟨hnd, hnext, hvs⟩ := hl
  refine ⟨hnd, ?_, ?_⟩
  · intro pr hpr
    obtain ⟨e, he, hn, hf⟩ := hnext pr hpr
    exact ⟨e, hfr _ _ he hf, hn, hf⟩
  · refine List.Forall₂.imp ?_ hvs
    rintro a b ⟨e, he, hv, hf⟩
    exact ⟨e, hfr _ _ he hf, hv, hf⟩

theorem Frame.allLoops {s s1 : EdgeStore} (hfr : Frame s s1) {faces : List zFace}
    {polys : List (List Nat)} (h : AllLoops s faces polys) : AllLoops s1 faces polys := by
  refine List.Forall₂.imp ?_ h
  rintro f p ⟨h, hs, hfe, hl⟩
  exact ⟨h, hs, hfe, hfr.loopOf hl⟩

/-- When every face refers to a closed loop, `faceLoops` returns the loops. -/
theorem faceLoopsOf_of_allLoops (m : zMesh) (faces : List zFace) (polys : List (List Nat))
    (h : AllLoops m.halfEdges faces polys) :
    m.faceLoopsOf faces = some (polys.map (fun p => p.rotate 1)) := by
  induction h with
  | nil => rfl
  | cons hfp _ ih =>
    obtain ⟨h, hs, hfe, hl⟩ := hfp
    simp [faceLoopsOf, faceVertices_of_loop m _ h hs _ hfe hl, ih]

theorem closedPairs_map_fst {α : Type} (first : α) (l : List α) :
    (closedPairs first l).map Prod.fst = l := by
  induction l with
  | nil => rfl
  | cons a l ih =>
    cases l with
    | nil => rfl
    | cons b rest => simpa [closedPairs] using ih

theorem closedPairs_map_snd {α : Type} (first a : α) (l : List α) :
    (closedPairs first (a :: l)).map Prod.snd = l ++ [first] := by
  induction l generalizing a with
  | nil => rfl
  | cons b rest ih => simpa [closedPairs] using ih b

theorem polygonSides_map_fst {α : Type} (l : List α) : (polygonSides l).map Prod.fst = l := by
  cases l with
  | nil => rfl
  | cons a rest => exact closedPairs_map_fst a _

theorem polygonSides_map_snd {α : Type} (l : List α) :
    (polygonSides l).map Prod.snd = l.rotate 1 := by
  cases l with
  | nil => rfl
  | cons a rest =>
    simp only [polygonSides]
    rw [closedPairs_map_snd]
    simp [List.rotate_cons_succ]

theorem forall₂_right_mem {α β : Type} {R : α → β → Prop} {l1 : List α} {l2 : List β}
    (h : List.Forall₂ R l1 l2) {b : β} (hb : b ∈ l2) : ∃ a, a ∈ l1 ∧ R a b := by
  induction h with
  | nil => simp at hb
  | cons hr _ ih =>
    rcases List.mem_cons.1 hb with rfl | hb
    · exact ⟨_, by simp, hr⟩
    · obtain ⟨a, ha, hra⟩ := ih hb
      exact ⟨a, List.mem_cons_of_mem _ ha, hra⟩

theorem forall₂_nodup {α β : Type} {R : α → β → Prop} {l1 : List α} {l2 : List β}
    (h : List.Forall₂ R l1 l2) (hinj : ∀ a a1 b, R a b → R a1 b → a = a1) (hnd : l1.Nodup) :
    l2.Nodup := by
  induction h with
  | nil => exact List.nodup_nil
  | cons hr hrest ih =>
    rw [List.nodup_cons] at hnd ⊢
    refine ⟨?_, ih hnd.2⟩
    intro hb
    obtain ⟨a1, ha1, hra1⟩ := forall₂_right_mem hrest hb
    exact hnd.1 (hinj _ _ _ hr hra1 ▸ ha1)

theorem forall₂_and_mem {α β : Type} {R : α → β → Prop} {l1 : List α} {l2 L : List β}
    (h : List.Forall₂ R l1 l2) (hsub : ∀ b ∈ l2, b ∈ L) :
    List.Forall₂ (fun a b => R a b ∧ b ∈ L) l1 l2 := by
  induction h with
  | nil => exact List.Forall₂.nil
  | cons hr _ ih =>
    exact List.Forall₂.cons ⟨hr, hsub _ (by simp)⟩
      (ih (fun b hb => hsub b (List.mem_cons_of_mem _ hb)))

/-- A store that keeps the vertex and the twin of every half-edge keeps the
sides they run along. -/
theorem isSide_of_same {s s1 : EdgeStore}
    (hsame : ∀ (h : Nat) (e : zEdge), s[h]? = some e →
      ∃ e1, s1[h]? = some e1 ∧ e1.v = e.v ∧ e1.sym = e.sym)
    {h a b : Nat} (hs : IsSide s h a b) : IsSide s1 h a b := by
  obtain ⟨e, t, te, he, hv, hsy, ht, htv, hts⟩ := hs
  obtain ⟨e1, he1, hv1, hs1⟩ := hsame h e he
  obtain ⟨t1, ht1, htv1, hts1⟩ := hsame t te ht
  exact ⟨e1, t, t1, he1, hv1.trans hv, hs1.trans hsy, ht1, htv1.trans htv, hts1.trans hts⟩

/-- On a consistent mesh, `addPolygon` on at least 3 existing vertices whose
sides are pairwise distinct and not used yet returns; the new face refers to a
closed loop through the polygon's vertices, the half-edges bound before are
untouched, and the mesh stays consistent. -/
theorem addPolygon_built (m : zMesh) (used : List (Nat × Nat)) (p : List Nat)
    (hB : Built m used) (hlen : 3 ≤ p.length) (hv : ∀ v ∈ p, v < m.numVertices)
    (hnd : (polygonSides p).Nodup) (hfresh : ∀ sd ∈ polygonSides p, sd ∉ used) :
    ∃ m1, addPolygon m p = some (m1, true, m.numPolygons) ∧
      Built m1 (used ++ polygonSides p) ∧ m1.vertices = m.vertices ∧
      Frame m.halfEdges m1.halfEdges ∧
      ∃ f h hs, m1.faces = m.faces ++ [f] ∧ f.e = some h ∧
        LoopOf m1.halfEdges (h :: hs) (p.rotate 1) := by
  -- the edges of the sides
  have hvs : ∀ sd ∈ polygonSides p, sd.1 < m.numVertices ∧ sd.2 < m.numVertices := by
    intro sd hsd
    obtain ⟨h1, h2⟩ := polygonSides_mem p sd hsd
    exact ⟨hv _ h1, hv _ h2⟩
  obtain ⟨m0, hs, hens, hB0, hvert, hfaces, hg, hall⟩ :=
    ensureEdges_built (polygonSides p) m used hB hvs
  have hhsnd : hs.Nodup := by
    refine forall₂_nodup hall ?_ hnd
    intro a a1 b hab ha1b
    obtain ⟨h1, h2⟩ := IsSide.unique hab ha1b
    exact Prod.ext h1 h2
  have hfree : ∀ h ∈ hs, ∃ e, m0.halfEdges[h]? = some e ∧ e.f = none := by
    intro h hh
    obtain ⟨sd, hsd, hside⟩ := forall₂_right_mem hall hh
    obtain ⟨e, he⟩ : ∃ e, m0.halfEdges[h]? = some e := by
      obtain ⟨e, _, _, he, _⟩ := hside
      exact ⟨e, he⟩
    refine ⟨e, he, ?_⟩
    by_contra hf
    obtain ⟨a, b, hab, hu⟩ := hB0.bound h e he hf
    obtain ⟨h1, h2⟩ := IsSide.unique hside hab
    have hsdab : sd = (a, b) := Prod.ext h1 h2
    exact hfresh sd hsd (hsdab ▸ hu)
  -- the face claims them and links them
  obtain ⟨s1, hcl, hl1, hr1⟩ := claimFaces_records m0.numPolygons hs m0.halfEdges hhsnd hfree
  have hin : ∀ pr ∈ polygonSides hs, pr.1 < s1.length ∧ pr.2 < s1.length := by
    intro pr hpr
    obtain ⟨h1, h2⟩ := polygonSides_mem _ pr hpr
    obtain ⟨_, he1, _⟩ := hfree _ h1
    obtain ⟨_, he2, _⟩ := hfree _ h2
    rw [hl1]
    exact ⟨getElem?_lt_length he1, getElem?_lt_length he2⟩
  obtain ⟨s2, hlk, hl2, hr2⟩ := linkLoop_records _ s1 hin
  -- every record of the store before is still there, with the same vertex and twin
  have hsame : ∀ (h : Nat) (e : zEdge), m0.halfEdges[h]? = some e →
      ∃ e2, s2[h]? = some e2 ∧ e2.v = e.v ∧ e2.sym = e.sym ∧
        e2.f = (if h ∈ hs then some m0.numPolygons else e.f) := by
    intro h e he
    by_cases hh : h ∈ hs
    · have he1 : s1[h]? = some { e with f := some m0.numPolygons } := by
        rw [hr1 h]; simp [hh, he]
      obtain ⟨e2, he2, _, hv2, hf2, hs2, _⟩ := hr2 h _ he1
      exact ⟨e2, he2, hv2, hs2, by simpa [hh] using hf2⟩
    · have he1 : s1[h]? = some e := by
        rw [hr1 h]; simp [hh, he]
      obtain ⟨e2, he2, _, hv2, hf2, hs2, _⟩ := hr2 h _ he1
      exact ⟨e2, he2, hv2, hs2, by simpa [hh] using hf2⟩
  have hside2 : ∀ {h a b : Nat}, IsSide m0.halfEdges h a b → IsSide s2 h a b := by
    intro h a b hs0
    refine isSide_of_same ?_ hs0
    intro h e he
    obtain ⟨e2, he2, hv2, hs2, _⟩ := hsame h e he
    exact ⟨e2, he2, hv2, hs2⟩
  have hne : hs ≠ [] := by
    intro h0
    have hlen2 : p.length = hs.length := by
      rw [← polygonSides_length p]
      exact hall.length_eq
    rw [h0, List.length_nil] at hlen2
    omega
  obtain ⟨h0, hs', rfl⟩ : ∃ h0 hs', hs = h0 :: hs' := by
    cases hs with
    | nil => exact absurd rfl hne
    | cons a l => exact ⟨a, l, rfl⟩
  have hpoly : m0.numPolygons = m.numPolygons := by simp [numPolygons, hfaces]
  refine ⟨{ m0 with
    halfEdges := s2
    faces := m0.faces ++ [{ zFace.zFace with faceId := m0.numPolygons, e := some h0 }] },
    ?_, ?_, hvert, ?_, { zFace.zFace with faceId := m0.numPolygons, e := some h0 }, h0, hs',
    by simp [hfaces], rfl, ?_⟩
  · have hlen3 : ¬ p.length < 3 := by omega
    have hcl1 := hcl
    rw [hpoly] at hcl1
    simp [addPolygon, hlen3, hens, hcl1, hlk, hpoly]
  · constructor
    · intro k h hk
      obtain ⟨a, b, hab, hkey⟩ := hB0.registered k h hk
      exact ⟨a, b, hside2 hab, hkey⟩
    · intro h e2 he2 hf2
      have hh : h < m0.halfEdges.length := by
        have := getElem?_lt_length he2
        simp only [hl2, hl1] at this
        exact this
      obtain ⟨e, he⟩ : ∃ e, m0.halfEdges[h]? = some e :=
        ⟨_, List.getElem?_eq_getElem hh⟩
      obtain ⟨e2', he2', _, _, hf2'⟩ := hsame h e he
      simp only [] at he2
      rw [he2] at he2'
      cases he2'
      by_cases hmem : h ∈ h0 :: hs'
      · obtain ⟨sd, hsd, hside⟩ := forall₂_right_mem hall hmem
        exact ⟨sd.1, sd.2, hside2 hside, List.mem_append_right _ hsd⟩
      · rw [if_neg hmem] at hf2'
        obtain ⟨a, b, hab, hu⟩ := hB0.bound h e he (hf2' ▸ hf2)
        exact ⟨a, b, hside2 hab, List.mem_append_left _ hu⟩
  · intro h e he hf
    have he0 := hg.old he
    have hmem : h ∉ h0 :: hs' := by
      intro hmem
      obtain ⟨e', he', hf'⟩ := hfree h hmem
      rw [he0] at he'
      cases he'
      exact hf hf'
    have he1 : s1[h]? = some e := by
      rw [hr1 h]; simp only [hmem, if_false]; exact he0
    obtain ⟨e2, he2, hid, hv2, hf2, hs2, hnext, hprev, _⟩ := hr2 h _ he1
    have hn := hnext (by rw [polygonSides_map_fst]; exact hmem)
    have hp := hprev (by
      rw [polygonSides_map_snd]
      intro hx
      exact hmem (List.mem_rotate.1 hx))
    simp only []
    rw [he2]
    cases e
    cases e2
    simp_all
  · refine ⟨hhsnd, ?_, ?_⟩
    · intro pr hpr
      obtain ⟨h1, _⟩ := polygonSides_mem _ pr hpr
      obtain ⟨e, he, _⟩ := hfree _ h1
      have he1 : s1[pr.1]? = some { e with f := some m0.numPolygons } := by
        rw [hr1 pr.1]; simp [h1, he]
      obtain ⟨e2, he2, _, _, hf2, _, _, _, hlink⟩ := hr2 pr.1 _ he1
      refine ⟨e2, he2, hlink (by rw [polygonSides_map_fst]; exact hhsnd) pr.2 hpr, ?_⟩
      rw [hf2]
      simp
    · rw [← polygonSides_map_snd, List.forall₂_map_right_iff]
      refine List.Forall₂.flip ?_
      refine List.Forall₂.imp ?_ (forall₂_and_mem hall (fun b hb => hb))
      rintro sd h ⟨hside, hmem⟩
      obtain ⟨e, t, te, he, hv0, _⟩ := hside
      obtain ⟨e2, he2, hv2, _, hf2⟩ := hsame h e he
      refine ⟨e2, he2, hv2.trans hv0, ?_⟩
      rw [hf2, if_pos hmem]
      simp

/-- On a consistent mesh whose faces are closed loops, `addPolygons` on
polygons of at least 3 existing vertices, no ordered pair of vertices being a
side twice or a side used before, returns a mesh whose faces are closed loops. -/
theorem addPolygons_built (polys : List (List Nat)) (m : zMesh) (used : List (Nat × Nat))
    (done : List (List Nat)) (hB : Built m used)
    (hloops : AllLoops m.halfEdges m.faces done)
    (hvalid : ∀ p ∈ polys, 3 ≤ p.length ∧ ∀ v ∈ p, v < m.numVertices)
    (hnd : (used ++ polys.flatMap polygonSides).Nodup) :
    ∃ m1, addPolygons m polys = some m1 ∧ m1.vertices = m.vertices ∧
      AllLoops m1.halfEdges m1.faces (done ++ polys) := by
  induction polys generalizing m used done with
  | nil => exact ⟨m, rfl, rfl, by simpa using hloops⟩
  | cons p polys ih =>
    obtain ⟨hp3, hpv⟩ := hvalid p (by simp)
    simp only [List.flatMap_cons] at hnd
    have hnd1 : (polygonSides p).Nodup :=
      (List.nodup_append.1 (List.nodup_append.1 hnd).2.1).1
    have hfresh : ∀ sd ∈ polygonSides p, sd ∉ used := by
      intro sd hsd hu
      exact (List.nodup_append.1 hnd).2.2 hu (List.mem_append_left _ hsd)
    obtain ⟨m1, hadd, hB1, hvert, hfr, f, h, hs, hfaces, hfe, hloop⟩ :=
      addPolygon_built m used p hB hp3 hpv hnd1 hfresh
    have hloops1 : AllLoops m1.halfEdges m1.faces (done ++ [p]) := by
      rw [hfaces]
      exact List.rel_append (hfr.allLoops hloops)
        (List.Forall₂.cons ⟨h, hs, hfe, hloop⟩ List.Forall₂.nil)
    have hvalid1 : ∀ q ∈ polys, 3 ≤ q.length ∧ ∀ v ∈ q, v < m1.numVertices := by
      intro q hq
      have := hvalid q (by simp [hq])
      simpa [numVertices, hvert] using this
    obtain ⟨m2, hadds, hvert2, hloops2⟩ :=
      ih m1 (used ++ polygonSides p) (done ++ [p]) hB1 hloops1 hvalid1
        (by simpa [List.append_assoc] using hnd)
    refine ⟨m2, by simp [addPolygons, hadd, hadds], hvert2.trans hvert, ?_⟩
    simpa [List.append_assoc] using hloops2

theorem addVertices_unchecked (ps : List zVector) (m : zMesh) :
    (addVertices m false ps).1.numVertices = m.numVertices + ps.length ∧
    (addVertices m false ps).1.getVertexPositions = m.getVertexPositions ++ ps ∧
    (addVertices m false ps).1.halfEdges = m.halfEdges ∧
    (addVertices m false ps).1.faces = m.faces ∧
    (addVertices m false ps).1.halfEdgesMap = m.halfEdgesMap := by
  induction ps generalizing m with
  | nil => simp [addVertices]
  | cons p ps ih =>
    obtain ⟨h1, h2, h3, h4, h5⟩ := ih (m.addVertex p false).1
    simp only [addVertices]
    rw [h1, h2, h3, h4, h5]
    simp [addVertex, numVertices, getVertexPositions]
    omega

theorem splitPolygons_flatten (polys : List (List Nat)) :
    splitPolygons (polys.map List.length) polys.flatten = some polys := by
  induction polys with
  | nil => rfl
  | cons p polys ih => simp [splitPolygons, ih]

/-- The operator `create` on valid polygon data returns a mesh with one vertex per position
and one face per polygon, whose vertex loop is the polygon rotated by one. -/
theorem create_faceLoops (positions : List zVector) (polys : List (List Nat))
    (hvalid : ∀ p ∈ polys, 3 ≤ p.length ∧ ∀ v ∈ p, v < positions.length)
    (hnd : (polys.flatMap polygonSides).Nodup) :
    ∃ m1, create positions (polys.map List.length) polys.flatten = some m1 ∧
      m1.numVertices = positions.length ∧ m1.getVertexPositions = positions ∧
      m1.faceLoops = some (polys.map (fun p => p.rotate 1)) := by
  obtain ⟨hnv, hpos, hhe, hfa, hmap⟩ := addVertices_unchecked positions empty
  generalize hm0 : (addVertices empty false positions).1 = m0 at hnv hpos hhe hfa hmap
  have hnv0 : m0.numVertices = positions.length := by simpa [numVertices, empty] using hnv
  have hB : Built m0 [] := by
    constructor
    · intro k h hk
      rw [hmap] at hk
      simp [empty] at hk
    · intro h e he
      rw [hhe] at he
      simp [empty] at he
  have hloops : AllLoops m0.halfEdges m0.faces [] := by
    rw [hfa]
    exact List.Forall₂.nil
  obtain ⟨m1, hadd, hvert, hall⟩ := addPolygons_built polys m0 [] [] hB hloops
    (by simpa [hnv0] using hvalid) (by simpa using hnd)
  refine ⟨m1, ?_, ?_, ?_, ?_⟩
  · simp [create, splitPolygons_flatten, hm0, hadd]
  · simpa [numVertices, hvert] using hnv0
  · simpa [getVertexPositions, hvert, empty] using hpos
  · simpa [faceLoops] using faceLoopsOf_of_allLoops m1 m1.faces polys hall

theorem addEdges_some_lt {m m1 : zMesh} {v1 v2 : Nat} {cd fl : Bool} {he : Nat}
    (h : m.addEdges v1 v2 cd = some (m1, fl, he)) : v1 < m.numVertices ∧ v2 < m.numVertices := by
  by_contra hc
  simp [addEdges, hc] at h

theorem sideHalfEdge_congr {s s1 : EdgeStore} {he b : Nat}
    (hsame : ∀ (h : Nat) (e : zEdge), s[h]? = some e →
      ∃ e1, s1[h]? = some e1 ∧ e1.v = e.v ∧ e1.sym = e.sym)
    {h : Nat} (hs : sideHalfEdge s he b = some h) : sideHalfEdge s1 he b = some h := by
  unfold sideHalfEdge at hs ⊢
  cases hr : s[he]? with
  | none => simp [EdgeStore.read, hr] at hs
  | some e =>
    obtain ⟨e1, he1, hv, hsy⟩ := hsame he e hr
    simp only [EdgeStore.read, hr, Option.bind_eq_bind, Option.some_bind] at hs
    simp only [EdgeStore.read, he1, Option.bind_eq_bind, Option.some_bind, hv, hsy]
    exact hs

theorem sideHalf_withNewEdge_old {m : zMesh} {a b c d h : Nat}
    (hnew : m.halfEdgeExists a b = none) (hs : sideHalf m c d = some h) :
    sideHalf (m.withNewEdge a b) c d = some h := by
  unfold sideHalf halfEdgeExists at hs ⊢
  cases hl : m.halfEdgesMap.lookup (pairKey c d) with
  | none => simp [hl] at hs
  | some he =>
    have hne : pairKey c d ≠ pairKey a b := by
      intro heq
      rw [heq] at hl
      rw [halfEdgeExists, hl] at hnew
      cases hnew
    have hl1 : (m.withNewEdge a b).halfEdgesMap.lookup (pairKey c d) = some he := by
      simp only [withNewEdge]
      rw [lookup_cons_ne hne]
      exact hl
    rw [hl1]
    simp only [hl, Option.some_bind] at hs
    simp only [Option.some_bind]
    refine sideHalfEdge_congr ?_ hs
    intro k e hk
    exact ⟨e, withNewEdge_old m a b k e hk, rfl, rfl⟩

theorem sideHalf_withNewEdge_new (m : zMesh) (a b : Nat) :
    sideHalf (m.withNewEdge a b) a b = some m.numHalfEdges := by
  have hl : (m.withNewEdge a b).halfEdgesMap.lookup (pairKey a b) = some m.numHalfEdges := by
    simp [withNewEdge, List.lookup]
  simp [sideHalf, halfEdgeExists, hl, sideHalfEdge, EdgeStore.read, numHalfEdges,
    withNewEdge_forward, bind, Option.bind]

/-- A successful `ensureEdges` is on existing vertices, keeps the half-edge
taken for every side that had one, and outputs the half-edge taken for each
of its sides. -/
theorem ensureEdges_sideHalf (sides : List (Nat × Nat)) (m m0 : zMesh) (hs : List Nat)
    (h : ensureEdges m sides = some (m0, hs)) :
    (∀ sd ∈ sides, sd.1 < m.numVertices ∧ sd.2 < m.numVertices) ∧
    (∀ a b k, sideHalf m a b = some k → sideHalf m0 a b = some k) ∧
    List.Forall₂ (fun sd k => sideHalf m0 sd.1 sd.2 = some k) sides hs := by
  induction sides generalizing m hs with
  | nil =>
    simp [ensureEdges] at h
    obtain ⟨rfl, rfl⟩ := h
    exact ⟨by simp, fun _ _ _ hk => hk, List.Forall₂.nil⟩
  | cons sd rest ih =>
    obtain ⟨a, b⟩ := sd
    cases hadd : m.addEdges a b true with
    | none => simp [ensureEdges, hadd] at h
    | some r =>
      obtain ⟨ma, fl, he⟩ := r
      obtain ⟨ha, hb⟩ := addEdges_some_lt hadd
      cases hside : sideHalfEdge ma.halfEdges he b with
      | none => simp [ensureEdges, hadd, hside] at h
      | some x =>
        cases hrec : ensureEdges ma rest with
        | none => simp [ensureEdges, hadd, hside, hrec] at h
        | some r2 =>
          obtain ⟨m2, hs2⟩ := r2
          simp [ensureEdges, hadd, hside, hrec] at h
          obtain ⟨rfl, rfl⟩ := h
          obtain ⟨hv2, hst2, hall2⟩ := ih ma hs2 hrec
          rcases addEdges_cases m a b true ha hb with ⟨he0, _, hl, hres⟩ | ⟨hnone, hres⟩
          · rw [hres] at hadd
            simp only [Option.some.injEq, Prod.mk.injEq] at hadd
            obtain ⟨rfl, -, rfl⟩ := hadd
            have hx : sideHalf m a b = some x := by
              simp [sideHalf, hl, hside]
            exact ⟨by
                intro sd hsd
                rcases List.mem_cons.1 hsd with rfl | hsd
                · exact ⟨ha, hb⟩
                · exact hv2 sd hsd,
              hst2, List.Forall₂.cons (hst2 a b x hx) hall2⟩
          · rw [hres] at hadd
            simp only [Option.some.injEq, Prod.mk.injEq] at hadd
            obtain ⟨rfl, -, rfl⟩ := hadd
            have hnew : m.halfEdgeExists a b = none := by
              rcases hnone with hf | hn
              · cases hf
              · exact hn
            have hx : x = m.numHalfEdges := by
              have := sideHalf_withNewEdge_new m a b
              simp [sideHalf, halfEdgeExists, withNewEdge, List.lookup] at this
              simp only [withNewEdge] at hside
              rw [hside] at this
              exact Option.some.inj this
            subst hx
            refine ⟨?_, ?_, List.Forall₂.cons (hst2 a b _ (sideHalf_withNewEdge_new m a b)) hall2⟩
            · intro sd hsd
              rcases List.mem_cons.1 hsd with rfl | hsd
              · exact ⟨ha, hb⟩
              · simpa [withNewEdge, numVertices] using hv2 sd hsd
            · intro c d k hk
              exact hst2 c d k (sideHalf_withNewEdge_old hnew hk)

/-- A successful `claimFaces` was on distinct half-edges bound to no face. -/
theorem claimFaces_some (F : Nat) (hs : List Nat) (s s1 : EdgeStore)
    (h : claimFaces s F hs = some s1) :
    hs.Nodup ∧ ∀ k ∈ hs, ∃ e, s[k]? = some e ∧ e.f = none := by
  induction hs generalizing s with
  | nil => exact ⟨List.nodup_nil, by simp⟩
  | cons a hs ih =>
    cases he : s[a]? with
    | none => simp [claimFaces, EdgeStore.read, he] at h
    | some e =>
      by_cases hf : e.f = none
      · have ha : a < s.length := getElem?_lt_length he
        obtain ⟨s0, h0, hl0, hr0⟩ := setFace_records s a (some F) ha
        have h1 : claimFaces s0 F hs = some s1 := by
          simpa [claimFaces, EdgeStore.read, he, hf, h0] using h
        obtain ⟨hnd, hfree⟩ := ih s0 h1
        have hnot : a ∉ hs := by
          intro hmem
          obtain ⟨e0, he0, hf0⟩ := hfree a hmem
          rw [hr0 a] at he0
          simp [he] at he0
          subst he0
          simp at hf0
        refine ⟨List.nodup_cons.2 ⟨hnot, hnd⟩, ?_⟩
        intro k hk
        rcases List.mem_cons.1 hk with rfl | hk
        · exact ⟨e, he, hf⟩
        · obtain ⟨e0, he0, hf0⟩ := hfree k hk
          have hka : k ≠ a := fun hka => hnot (hka ▸ hk)
          rw [hr0 k] at he0
          simp only [hka, if_false] at he0
          exact ⟨e0, he0, hf0⟩
      · simp [claimFaces, EdgeStore.read, he, hf] at h

theorem forall₂_nodup_left {α β : Type} {R : α → β → Prop} {l1 : List α} {l2 : List β}
    (h : List.Forall₂ R l1 l2) (hfun : ∀ a b b1, R a b → R a b1 → b = b1) (hnd : l2.Nodup) :
    l1.Nodup := by
  induction h with
  | nil => exact List.nodup_nil
  | cons hr hrest ih =>
    rw [List.nodup_cons] at hnd ⊢
    refine ⟨?_, ih hnd.2⟩
    intro ha
    obtain ⟨b1, hb1, hrb1⟩ := forall₂_left_mem hrest ha
    exact hnd.1 (hfun _ _ _ hr hrb1 ▸ hb1)

/-- A successful `addPolygon` on a sound mesh gives a sound mesh, with the
polygon as its new face. -/
theorem addPolygon_sound {m m1 : zMesh} {p : List Nat} {fl : Bool} {f : Nat}
    {done : List (List Nat)} (h : m.addPolygon p = some (m1, fl, f)) (hS : Sound m done) :
    Sound m1 (done ++ [p]) ∧ m1.vertices = m.vertices := by
  have hlen : 3 ≤ p.length := by
    by_contra hc
    have hlt : p.length < 3 := by omega
    simp [addPolygon, hlt] at h
  have hlen3 : ¬ p.length < 3 := by omega
  cases hens : ensureEdges m (polygonSides p) with
  | none => simp [addPolygon, hlen3, hens] at h
  | some r =>
    obtain ⟨m0, hs⟩ := r
    cases hcl : claimFaces m0.halfEdges m0.numPolygons hs with
    | none => simp [addPolygon, hlen3, hens, hcl] at h
    | some s1 =>
      cases hlk : linkLoop s1 (polygonSides hs) with
      | none => simp [addPolygon, hlen3, hens, hcl, hlk] at h
      | some s2 =>
        simp [addPolygon, hlen3, hens, hcl, hlk] at h
        obtain ⟨hm1, -, -⟩ := h
        obtain ⟨hvs, hstab, htaken⟩ := ensureEdges_sideHalf _ m m0 hs hens
        have hv : ∀ v ∈ p, v < m.numVertices := by
          intro v hvp
          have hmem : v ∈ (polygonSides p).map Prod.fst := by
            rw [polygonSides_map_fst]
            exact hvp
          obtain ⟨sd, hsd, rfl⟩ := List.mem_map.1 hmem
          exact (hvs sd hsd).1
        obtain ⟨m0', hs', hens', hB0, hvert, hfaces, hg, hall⟩ :=
          ensureEdges_built (polygonSides p) m _ hS.built hvs
        rw [hens] at hens'
        simp only [Option.some.injEq, Prod.mk.injEq] at hens'
        obtain ⟨rfl, rfl⟩ := hens'
        obtain ⟨hhsnd, hfree⟩ := claimFaces_some _ hs _ s1 hcl
        have hnd : (polygonSides p).Nodup := by
          refine forall₂_nodup_left htaken ?_ hhsnd
          intro a b b1 hb hb1
          rw [hb] at hb1
          exact Option.some.inj hb1
        have hfresh : ∀ sd ∈ polygonSides p, sd ∉ done.flatMap polygonSides := by
          intro sd hsd hu
          obtain ⟨k, e, hk, he, hf⟩ := hS.taken sd hu
          obtain ⟨k1, hk1, hrel⟩ := forall₂_left_mem htaken hsd
          have hkk : k1 = k := by
            have := hstab _ _ _ hk
            rw [hrel] at this
            exact Option.some.inj this
          subst hkk
          obtain ⟨e1, he1, hf1⟩ := hfree k1 hk1
          rw [hg.old he] at he1
          cases he1
          exact hf hf1
        obtain ⟨m1', hadd, hB1, hvert1, hfr, fc, h0, hs0, hfaces1, hfe, hloop⟩ :=
          addPolygon_built m _ p hS.built hlen hv hnd hfresh
        have hm1' : m1' = m1 := by
          have hx : m.addPolygon p = some (m1, true, m0.numPolygons) := by
            simp [addPolygon, hlen3, hens, hcl, hlk, hm1]
          rw [hadd] at hx
          simp only [Option.some.injEq, Prod.mk.injEq] at hx
          exact hx.1
        subst hm1'
        -- the records keep their vertex and twin
        obtain ⟨s1', hcl', hl1, hr1⟩ :=
          claimFaces_records m0.numPolygons hs m0.halfEdges hhsnd hfree
        rw [hcl] at hcl'
        cases hcl'
        have hin : ∀ pr ∈ polygonSides hs, pr.1 < s1.length ∧ pr.2 < s1.length := by
          intro pr hpr
          obtain ⟨h1, h2⟩ := polygonSides_mem _ pr hpr
          obtain ⟨_, he1, _⟩ := hfree _ h1
          obtain ⟨_, he2, _⟩ := hfree _ h2
          rw [hl1]
          exact ⟨getElem?_lt_length he1, getElem?_lt_length he2⟩
        obtain ⟨s2', hlk', hl2, hr2⟩ := linkLoop_records _ s1 hin
        rw [hlk] at hlk'
        cases hlk'
        have hsame : ∀ (k : Nat) (e : zEdge), m0.halfEdges[k]? = some e →
            ∃ e2, s2[k]? = some e2 ∧ e2.v = e.v ∧ e2.sym = e.sym ∧
              (k ∈ hs → e2.f = some m0.numPolygons) := by
          intro k e he
          by_cases hh : k ∈ hs
          · have he1 : s1[k]? = some { e with f := some m0.numPolygons } := by
              rw [hr1 k]; simp [hh, he]
            obtain ⟨e2, he2, _, hv2, hf2, hs2, _⟩ := hr2 k _ he1
            exact ⟨e2, he2, hv2, hs2, fun _ => by simpa using hf2⟩
          · have he1 : s1[k]? = some e := by
              rw [hr1 k]; simp [hh, he]
            obtain ⟨e2, he2, _, hv2, hf2, hs2, _⟩ := hr2 k _ he1
            exact ⟨e2, he2, hv2, hs2, fun hk => absurd hk hh⟩
        have hstab1 : ∀ a b k, sideHalf m0 a b = some k → sideHalf m1' a b = some k := by
          intro a b k hk
          rw [← hm1]
          unfold sideHalf halfEdgeExists at hk ⊢
          cases hl : m0.halfEdgesMap.lookup (pairKey a b) with
          | none => simp [hl] at hk
          | some he =>
            simp only [hl, Option.some_bind] at hk ⊢
            refine sideHalfEdge_congr ?_ hk
            intro j e hj
            obtain ⟨e2, he2, hv2, hs2, _⟩ := hsame j e hj
            exact ⟨e2, he2, hv2, hs2⟩
        refine ⟨⟨?_, ?_, ?_, ?_, ?_⟩, hvert1⟩
        · simpa [List.flatMap_append] using hB1
        · rw [hfaces1]
          exact List.rel_append (hfr.allLoops hS.loops)
            (List.Forall₂.cons ⟨h0, hs0, hfe, hloop⟩ List.Forall₂.nil)
        · intro sd hsd
          simp only [List.flatMap_append, List.flatMap_cons, List.flatMap_nil, List.append_nil,
            List.mem_append] at hsd
          rcases hsd with hsd | hsd
          · obtain ⟨k, e, hk, he, hf⟩ := hS.taken sd hsd
            exact ⟨k, e, hstab1 _ _ _ (hstab _ _ _ hk), hfr k e he hf, hf⟩
          · obtain ⟨k, hk, hrel⟩ := forall₂_left_mem htaken hsd
            obtain ⟨e, he, _⟩ := hfree k hk
            obtain ⟨e2, he2, _, _, hf2⟩ := hsame k e he
            refine ⟨k, e2, hstab1 _ _ _ hrel, ?_, ?_⟩
            · rw [← hm1]
              exact he2
            · rw [hf2 hk]
              simp
        · intro q hq
          rcases List.mem_append.1 hq with hq | hq
          · have := hS.valid q hq
            simpa [numVertices, hvert1] using this
          · simp only [List.mem_singleton] at hq
            subst hq
            exact ⟨hlen, by simpa [numVertices, hvert1] using hv⟩
        · simp only [List.flatMap_append, List.flatMap_cons, List.flatMap_nil, List.append_nil]
          rw [List.nodup_append]
          exact ⟨hS.nodup, hnd, fun sd h1 h2 => hfresh sd h2 h1⟩

theorem addPolygons_sound (polys : List (List Nat)) (m m1 : zMesh) (done : List (List Nat))
    (h : addPolygons m polys = some m1) (hS : Sound m done) :
    Sound m1 (done ++ polys) ∧ m1.vertices = m.vertices := by
  induction polys generalizing m done with
  | nil =>
    simp [addPolygons] at h
    subst h
    exact ⟨by simpa using hS, rfl⟩
  | cons p polys ih =>
    cases hadd : m.addPolygon p with
    | none => simp [addPolygons, hadd] at h
    | some r =>
      obtain ⟨ma, fl, f⟩ := r
      simp [addPolygons, hadd] at h
      obtain ⟨hSa, hva⟩ := addPolygon_sound hadd hS
      obtain ⟨hS1, hv1⟩ := ih ma (done ++ [p]) h hSa
      exact ⟨by simpa [List.append_assoc] using hS1, hv1.trans hva⟩

/-- Every mesh that `create` returns is sound for the polygons it was given. -/
theorem create_sound (positions : List zVector) (polyCounts polyConnects : List Nat)
    (m : zMesh) (h : create positions polyCounts polyConnects = some m) :
    ∃ polys, splitPolygons polyCounts polyConnects = some polys ∧ Sound m polys ∧
      m.getVertexPositions = positions := by
  unfold create at h
  cases hsp : splitPolygons polyCounts polyConnects with
  | none => simp [hsp] at h
  | some polys =>
    simp [hsp] at h
    obtain ⟨hnv, hpos, hhe, hfa, hmap⟩ := addVertices_unchecked positions empty
    have hS0 : Sound (addVertices empty false positions).1 [] := by
      refine ⟨⟨?_, ?_⟩, ?_, by simp, by simp, by simp⟩
      · intro k x hk
        rw [hmap] at hk
        simp [empty] at hk
      · intro x e he
        rw [hhe] at he
        simp [empty] at he
      · rw [hfa]
        exact List.Forall₂.nil
    obtain ⟨hS, hv⟩ := addPolygons_sound polys _ m [] h hS0
    refine ⟨polys, rfl, by simpa using hS, ?_⟩
    simpa [getVertexPositions, hv, empty] using hpos

theorem closedPairs_append_singleton {α : Type} (first a : α) (l : List α) (hl : l ≠ []) :
    closedPairs first (l ++ [a]) = closedPairs a l ++ [(a, first)] := by
  induction l with
  | nil => exact absurd rfl hl
  | cons x t ih =>
    cases t with
    | nil => simp [closedPairs]
    | cons y t =>
      have := ih (by simp)
      simp only [List.cons_append] at this
      show (x, y) :: closedPairs first (y :: (t ++ [a])) = _
      rw [this]
      rfl

theorem polygonSides_rotate {α : Type} (p : List α) :
    polygonSides (p.rotate 1) = (polygonSides p).rotate 1 := by
  cases p with
  | nil => rfl
  | cons a rest =>
    cases rest with
    | nil => simp [polygonSides, closedPairs, List.rotate_cons_succ]
    | cons b rest =>
      have h1 : (a :: b :: rest).rotate 1 = (b :: rest) ++ [a] := by
        simp [List.rotate_cons_succ]
      rw [h1]
      simp only [polygonSides, List.cons_append]
      rw [show b :: (rest ++ [a]) = (b :: rest) ++ [a] from rfl,
        closedPairs_append_singleton b a (b :: rest) (by simp)]
      simp [closedPairs, List.rotate_cons_succ]

theorem flatMap_polygonSides_rotate_perm (polys : List (List Nat)) :
    List.Perm ((polys.map (fun p => p.rotate 1)).flatMap polygonSides)
      (polys.flatMap polygonSides) := by
  induction polys with
  | nil => exact List.Perm.refl _
  | cons p polys ih =>
    simp only [List.map_cons, List.flatMap_cons]
    refine List.Perm.append ?_ ih
    rw [polygonSides_rotate]
    exact List.rotate_perm _ _

/-- Every mesh that `create` returns has faces that are closed loops of at
least 3 existing vertices, no ordered pair of vertices being a side twice. -/
theorem create_faces_closed (positions : List zVector) (polyCounts polyConnects : List Nat)
    (m : zMesh) (h : create positions polyCounts polyConnects = some m) :
    ∃ loops, m.faceLoops = some loops ∧
      (∀ p ∈ loops, 3 ≤ p.length ∧ ∀ v ∈ p, v < m.numVertices) ∧
      (loops.flatMap polygonSides).Nodup := by
  obtain ⟨polys, _, hS, _⟩ := create_sound positions polyCounts polyConnects m h
  refine ⟨polys.map (fun p => p.rotate 1), ?_, ?_, ?_⟩
  · simpa [faceLoops] using faceLoopsOf_of_allLoops m m.faces polys hS.loops
  · intro q hq
    obtain ⟨p, hp, rfl⟩ := List.mem_map.1 hq
    obtain ⟨h3, hv⟩ := hS.valid p hp
    exact ⟨by simpa using h3, fun v hvq => hv v (List.mem_rotate.1 hvq)⟩
  · exact (flatMap_polygonSides_rotate_perm polys).nodup_iff.2 hS.nodup

end zMesh

/-! ## Claims on the vector utilities -/

theorem zVector.ext_iff3 (a b : zVector) : a = b ↔ a.x = b.x ∧ a.y = b.y ∧ a.z = b.z := by
  cases a; cases b; simp

/-- C16, which the code breaks: for all inputs, whatever the normals,
`plane_planeIntersection` returns `false` and leaves `outP1` and `outP2` as
they were; so it does for the planes `x = 0` and `y = 0`, whose normals are not
parallel and which meet in the `z` axis. -/
theorem plane_planeIntersection_false :
    (∀ (sqrt : ℚ → ℚ) (nA nB pA pB outP1 outP2 : zVector),
      plane_planeIntersection sqrt nA nB pA pB outP1 outP2 = (false, outP1, outP2)) ∧
    (⟨1, 0, 0⟩ : zVector).cross ⟨0, 1, 0⟩ ≠ ⟨0, 0, 0⟩ ∧
    plane_planeIntersection (fun y => y) ⟨1, 0, 0⟩ ⟨0, 1, 0⟩ ⟨0, 0, 0⟩ ⟨0, 0, 0⟩
      ⟨9, 9, 9⟩ ⟨8, 8, 8⟩ = (false, ⟨9, 9, 9⟩, ⟨8, 8, 8⟩) := by
  refine ⟨?_, by decide!, by decide!⟩
  intro sqrt nA nB pA pB outP1 outP2
  simp only [plane_planeIntersection]
  split <;> rfl

theorem zVector.cross_eq_zero_of_collinear (v1 v2 v3 : zVector) (h : Collinear v1 v2 v3) :
    (v2.sub v1).cross (v3.sub v1) = ⟨0, 0, 0⟩ := by
  obtain ⟨a, d, t1, t2, t3, rfl, rfl, rfl⟩ := h
  simp only [zVector.cross, zVector.sub, zVector.add, zVector.scale, zVector.ext_iff3]
  refine ⟨by ring, by ring, by ring⟩

theorem zVector.collinear_of_cross_eq_zero (v1 v2 v3 : zVector)
    (h : (v2.sub v1).cross (v3.sub v1) = ⟨0, 0, 0⟩) : Collinear v1 v2 v3 := by
  simp only [zVector.cross, zVector.sub, zVector.ext_iff3] at h
  obtain ⟨hx, hy, hz⟩ := h
  by_cases h0 : (v2.sub v1).dot (v2.sub v1) = 0
  · -- the first two points coincide
    have hx2 := mul_self_nonneg (v2.x - v1.x)
    have hy2 := mul_self_nonneg (v2.y - v1.y)
    have hz2 := mul_self_nonneg (v2.z - v1.z)
    simp only [zVector.dot, zVector.sub] at h0
    have e1 : v2.x - v1.x = 0 := by nlinarith
    have e2 : v2.y - v1.y = 0 := by nlinarith
    have e3 : v2.z - v1.z = 0 := by nlinarith
    refine ⟨v1, v3.sub v1, 0, 0, 1, ?_, ?_, ?_⟩ <;>
      simp only [zVector.add, zVector.scale, zVector.sub, zVector.ext_iff3] <;>
      refine ⟨?_, ?_, ?_⟩ <;> linarith
  · refine ⟨v1, v2.sub v1, 0, 1,
      (v2.sub v1).dot (v3.sub v1) / (v2.sub v1).dot (v2.sub v1), ?_, ?_, ?_⟩
    · simp [zVector.add, zVector.scale, zVector.sub, zVector.ext_iff3]
    · simp [zVector.add, zVector.scale, zVector.sub, zVector.ext_iff3]
    · simp only [zVector.dot, zVector.sub] at h0
      have kx : (v3.x - v1.x) * ((v2.x - v1.x) * (v2.x - v1.x) + (v2.y - v1.y) * (v2.y - v1.y) +
          (v2.z - v1.z) * (v2.z - v1.z)) =
          (v2.x - v1.x) * ((v2.x - v1.x) * (v3.x - v1.x) + (v2.y - v1.y) * (v3.y - v1.y) +
            (v2.z - v1.z) * (v3.z - v1.z)) := by
        linear_combination (v2.z - v1.z) * hy - (v2.y - v1.y) * hz
      have ky : (v3.y - v1.y) * ((v2.x - v1.x) * (v2.x - v1.x) + (v2.y - v1.y) * (v2.y - v1.y) +
          (v2.z - v1.z) * (v2.z - v1.z)) =
          (v2.y - v1.y) * ((v2.x - v1.x) * (v3.x - v1.x) + (v2.y - v1.y) * (v3.y - v1.y) +
            (v2.z - v1.z) * (v3.z - v1.z)) := by
        linear_combination (v2.x - v1.x) * hz - (v2.z - v1.z) * hx
      have kz : (v3.z - v1.z) * ((v2.x - v1.x) * (v2.x - v1.x) + (v2.y - v1.y) * (v2.y - v1.y) +
          (v2.z - v1.z) * (v2.z - v1.z)) =
          (v2.z - v1.z) * ((v2.x - v1.x) * (v3.x - v1.x) + (v2.y - v1.y) * (v3.y - v1.y) +
            (v2.z - v1.z) * (v3.z - v1.z)) := by
        linear_combination (v2.y - v1.y) * hx - (v2.x - v1.x) * hy
      simp only [zVector.add, zVector.scale, zVector.sub, zVector.dot, zVector.ext_iff3]
      refine ⟨?_, ?_, ?_⟩
      · rw [mul_div_assoc', ← kx, mul_div_assoc, div_self h0]
        ring
      · rw [mul_div_assoc', ← ky, mul_div_assoc, div_self h0]
        ring
      · rw [mul_div_assoc', ← kz, mul_div_assoc, div_self h0]
        ring

theorem zVector.dot_self_eq_zero_iff (c : zVector) :
    c.x * c.x + c.y * c.y + c.z * c.z = 0 ↔ c = ⟨0, 0, 0⟩ := by
  constructor
  · intro h
    have hx := mul_self_nonneg c.x
    have hy := mul_self_nonneg c.y
    have hz := mul_self_nonneg c.z
    have e1 : c.x = 0 := by nlinarith
    have e2 : c.y = 0 := by nlinarith
    have e3 : c.z = 0 := by nlinarith
    simp [zVector.ext_iff3, e1, e2, e3]
  · intro h
    simp [h]

/-! ## Claims on the numerical utilities over binary64 -/

namespace Double

theorem pow2_eq (e : ℤ) : pow2 e = (2 : ℚ) ^ e := by
  cases e with
  | ofNat n => simp [pow2]
  | negSucc n => simp [pow2, zpow_negSucc]

theorem pow2_pos (e : ℤ) : 0 < pow2 e := by
  rw [pow2_eq]
  positivity

theorem log2Aux_spec (fuel n : ℕ) (hn : 0 < n) (hf : n ≤ fuel) :
    2 ^ log2Aux fuel n ≤ n ∧ n < 2 ^ (log2Aux fuel n + 1) := by
  induction fuel generalizing n with
  | zero => omega
  | succ f ih =>
    unfold log2Aux
    split_ifs with h
    · have : n = 1 := by omega
      subst this
      simp
    · obtain ⟨h1, h2⟩ := ih (n / 2) (by omega) (by omega)
      simp only [pow_succ] at h2 ⊢
      generalize 2 ^ log2Aux f (n / 2) = p at h1 h2 ⊢
      constructor <;> omega

theorem log2_spec (n : ℕ) (hn : 0 < n) : 2 ^ log2 n ≤ n ∧ n < 2 ^ (log2 n + 1) :=
  log2Aux_spec n n hn le_rfl

/-- The binary exponent of a positive rational: `2 ^ e ≤ a < 2 ^ (e + 1)`. -/
theorem ilog2_spec (a : ℚ) (ha : 0 < a) :
    (2 : ℚ) ^ ilog2 a ≤ a ∧ a < (2 : ℚ) ^ (ilog2 a + 1) := by
  have hnum : 0 < a.num := Rat.num_pos.2 ha
  have hden : 0 < a.den := a.den_pos
  obtain ⟨n1, n2⟩ := log2_spec a.num.natAbs (by omega)
  obtain ⟨d1, d2⟩ := log2_spec a.den hden
  have hnabs : ((a.num.natAbs : ℕ) : ℚ) = (a.num : ℚ) := by
    rw [Nat.cast_natAbs, abs_of_nonneg hnum.le]
  have ha_eq : a = (a.num.natAbs : ℚ) / (a.den : ℚ) := by
    rw [hnabs]
    exact (Rat.num_div_den a).symm
  have hdq : (0 : ℚ) < a.den := by exact_mod_cast hden
  have n1q : (2 : ℚ) ^ (log2 a.num.natAbs) ≤ (a.num.natAbs : ℚ) := by exact_mod_cast n1
  have n2q : (a.num.natAbs : ℚ) < (2 : ℚ) ^ (log2 a.num.natAbs + 1) := by exact_mod_cast n2
  have d1q : (2 : ℚ) ^ (log2 a.den) ≤ (a.den : ℚ) := by exact_mod_cast d1
  have d2q : (a.den : ℚ) < (2 : ℚ) ^ (log2 a.den + 1) := by exact_mod_cast d2
  set ln := log2 a.num.natAbs with hln
  set ld := log2 a.den with hld
  have hlow : (2 : ℚ) ^ ((ln : ℤ) - ld - 1) < a := by
    rw [ha_eq, lt_div_iff₀ hdq]
    have e1 : (2 : ℚ) ^ ((ln : ℤ) - ld - 1) = (2 : ℚ) ^ ln / (2 : ℚ) ^ (ld + 1) := by
      rw [show (ln : ℤ) - ld - 1 = (ln : ℤ) - ((ld + 1 : ℕ) : ℤ) by push_cast; ring]
      rw [zpow_sub₀ (by norm_num), zpow_natCast, zpow_natCast]
    rw [e1, div_mul_eq_mul_div, div_lt_iff₀ (by positivity)]
    calc (2 : ℚ) ^ ln * (a.den : ℚ) < (2 : ℚ) ^ ln * (2 : ℚ) ^ (ld + 1) := by
          apply mul_lt_mul_of_pos_left d2q (by positivity)
      _ ≤ (a.num.natAbs : ℚ) * (2 : ℚ) ^ (ld + 1) := by
          apply mul_le_mul_of_nonneg_right n1q (by positivity)
  have hhigh : a < (2 : ℚ) ^ ((ln : ℤ) - ld + 1) := by
    rw [ha_eq, div_lt_iff₀ hdq]
    have e1 : (2 : ℚ) ^ ((ln : ℤ) - ld + 1) = (2 : ℚ) ^ (ln + 1) / (2 : ℚ) ^ ld := by
      rw [show (ln : ℤ) - ld + 1 = ((ln + 1 : ℕ) : ℤ) - (ld : ℤ) by push_cast; ring]
      rw [zpow_sub₀ (by norm_num), zpow_natCast, zpow_natCast]
    rw [e1, div_mul_eq_mul_div, lt_div_iff₀ (by positivity)]
    calc (a.num.natAbs : ℚ) * (2 : ℚ) ^ ld < (2 : ℚ) ^ (ln + 1) * (2 : ℚ) ^ ld := by
          apply mul_lt_mul_of_pos_right n2q (by positivity)
      _ ≤ (2 : ℚ) ^ (ln + 1) * (a.den : ℚ) := by
          apply mul_le_mul_of_nonneg_left d1q (by positivity)
  unfold ilog2
  simp only [← hln, ← hld, pow2_eq]
  split_ifs with h
  · exact ⟨h, hhigh⟩
  · refine ⟨le_of_lt hlow, ?_⟩
    rw [sub_add_cancel]
    exact lt_of_not_le h

/-- The binary exponent is the only `e` with `2 ^ e ≤ a < 2 ^ (e + 1)`. -/
theorem ilog2_unique (a : ℚ) (e : ℤ) (h1 : (2 : ℚ) ^ e ≤ a) (h2 : a < (2 : ℚ) ^ (e + 1)) :
    ilog2 a = e := by
  have ha : 0 < a := lt_of_lt_of_le (by positivity) h1
  obtain ⟨s1, s2⟩ := ilog2_spec a ha
  have hlt1 : (2 : ℚ) ^ e < (2 : ℚ) ^ (ilog2 a + 1) := lt_of_le_of_lt h1 s2
  have hlt2 : (2 : ℚ) ^ ilog2 a < (2 : ℚ) ^ (e + 1) := lt_of_le_of_lt s1 h2
  have k1 := (zpow_lt_zpow_iff_right₀ (by norm_num : (1 : ℚ) < 2)).1 hlt1
  have k2 := (zpow_lt_zpow_iff_right₀ (by norm_num : (1 : ℚ) < 2)).1 hlt2
  omega

theorem floor_spec (x : ℚ) (hx : 0 ≤ x) :
    ((x.num.natAbs / x.den : ℕ) : ℚ) ≤ x ∧ x < ((x.num.natAbs / x.den : ℕ) : ℚ) + 1 := by
  have hnum : 0 ≤ x.num := Rat.num_nonneg.2 hx
  have hden : 0 < x.den := x.den_pos
  have hdq : (0 : ℚ) < x.den := by exact_mod_cast hden
  have hnabs : ((x.num.natAbs : ℕ) : ℚ) = (x.num : ℚ) := by
    rw [Nat.cast_natAbs, abs_of_nonneg hnum]
  have hx_eq : x = (x.num.natAbs : ℚ) / (x.den : ℚ) := by
    rw [hnabs]
    exact (Rat.num_div_den x).symm
  have hdm := Nat.div_add_mod x.num.natAbs x.den
  have hmod := Nat.mod_lt x.num.natAbs hden
  set n := x.num.natAbs
  set d := x.den
  have hq : (n : ℚ) = (d : ℚ) * ((n / d : ℕ) : ℚ) + ((n % d : ℕ) : ℚ) := by
    exact_mod_cast hdm.symm
  have hmq : ((n % d : ℕ) : ℚ) < (d : ℚ) := by exact_mod_cast hmod
  have hm0 : (0 : ℚ) ≤ ((n % d : ℕ) : ℚ) := by positivity
  constructor
  · rw [hx_eq, le_div_iff₀ hdq]
    nlinarith
  · rw [hx_eq, div_lt_iff₀ hdq]
    nlinarith

theorem roundEven_cases (x : ℚ) :
    roundEven x = x.num.natAbs / x.den ∨ roundEven x = x.num.natAbs / x.den + 1 := by
  unfold roundEven
  simp only []
  split_ifs <;> simp

/-- The rounding to an integer is off by at most one half. -/
theorem roundEven_spec (x : ℚ) (hx : 0 ≤ x) : |(roundEven x : ℚ) - x| ≤ 1 / 2 := by
  obtain ⟨h1, h2⟩ := floor_spec x hx
  unfold roundEven
  simp only []
  rw [abs_le]
  split_ifs with c1 c2 c3
  · constructor <;> linarith
  · push_cast
    constructor <;> linarith
  · constructor <;> linarith
  · push_cast
    constructor <;> linarith

theorem roundEven_natCast (n : ℕ) : roundEven (n : ℚ) = n := by
  unfold roundEven
  simp

/-- Rounding to an integer is below every integer above the number. -/
theorem roundEven_le (x : ℚ) (hx : 0 ≤ x) (m : ℕ) (h : x ≤ m) : roundEven x ≤ m := by
  obtain ⟨h1, h2⟩ := floor_spec x hx
  have hfm : x.num.natAbs / x.den ≤ m := by
    have : ((x.num.natAbs / x.den : ℕ) : ℚ) ≤ m := le_trans h1 h
    exact_mod_cast this
  unfold roundEven
  simp only []
  split_ifs with c1 c2 c3
  · exact hfm
  · have : ((x.num.natAbs / x.den : ℕ) : ℚ) < m := by linarith
    have : x.num.natAbs / x.den < m := by exact_mod_cast this
    omega
  · exact hfm
  · have : ((x.num.natAbs / x.den : ℕ) : ℚ) < m := by linarith
    have : x.num.natAbs / x.den < m := by exact_mod_cast this
    omega

/-- Rounding to an integer is above every integer below the number. -/
theorem le_roundEven (x : ℚ) (hx : 0 ≤ x) (m : ℕ) (h : (m : ℚ) ≤ x) : m ≤ roundEven x := by
  obtain ⟨h1, h2⟩ := floor_spec x hx
  have hfm : m ≤ x.num.natAbs / x.den := by
    have : (m : ℚ) < ((x.num.natAbs / x.den : ℕ) : ℚ) + 1 := lt_of_le_of_lt h h2
    have : m < x.num.natAbs / x.den + 1 := by exact_mod_cast this
    omega
  rcases roundEven_cases x with hc | hc <;> omega

theorem round_def (q : ℚ) :
    round q =
      if (2 : ℚ) ^ (1024 : ℤ) ≤ (roundEven (|q| / (2 : ℚ) ^ (max (ilog2 |q|) (-1022) - 52)) : ℚ) *
          (2 : ℚ) ^ (max (ilog2 |q|) (-1022) - 52) then inf (decide (q < 0))
      else if roundEven (|q| / (2 : ℚ) ^ (max (ilog2 |q|) (-1022) - 52)) = 0 then
        zero (decide (q < 0))
      else fin (if q < 0 then
          -((roundEven (|q| / (2 : ℚ) ^ (max (ilog2 |q|) (-1022) - 52)) : ℚ) *
            (2 : ℚ) ^ (max (ilog2 |q|) (-1022) - 52))
        else (roundEven (|q| / (2 : ℚ) ^ (max (ilog2 |q|) (-1022) - 52)) : ℚ) *
            (2 : ℚ) ^ (max (ilog2 |q|) (-1022) - 52)) := by
  unfold round
  simp only [pow2_eq]

theorem sigOf_le (q : ℚ) : sigOf q ≤ 2 ^ 53 := by
  unfold sigOf
  have ht : (0 : ℚ) < (2 : ℚ) ^ (expOf q - 52) := by positivity
  apply roundEven_le _ (by positivity)
  rcases eq_or_ne q 0 with rfl | hq
  · simp
  · have ha : 0 < |q| := abs_pos.2 hq
    obtain ⟨-, s2⟩ := ilog2_spec |q| ha
    rw [div_le_iff₀ ht]
    have h1 : (2 : ℚ) ^ (ilog2 |q| + 1) ≤ (2 : ℚ) ^ (expOf q + 1) := by
      apply zpow_le_zpow_right₀ (by norm_num)
      unfold expOf
      have := le_max_left (ilog2 |q|) (-1022)
      omega
    have h53 : ((2 ^ 53 : ℕ) : ℚ) = (2 : ℚ) ^ (53 : ℤ) := by norm_num
    have h2 : (((2 ^ 53 : ℕ) : ℚ)) * (2 : ℚ) ^ (expOf q - 52) = (2 : ℚ) ^ (expOf q + 1) := by
      rw [h53, ← zpow_add₀ (by norm_num)]
      congr 1
      ring
    rw [h2]
    exact le_trans (le_of_lt s2) h1

theorem sigOf_spec (q : ℚ) :
    abs ((sigOf q : ℚ) * (2 : ℚ) ^ (expOf q - 52) - |q|) ≤ (2 : ℚ) ^ (expOf q - 53) := by
  have ht : (0 : ℚ) < (2 : ℚ) ^ (expOf q - 52) := by positivity
  have h := roundEven_spec (|q| / (2 : ℚ) ^ (expOf q - 52)) (by positivity)
  have e1 : (sigOf q : ℚ) * (2 : ℚ) ^ (expOf q - 52) - |q| =
      ((sigOf q : ℚ) - |q| / (2 : ℚ) ^ (expOf q - 52)) * (2 : ℚ) ^ (expOf q - 52) := by
    field_simp
  have e2 : (2 : ℚ) ^ (expOf q - 53) = 1 / 2 * (2 : ℚ) ^ (expOf q - 52) := by
    rw [show expOf q - 53 = (expOf q - 52) + (-1) by ring, zpow_add₀ (by norm_num)]
    norm_num
    ring
  rw [e1, abs_mul, abs_of_pos ht, e2]
  exact mul_le_mul_of_nonneg_right h ht.le

theorem expOf_le (q : ℚ) (hq : |q| < (2 : ℚ) ^ (1023 : ℤ)) : expOf q ≤ 1022 := by
  unfold expOf
  apply max_le _ (by norm_num)
  rcases eq_or_ne q 0 with rfl | hq0
  · have : ilog2 |(0 : ℚ)| = -1 := by decide!
    rw [this]
    norm_num
  · obtain ⟨s1, -⟩ := ilog2_spec |q| (abs_pos.2 hq0)
    have := (zpow_lt_zpow_iff_right₀ (by norm_num : (1 : ℚ) < 2)).1 (lt_of_le_of_lt s1 hq)
    omega

/-- Below the overflow threshold, `round` returns the significand times the
power of two of the exponent, with the sign of the number. -/
theorem round_eq (q : ℚ) (hq : |q| < (2 : ℚ) ^ (1023 : ℤ)) :
    round q = if sigOf q = 0 then zero (decide (q < 0))
      else fin (if q < 0 then -((sigOf q : ℚ) * (2 : ℚ) ^ (expOf q - 52))
        else (sigOf q : ℚ) * (2 : ℚ) ^ (expOf q - 52)) := by
  rw [round_def]
  have hle := expOf_le q hq
  have hn := sigOf_le q
  have hlt : ¬ ((2 : ℚ) ^ (1024 : ℤ) ≤ (sigOf q : ℚ) * (2 : ℚ) ^ (expOf q - 52)) := by
    rw [not_le]
    have h1 : (sigOf q : ℚ) ≤ (2 : ℚ) ^ (53 : ℤ) := by
      have h53 : ((2 ^ 53 : ℕ) : ℚ) = (2 : ℚ) ^ (53 : ℤ) := by norm_num
      rw [← h53]
      exact_mod_cast hn
    calc (sigOf q : ℚ) * (2 : ℚ) ^ (expOf q - 52)
        ≤ (2 : ℚ) ^ (53 : ℤ) * (2 : ℚ) ^ (expOf q - 52) :=
          mul_le_mul_of_nonneg_right h1 (by positivity)
      _ = (2 : ℚ) ^ (expOf q + 1) := by
          rw [← zpow_add₀ (by norm_num)]
          congr 1
          ring
      _ ≤ (2 : ℚ) ^ (1023 : ℤ) := zpow_le_zpow_right₀ (by norm_num) (by omega)
      _ < (2 : ℚ) ^ (1024 : ℤ) := zpow_lt_zpow_right₀ (by norm_num) (by norm_num)
  unfold sigOf expOf at *
  rw [if_neg hlt]

theorem round_val (q : ℚ) (hq : |q| < (2 : ℚ) ^ (1023 : ℤ)) :
    (round q).val = some (roundVal q) := by
  rw [round_eq q hq]
  unfold roundVal
  by_cases h0 : sigOf q = 0
  · simp [h0, val]
  · simp [h0, val]

/-- Rounding is off by at most half a unit in the last place. -/
theorem roundVal_err (q : ℚ) : |roundVal q - q| ≤ (2 : ℚ) ^ (expOf q - 53) := by
  have h := sigOf_spec q
  unfold roundVal
  split_ifs with hneg
  · rw [abs_of_neg hneg] at h
    have e1 : -((sigOf q : ℚ) * (2 : ℚ) ^ (expOf q - 52)) - q =
        -((sigOf q : ℚ) * (2 : ℚ) ^ (expOf q - 52) - -q) := by ring
    rw [e1, abs_neg]
    exact h
  · rw [abs_of_nonneg (not_lt.1 hneg)] at h
    exact h

theorem roundVal_nonneg (q : ℚ) (hq : 0 ≤ q) : 0 ≤ roundVal q := by
  unfold roundVal
  rw [if_neg (not_lt.2 hq)]
  positivity

theorem roundVal_nonpos (q : ℚ) (hq : q ≤ 0) : roundVal q ≤ 0 := by
  unfold roundVal
  split_ifs with h
  · have : (0 : ℚ) ≤ (sigOf q : ℚ) * (2 : ℚ) ^ (expOf q - 52) := by positivity
    linarith
  · have : q = 0 := le_antisymm hq (not_lt.1 h)
    subst this
    have : sigOf 0 = 0 := by
      unfold sigOf
      simp [roundEven_natCast 0, roundEven]
    simp [this]

/-- In the normal range the relative error of rounding is at most `2 ^ -53`. -/
theorem roundVal_rel (q : ℚ) (hq : (2 : ℚ) ^ (-1022 : ℤ) ≤ |q|) :
    |roundVal q - q| ≤ (2 : ℚ) ^ (-53 : ℤ) * |q| := by
  have ha : 0 < |q| := lt_of_lt_of_le (by positivity) hq
  obtain ⟨s1, s2⟩ := ilog2_spec |q| ha
  have he : expOf q = ilog2 |q| := by
    unfold expOf
    apply max_eq_left
    have := (zpow_lt_zpow_iff_right₀ (by norm_num : (1 : ℚ) < 2)).1 (lt_of_le_of_lt hq s2)
    omega
  refine le_trans (roundVal_err q) ?_
  rw [he, show ilog2 |q| - 53 = (-53 : ℤ) + ilog2 |q| by ring, zpow_add₀ (by norm_num)]
  exact mul_le_mul_of_nonneg_left s1 (by positivity)

/-- Everywhere below the overflow threshold the error of rounding is at most
the relative error `2 ^ -53` plus half the smallest subnormal number. -/
theorem roundVal_abs (q : ℚ) :
    |roundVal q - q| ≤ (2 : ℚ) ^ (-53 : ℤ) * |q| + (2 : ℚ) ^ (-1075 : ℤ) := by
  by_cases hq : (2 : ℚ) ^ (-1022 : ℤ) ≤ |q|
  · have := roundVal_rel q hq
    have : (0 : ℚ) ≤ (2 : ℚ) ^ (-1075 : ℤ) := by positivity
    linarith [roundVal_rel q hq]
  · rcases eq_or_ne q 0 with rfl | hq0
    · have h0 : roundVal 0 = 0 := le_antisymm (roundVal_nonpos 0 le_rfl) (roundVal_nonneg 0 le_rfl)
      rw [h0]
      simp
      positivity
    have he : expOf q = -1022 := by
      unfold expOf
      apply max_eq_right
      obtain ⟨s1, -⟩ := ilog2_spec |q| (abs_pos.2 hq0)
      have := (zpow_lt_zpow_iff_right₀ (by norm_num : (1 : ℚ) < 2)).1
        (lt_of_le_of_lt s1 (not_le.1 hq))
      omega
    have h := roundVal_err q
    rw [he] at h
    have : (0 : ℚ) ≤ (2 : ℚ) ^ (-53 : ℤ) * |q| := by positivity
    have e : ((-1022 : ℤ) - 53) = -1075 := by norm_num
    rw [e] at h
    linarith

/-- A number `n * 2 ^ k` with a significand `n` of at most 53 bits and an
exponent in range is a `double`: rounding returns it. -/
theorem round_exact (q : ℚ) (n : ℕ) (k : ℤ) (hq : |q| = (n : ℚ) * (2 : ℚ) ^ k) (hn0 : 0 < n)
    (hn : n ≤ 2 ^ 53) (hk : -1074 ≤ k) (hk2 : k ≤ 969) : round q = fin q := by
  have hnq : (0 : ℚ) < n := by exact_mod_cast hn0
  have ha : 0 < |q| := by rw [hq]; positivity
  obtain ⟨l1, l2⟩ := log2_spec n hn0
  have l1q : (2 : ℚ) ^ ((log2 n : ℕ) : ℤ) ≤ (n : ℚ) := by
    rw [zpow_natCast]; exact_mod_cast l1
  have l2q : (n : ℚ) < (2 : ℚ) ^ (((log2 n : ℕ) : ℤ) + 1) := by
    rw [show ((log2 n : ℕ) : ℤ) + 1 = ((log2 n + 1 : ℕ) : ℤ) by push_cast; ring, zpow_natCast]
    exact_mod_cast l2
  have hlog : log2 n ≤ 53 := by
    by_contra hc
    have : 2 ^ 54 ≤ 2 ^ log2 n := Nat.pow_le_pow_right (by norm_num) (by omega)
    omega
  have hil : ilog2 |q| = (log2 n : ℤ) + k := by
    apply ilog2_unique
    · rw [hq, zpow_add₀ (by norm_num)]
      exact mul_le_mul_of_nonneg_right l1q (by positivity)
    · rw [hq, show (log2 n : ℤ) + k + 1 = ((log2 n : ℤ) + 1) + k by ring,
        zpow_add₀ (by norm_num)]
      exact mul_lt_mul_of_pos_right l2q (by positivity)
  have hbound : |q| < (2 : ℚ) ^ (1023 : ℤ) := by
    rw [hq]
    calc (n : ℚ) * (2 : ℚ) ^ k < (2 : ℚ) ^ (((log2 n : ℕ) : ℤ) + 1) * (2 : ℚ) ^ k :=
          mul_lt_mul_of_pos_right l2q (by positivity)
      _ = (2 : ℚ) ^ (((log2 n : ℕ) : ℤ) + 1 + k) := (zpow_add₀ (by norm_num) _ _).symm
      _ ≤ (2 : ℚ) ^ (1023 : ℤ) := zpow_le_zpow_right₀ (by norm_num) (by omega)
  have hdiv : ∀ (e : ℤ), (n : ℚ) * (2 : ℚ) ^ k / (2 : ℚ) ^ (e - 52) =
      (n : ℚ) * (2 : ℚ) ^ (k - (e - 52)) := by
    intro e
    rw [mul_div_assoc, ← zpow_sub₀ (by norm_num)]
  -- the quotient by the unit in the last place is a natural number
  have hquot : ∃ m : ℕ, |q| / (2 : ℚ) ^ (expOf q - 52) = (m : ℚ) := by
    by_cases hsub : ilog2 |q| ≤ -1022
    · have he : expOf q = -1022 := by
        unfold expOf
        exact max_eq_right hsub
      refine ⟨n * 2 ^ (k + 1074).toNat, ?_⟩
      rw [he, hq, hdiv]
      push_cast
      rw [← zpow_natCast, Int.toNat_of_nonneg (by omega)]
      congr 2
    · have he : expOf q = (log2 n : ℤ) + k := by
        unfold expOf
        rw [hil]
        apply max_eq_left
        omega
      by_cases h53 : log2 n = 53
      · have hn53 : n = 2 ^ 53 := by
          rw [h53] at l1
          omega
        refine ⟨2 ^ 52, ?_⟩
        rw [he, h53, hq, hdiv, hn53]
        rw [show k - (((53 : ℕ) : ℤ) + k - 52) = (-1 : ℤ) by push_cast; ring]
        norm_num
      · refine ⟨n * 2 ^ (52 - log2 n), ?_⟩
        rw [he, hq, hdiv]
        push_cast
        rw [← zpow_natCast]
        congr 2
        push_cast [Nat.cast_sub (by omega : log2 n ≤ 52)]
        ring
  obtain ⟨m, hm⟩ := hquot
  have hsig : sigOf q = m := by
    unfold sigOf
    rw [hm]
    exact roundEven_natCast m
  have ht : (0 : ℚ) < (2 : ℚ) ^ (expOf q - 52) := by positivity
  have hmt : (m : ℚ) * (2 : ℚ) ^ (expOf q - 52) = |q| := by
    rw [← hm]
    field_simp
  have hm0 : m ≠ 0 := by
    rintro rfl
    simp at hmt
    exact absurd hmt.symm (ne_of_gt ha)
  rw [round_eq q hbound, hsig, if_neg hm0, hmt]
  congr 1
  split_ifs with hneg
  · rw [abs_of_neg hneg]
    ring
  · rw [abs_of_nonneg (not_lt.1 hneg)]

/-- Integers of at most 53 bits are `double`s. -/
theorem round_intCast (n : ℤ) (h0 : n ≠ 0) (hn : |n| ≤ 2 ^ 53) : round (n : ℚ) = fin (n : ℚ) := by
  apply round_exact (n : ℚ) n.natAbs 0
  · simp [Nat.cast_natAbs]
  · exact Int.natAbs_pos.2 h0
  · have : ((n.natAbs : ℕ) : ℤ) ≤ 2 ^ 53 := by
      rw [Int.natCast_natAbs]
      exact hn
    exact_mod_cast this
  · norm_num
  · norm_num

/-- Rounding does not exceed `1` on numbers up to `1`. -/
theorem roundVal_le_one (q : ℚ) (hq : q ≤ 1) : roundVal q ≤ 1 := by
  rcases le_or_lt q 0 with h0 | h0
  · exact le_trans (roundVal_nonpos q h0) (by norm_num)
  · have ha : |q| = q := abs_of_pos h0
    obtain ⟨s1, -⟩ := ilog2_spec |q| (abs_pos.2 h0.ne')
    have he0 : ilog2 |q| ≤ 0 := by
      have h1 : (2 : ℚ) ^ ilog2 |q| < (2 : ℚ) ^ (1 : ℤ) := by
        rw [ha] at s1
        calc (2 : ℚ) ^ ilog2 |q| ≤ q := by rw [ha]; exact s1
          _ ≤ 1 := hq
          _ < (2 : ℚ) ^ (1 : ℤ) := by norm_num
      have := (zpow_lt_zpow_iff_right₀ (by norm_num : (1 : ℚ) < 2)).1 h1
      omega
    have he : expOf q ≤ 0 := by
      unfold expOf
      exact max_le he0 (by norm_num)
    have ht : (0 : ℚ) < (2 : ℚ) ^ (expOf q - 52) := by positivity
    have hM : ((2 ^ (52 - expOf q).toNat : ℕ) : ℚ) * (2 : ℚ) ^ (expOf q - 52) = 1 := by
      push_cast
      rw [← zpow_natCast, Int.toNat_of_nonneg (by omega), ← zpow_add₀ (by norm_num)]
      rw [show 52 - expOf q + (expOf q - 52) = 0 by ring]
      simp
    have hsig : sigOf q ≤ 2 ^ (52 - expOf q).toNat := by
      unfold sigOf
      apply roundEven_le _ (by positivity)
      rw [ha, div_le_iff₀ ht, hM]
      exact hq
    unfold roundVal
    rw [if_neg (not_lt.2 h0.le), ← hM]
    apply mul_le_mul_of_nonneg_right _ ht.le
    exact_mod_cast hsig

theorem val_cases {a : Double} {x : ℚ} (h : a.val = some x) :
    (∃ s, a = zero s ∧ x = 0) ∨ a = fin x := by
  cases a with
  | nan => simp [val] at h
  | inf s => simp [val] at h
  | zero s =>
    simp [val] at h
    exact Or.inl ⟨s, rfl, h.symm⟩
  | fin q =>
    simp [val] at h
    exact Or.inr (by rw [h])

theorem roundVal_zero : roundVal 0 = 0 :=
  le_antisymm (roundVal_nonpos 0 le_rfl) (roundVal_nonneg 0 le_rfl)

theorem round_zero : round 0 = zero false := by decide!

/-- Rounding returns integers of at most 53 bits. -/
theorem round_int_val (n : ℤ) (hn : |n| ≤ 2 ^ 53) : (round (n : ℚ)).val = some (n : ℚ) := by
  rcases eq_or_ne n 0 with rfl | h0
  · simp [round_zero, val]
  · rw [round_intCast n h0 hn]
    rfl

theorem ofInt_val (n : ℤ) (hn : |n| ≤ 2 ^ 53) : (ofInt n).val = some (n : ℚ) := by
  unfold ofInt
  split_ifs with h
  · subst h
    simp [val]
  · exact round_int_val n hn

theorem neg_val {a : Double} {x : ℚ} (h : a.val = some x) : (neg a).val = some (-x) := by
  rcases val_cases h with ⟨s, rfl, rfl⟩ | rfl
  · simp [neg, val]
  · simp [neg, val]

/-- An addition with an integer result of at most 53 bits is exact. -/
theorem add_int {a b : Double} {m n : ℤ} (ha : a.val = some (m : ℚ)) (hb : b.val = some (n : ℚ))
    (h : |m + n| ≤ 2 ^ 53) : (add a b).val = some ((m + n : ℤ) : ℚ) := by
  rcases val_cases ha with ⟨s, rfl, hm⟩ | rfl <;> rcases val_cases hb with ⟨s1, rfl, hn⟩ | rfl
  · simp [add, val, hm, hn]
  · simp [add, val, hm]
  · simp [add, val, hn]
  · simp only [add]
    split_ifs with h0
    · simp only [val]
      rw [← h0]
      push_cast
      rfl
    · have := round_int_val (m + n) h
      push_cast at this ⊢
      exact this

/-- A subtraction with an integer result of at most 53 bits is exact. -/
theorem sub_int {a b : Double} {m n : ℤ} (ha : a.val = some (m : ℚ)) (hb : b.val = some (n : ℚ))
    (h : |m - n| ≤ 2 ^ 53) : (sub a b).val = some ((m - n : ℤ) : ℚ) := by
  have hnb : (neg b).val = some ((-n : ℤ) : ℚ) := by
    have := neg_val hb
    push_cast
    exact this
  have := add_int ha hnb (by rw [← sub_eq_add_neg]; exact h)
  rw [← sub_eq_add_neg] at this
  exact this

/-- A multiplication with an integer result of at most 53 bits is exact. -/
theorem mul_int {a b : Double} {m n : ℤ} (ha : a.val = some (m : ℚ)) (hb : b.val = some (n : ℚ))
    (h : |m * n| ≤ 2 ^ 53) : (mul a b).val = some ((m * n : ℤ) : ℚ) := by
  rcases val_cases ha with ⟨s, rfl, hm⟩ | rfl <;> rcases val_cases hb with ⟨s1, rfl, hn⟩ | rfl
  · simp [mul, val, hm]
  · simp [mul, val, hm]
  · simp [mul, val, hn]
  · simp only [mul]
    have := round_int_val (m * n) h
    push_cast at this ⊢
    exact this

/-- The number a multiplication returns, below the overflow threshold. -/
theorem mul_val {a b : Double} {x y : ℚ} (ha : a.val = some x) (hb : b.val = some y)
    (h : |x * y| < (2 : ℚ) ^ (1023 : ℤ)) : (mul a b).val = some (roundVal (x * y)) := by
  rcases val_cases ha with ⟨s, rfl, hm⟩ | rfl <;> rcases val_cases hb with ⟨s1, rfl, hn⟩ | rfl
  · simp [mul, val, hm, roundVal_zero]
  · simp [mul, val, hm, roundVal_zero]
  · simp [mul, val, hn, roundVal_zero]
  · simp only [mul]
    exact round_val _ h

/-- The number a division by a non-zero number returns, below the overflow
threshold. -/
theorem div_val {a b : Double} {x y : ℚ} (ha : a.val = some x) (hb : b.val = some y)
    (hy : y ≠ 0) (h : |x / y| < (2 : ℚ) ^ (1023 : ℤ)) :
    (div a b).val = some (roundVal (x / y)) := by
  rcases val_cases ha with ⟨s, rfl, hm⟩ | rfl <;> rcases val_cases hb with ⟨s1, rfl, hn⟩ | rfl
  · exact absurd hn hy
  · simp [div, val, hm, roundVal_zero]
  · exact absurd hn hy
  · simp only [div]
    exact round_val _ h

/-- The number an addition returns, below the overflow threshold: the sum up
to the rounding error. -/
theorem add_val {a b : Double} {x y : ℚ} (ha : a.val = some x) (hb : b.val = some y)
    (h : |x + y| < (2 : ℚ) ^ (1023 : ℤ)) :
    ∃ r, (add a b).val = some r ∧
      |r - (x + y)| ≤ (2 : ℚ) ^ (-53 : ℤ) * |x + y| + (2 : ℚ) ^ (-1075 : ℤ) := by
  have hpos : (0 : ℚ) ≤ (2 : ℚ) ^ (-53 : ℤ) * |x + y| + (2 : ℚ) ^ (-1075 : ℤ) := by positivity
  rcases val_cases ha with ⟨s, rfl, hm⟩ | rfl <;> rcases val_cases hb with ⟨s1, rfl, hn⟩ | rfl
  · exact ⟨0, by simp [add, val], by simpa [hm, hn] using hpos⟩
  · exact ⟨y, by simp [add, val], by simpa [hm] using hpos⟩
  · exact ⟨x, by simp [add, val], by simpa [hn] using hpos⟩
  · simp only [add]
    split_ifs with h0
    · exact ⟨0, by simp [val], by simpa [h0] using hpos⟩
    · exact ⟨roundVal (x + y), round_val _ h, roundVal_abs _⟩

theorem ne_zero_iff {a : Double} {x : ℚ} (ha : a.val = some x) :
    a.ne (ofInt 0) = true ↔ x ≠ 0 := by
  rcases val_cases ha with ⟨s, rfl, hm⟩ | rfl
  · simp [ne, key, ofInt, hm]
  · simp [ne, key, ofInt]

theorem ge_zero_iff {a : Double} {x : ℚ} (ha : a.val = some x) :
    a.ge (ofInt 0) = true ↔ 0 ≤ x := by
  rcases val_cases ha with ⟨s, rfl, hm⟩ | rfl
  · simp [ge, le, key, ofInt, hm]
  · simp [ge, le, key, ofInt]

theorem ofInt_one : ofInt 1 = fin 1 := by decide!

theorem le_one_iff {a : Double} {x : ℚ} (ha : a.val = some x) :
    a.le (ofInt 1) = true ↔ x ≤ 1 := by
  rw [ofInt_one]
  rcases val_cases ha with ⟨s, rfl, hm⟩ | rfl
  · simp [le, key, hm]
  · simp [le, key]

theorem sqrtBits_spec (n : ℕ) (k acc : ℕ) (h1 : acc * acc ≤ n)
    (h2 : n < (acc + 2 ^ k) * (acc + 2 ^ k)) :
    sqrtBits n k acc * sqrtBits n k acc ≤ n ∧
      n < (sqrtBits n k acc + 1) * (sqrtBits n k acc + 1) := by
  induction k generalizing acc with
  | zero => simpa [sqrtBits] using ⟨h1, h2⟩
  | succ k ih =>
    unfold sqrtBits
    split_ifs with hc
    · apply ih _ hc
      have : acc + 2 ^ k + 2 ^ k = acc + 2 ^ (k + 1) := by
        rw [pow_succ]
        ring
      rw [this]
      exact h2
    · exact ih acc h1 (not_le.1 hc)

/-- The integer square root is the largest `r` with `r * r ≤ n`. -/
theorem isqrt_spec (n : ℕ) : isqrt n * isqrt n ≤ n ∧ n < (isqrt n + 1) * (isqrt n + 1) := by
  unfold isqrt
  apply sqrtBits_spec
  · simp
  · rcases Nat.eq_zero_or_pos n with rfl | hn
    · simp
    · obtain ⟨-, l2⟩ := log2_spec n hn
      have h1 : 2 ^ (log2 n + 1) ≤ 2 ^ (log2 n / 2 + 1) * 2 ^ (log2 n / 2 + 1) := by
        rw [← pow_add]
        apply Nat.pow_le_pow_right (by norm_num)
        omega
      simp only [zero_add]
      omega

/-- The integer nearest to the square root of a number between `2 ^ 104` and
`2 ^ 106` has 53 bits, and the number lies between the squares of `n - 1/2`
and `n + 1/2`. -/
theorem sqrtEven_spec (x : ℚ) (hx1 : (2 : ℚ) ^ (104 : ℤ) ≤ x) (hx2 : x < (2 : ℚ) ^ (106 : ℤ)) :
    2 ^ 52 ≤ sqrtEven x ∧ sqrtEven x ≤ 2 ^ 53 ∧
      ((sqrtEven x : ℚ) - 1 / 2) ^ 2 ≤ x ∧ x ≤ ((sqrtEven x : ℚ) + 1 / 2) ^ 2 := by
  have hxpos : 0 < x := lt_of_lt_of_le (by positivity) hx1
  obtain ⟨f1, f2⟩ := floor_spec x hxpos.le
  obtain ⟨i1, i2⟩ := isqrt_spec (x.num.natAbs / x.den)
  have hdef : sqrtEven x =
      if x < ((isqrt (x.num.natAbs / x.den) : ℚ) + 1 / 2) *
          ((isqrt (x.num.natAbs / x.den) : ℚ) + 1 / 2) then isqrt (x.num.natAbs / x.den)
      else if ((isqrt (x.num.natAbs / x.den) : ℚ) + 1 / 2) *
          ((isqrt (x.num.natAbs / x.den) : ℚ) + 1 / 2) < x then
        isqrt (x.num.natAbs / x.den) + 1
      else if isqrt (x.num.natAbs / x.den) % 2 = 0 then isqrt (x.num.natAbs / x.den)
      else isqrt (x.num.natAbs / x.den) + 1 := rfl
  generalize x.num.natAbs / x.den = F at f1 f2 i1 i2 hdef
  generalize isqrt F = f at i1 i2 hdef
  have i1q : (f : ℚ) * f ≤ x := by
    have : ((f * f : ℕ) : ℚ) ≤ (F : ℚ) := by exact_mod_cast i1
    push_cast at this
    linarith
  have i2q : x < ((f : ℚ) + 1) * ((f : ℚ) + 1) := by
    have : ((F + 1 : ℕ) : ℚ) ≤ (((f + 1) * (f + 1) : ℕ) : ℚ) := by exact_mod_cast i2
    push_cast at this
    linarith
  have hfpos : (0 : ℚ) ≤ f := by positivity
  have p52 : ((2 ^ 52 : ℕ) : ℚ) = (2 : ℚ) ^ (52 : ℤ) := by norm_num
  have p53 : ((2 ^ 53 : ℕ) : ℚ) = (2 : ℚ) ^ (53 : ℤ) := by norm_num
  have e104 : (2 : ℚ) ^ (104 : ℤ) = (2 : ℚ) ^ (52 : ℤ) * (2 : ℚ) ^ (52 : ℤ) := by
    rw [← zpow_add₀ (by norm_num)]
    norm_num
  have e106 : (2 : ℚ) ^ (106 : ℤ) = (2 : ℚ) ^ (53 : ℤ) * (2 : ℚ) ^ (53 : ℤ) := by
    rw [← zpow_add₀ (by norm_num)]
    norm_num
  have hf52 : 2 ^ 52 ≤ f := by
    by_contra hc
    have hlt : f + 1 ≤ 2 ^ 52 := by omega
    have h1 : ((f : ℚ) + 1) ≤ (2 : ℚ) ^ (52 : ℤ) := by
      rw [← p52]
      exact_mod_cast hlt
    have h2 : ((f : ℚ) + 1) * ((f : ℚ) + 1) ≤ (2 : ℚ) ^ (104 : ℤ) := by
      rw [e104]
      exact mul_le_mul h1 h1 (by positivity) (by positivity)
    linarith
  have hf53 : f + 1 ≤ 2 ^ 53 := by
    by_contra hc
    have hlt : 2 ^ 53 ≤ f := by omega
    have h1 : (2 : ℚ) ^ (53 : ℤ) ≤ (f : ℚ) := by
      rw [← p53]
      exact_mod_cast hlt
    have h2 : (2 : ℚ) ^ (106 : ℤ) ≤ (f : ℚ) * f := by
      rw [e106]
      exact mul_le_mul h1 h1 (by positivity) (by positivity)
    linarith
  have hf1 : (1 : ℚ) ≤ f := by
    have : ((1 : ℕ) : ℚ) ≤ (f : ℚ) := by
      exact_mod_cast le_trans (by norm_num : 1 ≤ 2 ^ 52) hf52
    simpa using this
  have key : ∀ n : ℕ, (n = f ∧ x ≤ ((f : ℚ) + 1 / 2) * ((f : ℚ) + 1 / 2)) ∨
      (n = f + 1 ∧ ((f : ℚ) + 1 / 2) * ((f : ℚ) + 1 / 2) ≤ x) →
      2 ^ 52 ≤ n ∧ n ≤ 2 ^ 53 ∧ ((n : ℚ) - 1 / 2) ^ 2 ≤ x ∧ x ≤ ((n : ℚ) + 1 / 2) ^ 2 := by
    intro n hn
    rcases hn with ⟨rfl, hle⟩ | ⟨rfl, hge⟩
    · refine ⟨hf52, by omega, ?_, ?_⟩
      · nlinarith
      · nlinarith
    · refine ⟨by omega, hf53, ?_, ?_⟩
      · push_cast
        nlinarith
      · push_cast
        nlinarith
  rw [hdef]
  split_ifs with c1 c2 c3
  · exact key f (Or.inl ⟨rfl, c1.le⟩)
  · exact key (f + 1) (Or.inr ⟨rfl, c2.le⟩)
  · exact key f (Or.inl ⟨rfl, not_lt.1 c2⟩)
  · exact key (f + 1) (Or.inr ⟨rfl, not_lt.1 c1⟩)

theorem sqrt_fin_def (q : ℚ) (hq : 0 < q) :
    sqrt (fin q) = fin ((sqrtEven (q / ((2 : ℚ) ^ (ilog2 q / 2 - 52) *
      (2 : ℚ) ^ (ilog2 q / 2 - 52))) : ℚ) * (2 : ℚ) ^ (ilog2 q / 2 - 52)) := by
  unfold sqrt
  simp only [if_neg (not_lt.2 hq.le), pow2_eq]

/-- The square root of a positive number is a `double` with a significand `n`
of 53 bits, the nearest one: the number lies between the squares of
`(n - 1/2) * 2 ^ (e - 52)` and `(n + 1/2) * 2 ^ (e - 52)`. -/
theorem sqrt_fin (q : ℚ) (hq : 0 < q) :
    ∃ n : ℕ, 2 ^ 52 ≤ n ∧ n ≤ 2 ^ 53 ∧
      sqrt (fin q) = fin ((n : ℚ) * (2 : ℚ) ^ (ilog2 q / 2 - 52)) ∧
      (((n : ℚ) - 1 / 2) * (2 : ℚ) ^ (ilog2 q / 2 - 52)) ^ 2 ≤ q ∧
      q ≤ (((n : ℚ) + 1 / 2) * (2 : ℚ) ^ (ilog2 q / 2 - 52)) ^ 2 := by
  obtain ⟨s1, s2⟩ := ilog2_spec q hq
  have hdm := Int.emod_add_ediv (ilog2 q) 2
  have hm := Int.emod_two_eq (ilog2 q)
  have hdef := sqrt_fin_def q hq
  generalize ilog2 q / 2 = e at hdm hdef ⊢
  have he1 : 2 * e ≤ ilog2 q := by omega
  have he2 : ilog2 q ≤ 2 * e + 1 := by omega
  have htt : (2 : ℚ) ^ (e - 52) * (2 : ℚ) ^ (e - 52) = (2 : ℚ) ^ (2 * e - 104) := by
    rw [← zpow_add₀ (by norm_num)]
    congr 1
    ring
  have htpos : (0 : ℚ) < (2 : ℚ) ^ (e - 52) := by positivity
  generalize (2 : ℚ) ^ (e - 52) = t at htt htpos hdef ⊢
  have hxq : q / (t * t) * (t * t) = q := by
    field_simp
  have hx1 : (2 : ℚ) ^ (104 : ℤ) ≤ q / (t * t) := by
    rw [le_div_iff₀ (by positivity), htt, ← zpow_add₀ (by norm_num)]
    refine le_trans (zpow_le_zpow_right₀ (by norm_num) ?_) s1
    omega
  have hx2 : q / (t * t) < (2 : ℚ) ^ (106 : ℤ) := by
    rw [div_lt_iff₀ (by positivity), htt, ← zpow_add₀ (by norm_num)]
    refine lt_of_lt_of_le s2 (zpow_le_zpow_right₀ (by norm_num) ?_)
    omega
  obtain ⟨k1, k2, k3, k4⟩ := sqrtEven_spec _ hx1 hx2
  generalize q / (t * t) = x at hxq hdef k1 k2 k3 k4
  have ht2 : (0 : ℚ) ≤ t * t := by positivity
  refine ⟨sqrtEven x, k1, k2, hdef, ?_, ?_⟩
  · rw [← hxq, mul_pow, sq t]
    exact mul_le_mul_of_nonneg_right k3 ht2
  · rw [← hxq, mul_pow, sq t]
    exact mul_le_mul_of_nonneg_right k4 ht2

end Double

namespace binary64

open Double

theorem IsInt.of_ofInt {n B : ℤ} (hn : |n| ≤ B) (hB : B ≤ 2 ^ 53) : IsInt (Double.ofInt n) n B :=
  ⟨ofInt_val n (le_trans hn hB), hn⟩

theorem IsInt.plus {a b : Double} {m n B1 B2 : ℤ} (ha : IsInt a m B1) (hb : IsInt b n B2)
    (hB : B1 + B2 ≤ 2 ^ 53) : IsInt (a.add b) (m + n) (B1 + B2) := by
  have hbd : |m + n| ≤ B1 + B2 := le_trans (abs_add m n) (add_le_add ha.2 hb.2)
  exact ⟨add_int ha.1 hb.1 (le_trans hbd hB), hbd⟩

theorem IsInt.minus {a b : Double} {m n B1 B2 : ℤ} (ha : IsInt a m B1) (hb : IsInt b n B2)
    (hB : B1 + B2 ≤ 2 ^ 53) : IsInt (a.sub b) (m - n) (B1 + B2) := by
  have hbd : |m - n| ≤ B1 + B2 := le_trans (abs_sub m n) (add_le_add ha.2 hb.2)
  exact ⟨sub_int ha.1 hb.1 (le_trans hbd hB), hbd⟩

theorem IsInt.times {a b : Double} {m n B1 B2 : ℤ} (ha : IsInt a m B1) (hb : IsInt b n B2)
    (hB : B1 * B2 ≤ 2 ^ 53) : IsInt (a.mul b) (m * n) (B1 * B2) := by
  have hbd : |m * n| ≤ B1 * B2 := by
    rw [abs_mul]
    exact mul_le_mul ha.2 hb.2 (abs_nonneg n) (le_trans (abs_nonneg m) ha.2)
  exact ⟨mul_int ha.1 hb.1 (le_trans hbd hB), hbd⟩

theorem IsInt.bound_nonneg {a : Double} {m B : ℤ} (ha : IsInt a m B) : 0 ≤ B :=
  le_trans (abs_nonneg m) ha.2

theorem IsIntVec.of_bounded {p : IntVector} {B : ℤ} (hp : p.Bounded B) (hB : B ≤ 2 ^ 53) :
    IsIntVec p.toDouble p B :=
  ⟨IsInt.of_ofInt hp.1 hB, IsInt.of_ofInt hp.2.1 hB, IsInt.of_ofInt hp.2.2 hB⟩

theorem IsIntVec.vminus {a b : zVector} {p q : IntVector} {B1 B2 : ℤ} (ha : IsIntVec a p B1)
    (hb : IsIntVec b q B2) (hB : B1 + B2 ≤ 2 ^ 53) : IsIntVec (a.sub b) (p.sub q) (B1 + B2) :=
  ⟨ha.1.minus hb.1 hB, ha.2.1.minus hb.2.1 hB, ha.2.2.minus hb.2.2 hB⟩

theorem IsIntVec.vdot {a b : zVector} {p q : IntVector} {B1 B2 : ℤ} (ha : IsIntVec a p B1)
    (hb : IsIntVec b q B2) (hB : 3 * (B1 * B2) ≤ 2 ^ 53) :
    IsInt (a.dot b) (p.dot q) (3 * (B1 * B2)) := by
  have h1 := ha.1.bound_nonneg
  have h2 := hb.1.bound_nonneg
  have h0 : 0 ≤ B1 * B2 := mul_nonneg h1 h2
  have hx := ha.1.times hb.1 (by linarith)
  have hy := ha.2.1.times hb.2.1 (by linarith)
  have hz := ha.2.2.times hb.2.2 (by linarith)
  have hxy := hx.plus hy (by linarith)
  have hxyz := hxy.plus hz (by linarith)
  have e : B1 * B2 + B1 * B2 + B1 * B2 = 3 * (B1 * B2) := by ring
  rw [e] at hxyz
  exact hxyz

theorem IsIntVec.vcross {a b : zVector} {p q : IntVector} {B1 B2 : ℤ} (ha : IsIntVec a p B1)
    (hb : IsIntVec b q B2) (hB : 2 * (B1 * B2) ≤ 2 ^ 53) :
    IsIntVec (a.cross b) (p.cross q) (2 * (B1 * B2)) := by
  have h1 := ha.1.bound_nonneg
  have h2 := hb.1.bound_nonneg
  have h0 : 0 ≤ B1 * B2 := mul_nonneg h1 h2
  have e : B1 * B2 + B1 * B2 = 2 * (B1 * B2) := by ring
  have hh : B1 * B2 ≤ 2 ^ 53 := by linarith
  have hh2 : B1 * B2 + B1 * B2 ≤ 2 ^ 53 := by linarith
  refine ⟨?_, ?_, ?_⟩
  · have := (ha.2.1.times hb.2.2 hh).minus (ha.2.2.times hb.2.1 hh) hh2
    rw [e] at this
    exact this
  · have := (ha.2.2.times hb.1 hh).minus (ha.1.times hb.2.2 hh) hh2
    rw [e] at this
    exact this
  · have := (ha.1.times hb.2.1 hh).minus (ha.2.1.times hb.1 hh) hh2
    rw [e] at this
    exact this

end binary64

namespace Double

/-- In the normal range, rounding keeps a negative number negative. -/
theorem roundVal_neg (x : ℚ) (hx : x < 0) (hn : (2 : ℚ) ^ (-1022 : ℤ) ≤ |x|) : roundVal x < 0 := by
  have h := roundVal_rel x hn
  rw [abs_of_neg hx] at h
  have h1 := (abs_le.1 h).2
  have h53 : (2 : ℚ) ^ (-53 : ℤ) < 1 := by norm_num
  nlinarith

/-- Rounding keeps a number above `1 + 2 ^ -52` above `1`. -/
theorem one_lt_roundVal (x : ℚ) (hx : 1 + (2 : ℚ) ^ (-52 : ℤ) ≤ x) : 1 < roundVal x := by
  have hpos : 0 < x := lt_of_lt_of_le (by positivity) hx
  have hn : (2 : ℚ) ^ (-1022 : ℤ) ≤ |x| := by
    rw [abs_of_pos hpos]
    refine le_trans ?_ (le_trans (le_add_of_nonneg_right (by positivity)) hx)
    exact zpow_le_one_of_nonpos₀ (by norm_num) (by norm_num)
  have h := roundVal_rel x hn
  rw [abs_of_pos hpos] at h
  have h1 := (abs_le.1 h).1
  have e53 : (2 : ℚ) ^ (-53 : ℤ) = 1 / 9007199254740992 := by norm_num
  have e52 : (2 : ℚ) ^ (-52 : ℤ) = 1 / 4503599627370496 := by norm_num
  rw [e53] at h1
  rw [e52] at hx
  nlinarith

end Double

namespace binary64

open Double

theorem quot_lt (A D : ℤ) (hD : D ≠ 0) (hA : |A| ≤ 2 ^ 53) :
    |(A : ℚ) / (D : ℚ)| < (2 : ℚ) ^ (1023 : ℤ) := by
  have hDq : (1 : ℚ) ≤ |(D : ℚ)| := by
    have : (1 : ℤ) ≤ |D| := Int.one_le_abs hD
    exact_mod_cast this
  have hAq : |(A : ℚ)| ≤ (2 : ℚ) ^ (53 : ℤ) := by
    have : ((|A| : ℤ) : ℚ) ≤ ((2 ^ 53 : ℤ) : ℚ) := by exact_mod_cast hA
    push_cast at this
    norm_num
    exact this
  rw [abs_div]
  calc |(A : ℚ)| / |(D : ℚ)| ≤ |(A : ℚ)| := div_le_self (abs_nonneg _) hDq
    _ ≤ (2 : ℚ) ^ (53 : ℤ) := hAq
    _ < (2 : ℚ) ^ (1023 : ℤ) := zpow_lt_zpow_right₀ (by norm_num) (by norm_num)

theorem quot_ge (A D : ℤ) (hA : A ≠ 0) (hD : D ≠ 0) (hDb : |D| ≤ 2 ^ 52) :
    (2 : ℚ) ^ (-52 : ℤ) ≤ |(A : ℚ) / (D : ℚ)| := by
  have hAq : (1 : ℚ) ≤ |(A : ℚ)| := by
    have : (1 : ℤ) ≤ |A| := Int.one_le_abs hA
    exact_mod_cast this
  have hDpos : (0 : ℚ) < |(D : ℚ)| := abs_pos.2 (by exact_mod_cast hD)
  have hDq : |(D : ℚ)| ≤ (2 : ℚ) ^ (52 : ℤ) := by
    have : ((|D| : ℤ) : ℚ) ≤ ((2 ^ 52 : ℤ) : ℚ) := by exact_mod_cast hDb
    push_cast at this
    norm_num
    exact this
  rw [abs_div, le_div_iff₀ hDpos]
  calc (2 : ℚ) ^ (-52 : ℤ) * |(D : ℚ)| ≤ (2 : ℚ) ^ (-52 : ℤ) * (2 : ℚ) ^ (52 : ℤ) :=
        mul_le_mul_of_nonneg_left hDq (by positivity)
    _ = 1 := by norm_num
    _ ≤ |(A : ℚ)| := hAq

theorem quot_gt_one (A D : ℤ) (hD : D ≠ 0) (hDb : |D| ≤ 2 ^ 52)
    (h : 1 < (A : ℚ) / (D : ℚ)) : 1 + (2 : ℚ) ^ (-52 : ℤ) ≤ (A : ℚ) / (D : ℚ) := by
  have hDq : |(D : ℚ)| ≤ (2 : ℚ) ^ (52 : ℤ) := by
    have : ((|D| : ℤ) : ℚ) ≤ ((2 ^ 52 : ℤ) : ℚ) := by exact_mod_cast hDb
    push_cast at this
    norm_num
    exact this
  have e52 : (2 : ℚ) ^ (-52 : ℤ) = 1 / (2 : ℚ) ^ (52 : ℤ) := by norm_num
  rcases lt_or_gt_of_ne hD with hneg | hpos
  · have hDq' : (D : ℚ) < 0 := by exact_mod_cast hneg
    rw [abs_of_neg hDq'] at hDq
    rw [lt_div_iff_of_neg hDq'] at h
    have hlt : A < D := by
      have : (A : ℚ) < (D : ℚ) := by linarith
      exact_mod_cast this
    have hle : (A : ℚ) + 1 ≤ (D : ℚ) := by
      have : A + 1 ≤ D := by omega
      exact_mod_cast this
    rw [le_div_iff_of_neg hDq', e52]
    have h1 : (1 : ℚ) / (2 : ℚ) ^ (52 : ℤ) * (D : ℚ) ≥ -1 := by
      rw [ge_iff_le, div_mul_eq_mul_div, le_div_iff₀ (by positivity)]
      linarith
    linarith
  · have hDq' : (0 : ℚ) < (D : ℚ) := by exact_mod_cast hpos
    rw [abs_of_pos hDq'] at hDq
    rw [lt_div_iff₀ hDq'] at h
    have hlt : D < A := by
      have : (D : ℚ) < (A : ℚ) := by linarith
      exact_mod_cast this
    have hle : (D : ℚ) + 1 ≤ (A : ℚ) := by
      have : D + 1 ≤ A := by omega
      exact_mod_cast this
    rw [le_div_iff₀ hDq', e52]
    have h1 : (1 : ℚ) / (2 : ℚ) ^ (52 : ℤ) * (D : ℚ) ≤ 1 := by
      rw [div_mul_eq_mul_div, div_le_iff₀ (by positivity)]
      linarith
    linarith

/-- The guards on the rounded quotient of two integers of at most 52 bits
decide as on the quotient itself. -/
theorem quot_guards (A D : ℤ) (hD : D ≠ 0) (hAb : |A| ≤ 2 ^ 52) (hDb : |D| ≤ 2 ^ 52) :
    (0 ≤ roundVal ((A : ℚ) / (D : ℚ)) ↔ 0 ≤ (A : ℚ) / (D : ℚ)) ∧
    (roundVal ((A : ℚ) / (D : ℚ)) ≤ 1 ↔ (A : ℚ) / (D : ℚ) ≤ 1) := by
  constructor
  · constructor
    · intro h
      by_contra hc
      have hneg : (A : ℚ) / (D : ℚ) < 0 := not_le.1 hc
      have hA : A ≠ 0 := by
        rintro rfl
        simp at hneg
      have hn : (2 : ℚ) ^ (-1022 : ℤ) ≤ |(A : ℚ) / (D : ℚ)| :=
        le_trans (zpow_le_zpow_right₀ (by norm_num) (by norm_num)) (quot_ge A D hA hD hDb)
      have := roundVal_neg _ hneg hn
      linarith
    · exact roundVal_nonneg _
  · constructor
    · intro h
      by_contra hc
      have := one_lt_roundVal _ (quot_gt_one A D hD hDb (not_le.1 hc))
      linarith
    · exact roundVal_le_one _

/-- On the integer grid the two dot products of `line_PlaneIntersection` are
exact, and the function returns `true` exactly when the exact quotient passes
the guards. -/
theorem line_PlaneIntersection_flag (p1 p2 planeNorm p3 : IntVector) (intersectionPt : zVector)
    (h1 : p1.Bounded 1024) (h2 : p2.Bounded 1024) (hn : planeNorm.Bounded 1024)
    (h3 : p3.Bounded 1024) :
    (line_PlaneIntersection p1.toDouble p2.toDouble planeNorm.toDouble p3.toDouble
        intersectionPt).1 = true ↔
      planeNorm.dot (p2.sub p1) ≠ 0 ∧
      0 ≤ (planeNorm.dot (p3.sub p1) : ℚ) / (planeNorm.dot (p2.sub p1) : ℚ) ∧
      (planeNorm.dot (p3.sub p1) : ℚ) / (planeNorm.dot (p2.sub p1) : ℚ) ≤ 1 := by
  have r1 := IsIntVec.of_bounded h1 (by norm_num)
  have r2 := IsIntVec.of_bounded h2 (by norm_num)
  have rn := IsIntVec.of_bounded hn (by norm_num)
  have r3 := IsIntVec.of_bounded h3 (by norm_num)
  have r31 := r3.vminus r1 (by norm_num)
  have r21 := r2.vminus r1 (by norm_num)
  have hD := rn.vdot r21 (by norm_num)
  have hA := rn.vdot r31 (by norm_num)
  have hne := ne_zero_iff hD.1
  unfold line_PlaneIntersection
  simp only []
  by_cases hd0 : planeNorm.dot (p2.sub p1) = 0
  · have : ¬ ((planeNorm.toDouble.dot (p2.toDouble.sub p1.toDouble)).ne (Double.ofInt 0) = true) := by
      rw [hne]
      simp [hd0]
    simp [this, hd0]
  · have hdq : ((planeNorm.dot (p2.sub p1) : ℤ) : ℚ) ≠ 0 := by exact_mod_cast hd0
    have hc : (planeNorm.toDouble.dot (p2.toDouble.sub p1.toDouble)).ne (Double.ofInt 0) = true :=
      hne.2 hdq
    have hAb : |planeNorm.dot (p3.sub p1)| ≤ 2 ^ 52 := le_trans hA.2 (by norm_num)
    have hDb : |planeNorm.dot (p2.sub p1)| ≤ 2 ^ 52 := le_trans hD.2 (by norm_num)
    have hu := div_val hA.1 hD.1 hdq (quot_lt _ _ hd0 (le_trans hAb (by norm_num)))
    obtain ⟨g1, g2⟩ := quot_guards _ _ hd0 hAb hDb
    have hge := ge_zero_iff hu
    have hle := le_one_iff hu
    rw [if_pos hc]
    by_cases hg : 0 ≤ (planeNorm.dot (p3.sub p1) : ℚ) / (planeNorm.dot (p2.sub p1) : ℚ) ∧
        (planeNorm.dot (p3.sub p1) : ℚ) / (planeNorm.dot (p2.sub p1) : ℚ) ≤ 1
    · have c1 := hge.2 (g1.2 hg.1)
      have c2 := hle.2 (g2.2 hg.2)
      simp [c1, c2, hd0, hg.1, hg.2]
    · have : ¬ (((planeNorm.toDouble.dot (p3.toDouble.sub p1.toDouble)).div
          (planeNorm.toDouble.dot (p2.toDouble.sub p1.toDouble))).ge (Double.ofInt 0) = true ∧
          ((planeNorm.toDouble.dot (p3.toDouble.sub p1.toDouble)).div
          (planeNorm.toDouble.dot (p2.toDouble.sub p1.toDouble))).le (Double.ofInt 1) = true) := by
        rintro ⟨c1, c2⟩
        exact hg ⟨g1.1 (hge.1 c1), g2.1 (hle.1 c2)⟩
      have hg' : ¬ (0 ≤ (planeNorm.dot (p3.sub p1) : ℚ) / (planeNorm.dot (p2.sub p1) : ℚ) ∧
        (planeNorm.dot (p3.sub p1) : ℚ) / (planeNorm.dot (p2.sub p1) : ℚ) ≤ 1) := hg
      simp only [Bool.and_eq_true]
      rw [if_neg this]
      simp only [Bool.false_eq_true, false_iff, not_and]
      intro _ k1 k2
      exact hg ⟨k1, k2⟩

/-- The plane equation along the segment: at the parameter `t` it is
`t * (n . (p2 - p1)) - n . (p3 - p1)`. -/
theorem plane_equation (p1 p2 planeNorm p3 : IntVector) (t : ℚ) :
    planeNorm.toRat.dot ((p1.toRat.add ((p2.toRat.sub p1.toRat).scale t)).sub p3.toRat) =
      t * (planeNorm.dot (p2.sub p1) : ℚ) - (planeNorm.dot (p3.sub p1) : ℚ) := by
  simp only [zSpace.zVector.dot, zSpace.zVector.add, zSpace.zVector.sub, zSpace.zVector.scale,
    IntVector.toRat, IntVector.dot, IntVector.sub]
  push_cast
  ring

/-- The segment meets the plane in exactly one point if and only if the line
is not parallel to the plane and the parameter of the meeting point is in
`[0, 1]`. -/
theorem segment_plane_unique (p1 p2 planeNorm p3 : IntVector) :
    (planeNorm.dot (p2.sub p1) ≠ 0 ∧
      0 ≤ (planeNorm.dot (p3.sub p1) : ℚ) / (planeNorm.dot (p2.sub p1) : ℚ) ∧
      (planeNorm.dot (p3.sub p1) : ℚ) / (planeNorm.dot (p2.sub p1) : ℚ) ≤ 1) ↔
    ∃! t : ℚ, 0 ≤ t ∧ t ≤ 1 ∧
      planeNorm.toRat.dot ((p1.toRat.add ((p2.toRat.sub p1.toRat).scale t)).sub p3.toRat) = 0 := by
  simp only [plane_equation]
  constructor
  · rintro ⟨hd, h0, h1⟩
    have hdq : ((planeNorm.dot (p2.sub p1) : ℤ) : ℚ) ≠ 0 := by exact_mod_cast hd
    refine ⟨_, ⟨h0, h1, by field_simp⟩, ?_⟩
    rintro t ⟨-, -, ht⟩
    field_simp
    linarith
  · rintro ⟨t, ⟨h0, h1, ht⟩, huniq⟩
    by_cases hd : planeNorm.dot (p2.sub p1) = 0
    · exfalso
      rw [hd] at ht huniq
      simp only [Int.cast_zero, mul_zero, zero_sub, neg_eq_zero] at ht huniq
      have e0 := huniq 0 ⟨le_rfl, zero_le_one, ht⟩
      have e1 := huniq 1 ⟨zero_le_one, le_rfl, ht⟩
      rw [← e0] at e1
      exact one_ne_zero e1
    · have hdq : ((planeNorm.dot (p2.sub p1) : ℤ) : ℚ) ≠ 0 := by exact_mod_cast hd
      have : t = (planeNorm.dot (p3.sub p1) : ℚ) / (planeNorm.dot (p2.sub p1) : ℚ) := by
        field_simp
        linarith
      rw [← this]
      exact ⟨hd, h0, h1⟩

end binary64

namespace Double

theorem ofInt_eq_fin (n : ℤ) (h0 : n ≠ 0) (hn : |n| ≤ 2 ^ 53) : ofInt n = fin (n : ℚ) := by
  unfold ofInt
  rw [if_neg h0, round_intCast n h0 hn]

/-- The square of an integer `double` is the `double` of the square, a zero
with the sign bit clear if it is zero. -/
theorem mul_self_int {a : Double} {m : ℤ} (ha : a.val = some (m : ℚ)) :
    a.mul a = ofInt (m * m) := by
  rcases val_cases ha with ⟨s, rfl, hm⟩ | rfl
  · have : m = 0 := by exact_mod_cast hm
    subst this
    cases s <;> rfl
  · by_cases h0 : m = 0
    · subst h0
      simp only [mul, Int.cast_zero, mul_zero]
      exact round_zero
    · have hmm : m * m ≠ 0 := mul_ne_zero h0 h0
      simp only [mul, ofInt, if_neg hmm]
      push_cast
      rfl

/-- The sum of two non-negative integer `double`s with the sign bit clear is
the `double` of the sum. -/
theorem add_ofInt (x y : ℤ) (hx : 0 ≤ x) (hy : 0 ≤ y) (h : x + y ≤ 2 ^ 53) :
    (ofInt x).add (ofInt y) = ofInt (x + y) := by
  rcases eq_or_lt_of_le hx with rfl | hx0
  · rcases eq_or_lt_of_le hy with rfl | hy0
    · rfl
    · rw [zero_add, ofInt_eq_fin y hy0.ne' (by rw [abs_of_pos hy0]; linarith)]
      rfl
  · have hxf := ofInt_eq_fin x hx0.ne' (by rw [abs_of_pos hx0]; linarith)
    rcases eq_or_lt_of_le hy with rfl | hy0
    · rw [add_zero, hxf]
      rfl
    · have hyf := ofInt_eq_fin y hy0.ne' (by rw [abs_of_pos hy0]; linarith)
      have hs : x + y ≠ 0 := by omega
      have hsq : (x : ℚ) + (y : ℚ) ≠ 0 := by exact_mod_cast hs
      rw [hxf, hyf]
      simp only [add, if_neg hsq, ofInt, if_neg hs]
      push_cast
      rfl

end Double

namespace binary64

open Double

/-- The length of a vector with integer coordinates is the square root of the
exact sum of the squares. -/
theorem length_int {c : zVector} {p : IntVector} {B : ℤ} (hc : IsIntVec c p B)
    (hB : 3 * (B * B) ≤ 2 ^ 53) : c.length = (Double.ofInt (p.dot p)).sqrt := by
  have hB0 := hc.1.bound_nonneg
  have hsq : ∀ m : ℤ, |m| ≤ B → 0 ≤ m * m ∧ m * m ≤ B * B := by
    intro m hm
    refine ⟨mul_self_nonneg m, ?_⟩
    have := abs_mul_abs_self m
    rw [← this]
    exact mul_le_mul hm hm (abs_nonneg m) hB0
  obtain ⟨x0, x1⟩ := hsq p.x hc.1.2
  obtain ⟨y0, y1⟩ := hsq p.y hc.2.1.2
  obtain ⟨z0, z1⟩ := hsq p.z hc.2.2.2
  unfold zVector.length
  rw [mul_self_int hc.1.1, mul_self_int hc.2.1.1, mul_self_int hc.2.2.1,
    add_ofInt _ _ x0 y0 (by linarith), add_ofInt _ _ (by linarith) z0 (by linarith)]
  rfl

/-- On the integer grid `triangleArea` works on the exact cross product. -/
theorem triangleArea_eq (v1 v2 v3 : IntVector) (h1 : v1.Bounded 1024) (h2 : v2.Bounded 1024)
    (h3 : v3.Bounded 1024) :
    triangleArea v1.toDouble v2.toDouble v3.toDouble = areaOfSq (crossSq v1 v2 v3) := by
  have r1 := IsIntVec.of_bounded h1 (by norm_num)
  have r2 := IsIntVec.of_bounded h2 (by norm_num)
  have r3 := IsIntVec.of_bounded h3 (by norm_num)
  have e12 := r2.vminus r1 (by norm_num)
  have e13 := r3.vminus r1 (by norm_num)
  have hc := e12.vcross e13 (by norm_num)
  unfold triangleArea areaOfSq crossSq
  simp only []
  rw [length_int hc (by norm_num)]

theorem crossSq_nonneg (v1 v2 v3 : IntVector) : 0 ≤ crossSq v1 v2 v3 := by
  unfold crossSq IntVector.dot
  exact add_nonneg (add_nonneg (mul_self_nonneg _) (mul_self_nonneg _)) (mul_self_nonneg _)

theorem crossSq_le (v1 v2 v3 : IntVector) (h1 : v1.Bounded 1024) (h2 : v2.Bounded 1024)
    (h3 : v3.Bounded 1024) : crossSq v1 v2 v3 ≤ 2 ^ 53 := by
  have r1 := IsIntVec.of_bounded h1 (by norm_num)
  have r2 := IsIntVec.of_bounded h2 (by norm_num)
  have r3 := IsIntVec.of_bounded h3 (by norm_num)
  have e12 := r2.vminus r1 (by norm_num)
  have e13 := r3.vminus r1 (by norm_num)
  have hc := e12.vcross e13 (by norm_num)
  have := (hc.vdot hc (by norm_num)).2
  unfold crossSq
  exact le_trans (le_trans (le_abs_self _) this) (by norm_num)

theorem crossSq_perm (a b c : IntVector) :
    crossSq a c b = crossSq a b c ∧ crossSq b a c = crossSq a b c := by
  constructor <;>
  · simp only [crossSq, IntVector.dot, IntVector.cross, IntVector.sub]
    ring

theorem crossSq_toRat (v1 v2 v3 : IntVector) :
    ((crossSq v1 v2 v3 : ℤ) : ℚ) =
      ((v2.toRat.sub v1.toRat).cross (v3.toRat.sub v1.toRat)).dot
        ((v2.toRat.sub v1.toRat).cross (v3.toRat.sub v1.toRat)) := by
  simp only [crossSq, IntVector.dot, IntVector.cross, IntVector.sub, IntVector.toRat,
    zSpace.zVector.dot, zSpace.zVector.cross, zSpace.zVector.sub]
  push_cast
  ring

theorem crossSq_eq_zero_iff (v1 v2 v3 : IntVector) :
    crossSq v1 v2 v3 = 0 ↔ Collinear v1.toRat v2.toRat v3.toRat := by
  have h := crossSq_toRat v1 v2 v3
  have hz : crossSq v1 v2 v3 = 0 ↔ ((crossSq v1 v2 v3 : ℤ) : ℚ) = 0 := by
    constructor
    · intro h0
      rw [h0]
      simp
    · intro h0
      exact_mod_cast h0
  rw [hz, h]
  unfold zSpace.zVector.dot
  rw [zVector.dot_self_eq_zero_iff]
  exact ⟨zVector.collinear_of_cross_eq_zero _ _ _, zVector.cross_eq_zero_of_collinear _ _ _⟩

/-- The value of `triangleArea` on the square `N ≥ 1` of the norm of the cross
product: half of a `double` `r` that is the root of `N` up to the relative
error `2 ^ -53`. -/
theorem areaOfSq_pos (N : ℤ) (h1 : 1 ≤ N) (h2 : N ≤ 2 ^ 53) :
    ∃ r : ℚ, (areaOfSq N).val = some (r / 2) ∧ 0 < r ∧
      (r * (1 - (2 : ℚ) ^ (-53 : ℤ))) ^ 2 ≤ (N : ℚ) ∧
      (N : ℚ) ≤ (r * (1 + (2 : ℚ) ^ (-53 : ℤ))) ^ 2 := by
  have hN0 : N ≠ 0 := by omega
  have hNq : (0 : ℚ) < (N : ℚ) := by exact_mod_cast (by omega : 0 < N)
  have hNq1 : (1 : ℚ) ≤ (N : ℚ) := by exact_mod_cast h1
  have hNq2 : (N : ℚ) ≤ (2 : ℚ) ^ (53 : ℤ) := by
    have : ((N : ℤ) : ℚ) ≤ ((2 ^ 53 : ℤ) : ℚ) := by exact_mod_cast h2
    push_cast at this
    norm_num
    exact this
  obtain ⟨l1, l2⟩ := ilog2_spec (N : ℚ) hNq
  have hlo : 0 ≤ ilog2 (N : ℚ) := by
    by_contra hc
    have : (N : ℚ) < (2 : ℚ) ^ (0 : ℤ) :=
      lt_of_lt_of_le l2 (zpow_le_zpow_right₀ (by norm_num) (by omega))
    norm_num at this
    linarith
  have hhi : ilog2 (N : ℚ) ≤ 53 := by
    have := (zpow_le_zpow_iff_right₀ (by norm_num : (1 : ℚ) < 2)).1 (le_trans l1 hNq2)
    exact this
  obtain ⟨n, n1, n2, hsq, b1, b2⟩ := sqrt_fin (N : ℚ) hNq
  have he1 : 0 ≤ ilog2 (N : ℚ) / 2 := Int.ediv_nonneg hlo (by norm_num)
  have he2 : ilog2 (N : ℚ) / 2 ≤ 26 := by omega
  generalize ilog2 (N : ℚ) / 2 = e at hsq b1 b2 he1 he2
  have hn0 : 0 < n := lt_of_lt_of_le (by norm_num) n1
  have hnq : (2 : ℚ) ^ (52 : ℤ) ≤ (n : ℚ) := by
    have h52 : ((2 ^ 52 : ℕ) : ℚ) = (2 : ℚ) ^ (52 : ℤ) := by norm_num
    rw [← h52]
    exact_mod_cast n1
  have htpos : (0 : ℚ) < (2 : ℚ) ^ (e - 52) := by positivity
  have hhalf : ((n : ℚ) * (2 : ℚ) ^ (e - 52)) * (1 / 2) = (n : ℚ) * (2 : ℚ) ^ (e - 53) := by
    rw [show e - 53 = (e - 52) + (-1) by ring, zpow_add₀ (by norm_num)]
    norm_num
    ring
  have hmul : areaOfSq N = fin (((n : ℚ) * (2 : ℚ) ^ (e - 52)) * (1 / 2)) := by
    unfold areaOfSq
    rw [ofInt_eq_fin N hN0 (by rw [abs_of_pos (by omega)]; exact h2), hsq]
    simp only [mul]
    apply round_exact _ n (e - 53)
    · rw [hhalf]
      exact abs_of_pos (by positivity)
    · exact hn0
    · exact n2
    · omega
    · omega
  refine ⟨(n : ℚ) * (2 : ℚ) ^ (e - 52), ?_, by positivity, ?_, ?_⟩
  · rw [hmul]
    simp only [val]
    congr 1
    ring
  · refine le_trans ?_ b1
    have e53 : (2 : ℚ) ^ (-53 : ℤ) = 1 / (2 : ℚ) ^ (53 : ℤ) := by norm_num
    have hnn : (1 : ℚ) / 2 ≤ (n : ℚ) * (2 : ℚ) ^ (-53 : ℤ) := by
      calc (1 : ℚ) / 2 = (2 : ℚ) ^ (52 : ℤ) * (2 : ℚ) ^ (-53 : ℤ) := by norm_num
        _ ≤ (n : ℚ) * (2 : ℚ) ^ (-53 : ℤ) := mul_le_mul_of_nonneg_right hnq (by positivity)
    have hnn1 : (n : ℚ) * (2 : ℚ) ^ (-53 : ℤ) ≤ (n : ℚ) := by
      apply mul_le_of_le_one_right (by positivity)
      norm_num
    have hle : (n : ℚ) * (2 : ℚ) ^ (e - 52) * (1 - (2 : ℚ) ^ (-53 : ℤ)) ≤
        ((n : ℚ) - 1 / 2) * (2 : ℚ) ^ (e - 52) := by
      have : (n : ℚ) * (2 : ℚ) ^ (e - 52) * (1 - (2 : ℚ) ^ (-53 : ℤ)) =
          ((n : ℚ) - (n : ℚ) * (2 : ℚ) ^ (-53 : ℤ)) * (2 : ℚ) ^ (e - 52) := by ring
      rw [this]
      apply mul_le_mul_of_nonneg_right _ htpos.le
      linarith
    have hnonneg : 0 ≤ (n : ℚ) * (2 : ℚ) ^ (e - 52) * (1 - (2 : ℚ) ^ (-53 : ℤ)) := by
      apply mul_nonneg (by positivity)
      norm_num
    exact pow_le_pow_left₀ hnonneg hle 2
  · refine le_trans b2 ?_
    have hnn : (1 : ℚ) / 2 ≤ (n : ℚ) * (2 : ℚ) ^ (-53 : ℤ) := by
      calc (1 : ℚ) / 2 = (2 : ℚ) ^ (52 : ℤ) * (2 : ℚ) ^ (-53 : ℤ) := by norm_num
        _ ≤ (n : ℚ) * (2 : ℚ) ^ (-53 : ℤ) := mul_le_mul_of_nonneg_right hnq (by positivity)
    have hle : ((n : ℚ) + 1 / 2) * (2 : ℚ) ^ (e - 52) ≤
        (n : ℚ) * (2 : ℚ) ^ (e - 52) * (1 + (2 : ℚ) ^ (-53 : ℤ)) := by
      have : (n : ℚ) * (2 : ℚ) ^ (e - 52) * (1 + (2 : ℚ) ^ (-53 : ℤ)) =
          ((n : ℚ) + (n : ℚ) * (2 : ℚ) ^ (-53 : ℤ)) * (2 : ℚ) ^ (e - 52) := by ring
      rw [this]
      apply mul_le_mul_of_nonneg_right _ htpos.le
      linarith
    exact pow_le_pow_left₀ (by positivity) hle 2

theorem areaOfSq_zero : areaOfSq 0 = Double.zero false := by decide!

/-- The area of the triangle `(0,0,0)`, `(3,0,0)`, `(0,4,0)`, evaluated. -/
theorem triangleArea_three_four :
    triangleArea (zVector.ofInts 0 0 0) (zVector.ofInts 3 0 0) (zVector.ofInts 0 4 0) =
      Double.fin 6 := by
  decide!

end binary64

namespace Double

/-- The product of an integer with the rounded inverse of a positive integer,
rounded, is the quotient up to the relative error `2 ^ -51`. -/
theorem roundVal_mul_inv (N D : ℤ) (hD : 1 ≤ D) (hD2 : D ≤ 2 ^ 52) (hN : |N| ≤ 2 ^ 52) :
    0 < roundVal (1 / (D : ℚ)) ∧
    |(N : ℚ) * roundVal (1 / (D : ℚ))| < (2 : ℚ) ^ (1023 : ℤ) ∧
    |roundVal ((N : ℚ) * roundVal (1 / (D : ℚ))) - (N : ℚ) / (D : ℚ)| ≤
      (2 : ℚ) ^ (-51 : ℤ) * |(N : ℚ) / (D : ℚ)| := by
  have hDq : (1 : ℚ) ≤ (D : ℚ) := by exact_mod_cast hD
  have hDpos : (0 : ℚ) < (D : ℚ) := by linarith
  have hDq2 : (D : ℚ) ≤ (2 : ℚ) ^ (52 : ℤ) := by
    have h52 : ((2 ^ 52 : ℤ) : ℚ) = (2 : ℚ) ^ (52 : ℤ) := by norm_num
    rw [← h52]
    exact_mod_cast hD2
  have hNq : |(N : ℚ)| ≤ (2 : ℚ) ^ (52 : ℤ) := by
    have h52 : ((2 ^ 52 : ℤ) : ℚ) = (2 : ℚ) ^ (52 : ℤ) := by norm_num
    rw [← h52]
    exact_mod_cast hN
  have hinv_pos : (0 : ℚ) < 1 / (D : ℚ) := by positivity
  have hinv_le : 1 / (D : ℚ) ≤ 1 := by
    rw [div_le_iff₀ hDpos]
    linarith
  have hinv_ge : (2 : ℚ) ^ (-52 : ℤ) ≤ 1 / (D : ℚ) := by
    rw [le_div_iff₀ hDpos]
    calc (2 : ℚ) ^ (-52 : ℤ) * (D : ℚ) ≤ (2 : ℚ) ^ (-52 : ℤ) * (2 : ℚ) ^ (52 : ℤ) :=
          mul_le_mul_of_nonneg_left hDq2 (by positivity)
      _ = 1 := by norm_num
  have hnorm : (2 : ℚ) ^ (-1022 : ℤ) ≤ |1 / (D : ℚ)| := by
    rw [abs_of_pos hinv_pos]
    exact le_trans (zpow_le_zpow_right₀ (by norm_num) (by norm_num)) hinv_ge
  have hr := roundVal_rel (1 / (D : ℚ)) hnorm
  rw [abs_of_pos hinv_pos] at hr
  obtain ⟨hr1, hr2⟩ := abs_le.1 hr
  have e53 : (2 : ℚ) ^ (-53 : ℤ) = 1 / 9007199254740992 := by norm_num
  have e52 : (2 : ℚ) ^ (-52 : ℤ) = 1 / 4503599627370496 := by norm_num
  have e51 : (2 : ℚ) ^ (-51 : ℤ) = 1 / 2251799813685248 := by norm_num
  have p52 : (2 : ℚ) ^ (52 : ℤ) = 4503599627370496 := by norm_num
  generalize roundVal (1 / (D : ℚ)) = r at hr hr1 hr2 ⊢
  generalize hi : 1 / (D : ℚ) = i at hr hr1 hr2 hinv_pos hinv_le hinv_ge hnorm
  have hND : (N : ℚ) / (D : ℚ) = (N : ℚ) * i := by
    rw [← hi]
    ring
  rw [e53] at hr1 hr2
  rw [e52] at hinv_ge
  have hrpos : 0 < r := by nlinarith
  have hrle : r ≤ 2 := by nlinarith
  have hrge : 1 / 9007199254740992 ≤ r := by nlinarith
  refine ⟨hrpos, ?_, ?_⟩
  · rw [abs_mul, abs_of_pos hrpos]
    calc |(N : ℚ)| * r ≤ (2 : ℚ) ^ (52 : ℤ) * 2 :=
          mul_le_mul hNq hrle hrpos.le (by positivity)
      _ < (2 : ℚ) ^ (1023 : ℤ) := by
          rw [show (2 : ℚ) ^ (52 : ℤ) * 2 = (2 : ℚ) ^ (53 : ℤ) by norm_num]
          exact zpow_lt_zpow_right₀ (by norm_num) (by norm_num)
  · rw [hND]
    rcases eq_or_ne N 0 with rfl | hN0
    · simp [roundVal_zero]
    · have hNabs : (1 : ℚ) ≤ |(N : ℚ)| := by
        have : (1 : ℤ) ≤ |N| := Int.one_le_abs hN0
        exact_mod_cast this
      have hprod : (2 : ℚ) ^ (-1022 : ℤ) ≤ |(N : ℚ) * r| := by
        rw [abs_mul, abs_of_pos hrpos]
        calc (2 : ℚ) ^ (-1022 : ℤ) ≤ (2 : ℚ) ^ (-53 : ℤ) :=
              zpow_le_zpow_right₀ (by norm_num) (by norm_num)
          _ = 1 / 9007199254740992 := e53
          _ ≤ r := hrge
          _ ≤ |(N : ℚ)| * r := le_mul_of_one_le_left hrpos.le hNabs
      have hm := roundVal_rel ((N : ℚ) * r) hprod
      rw [abs_mul, abs_of_pos hrpos, e53] at hm
      rw [abs_mul, abs_of_pos hinv_pos, e51]
      have hr' : |r - i| ≤ 1 / 9007199254740992 * i := by
        rw [abs_le]
        exact ⟨hr1, hr2⟩
      have htri : |roundVal ((N : ℚ) * r) - (N : ℚ) * i| ≤
          |roundVal ((N : ℚ) * r) - (N : ℚ) * r| + |(N : ℚ)| * |r - i| := by
        have : roundVal ((N : ℚ) * r) - (N : ℚ) * i =
            (roundVal ((N : ℚ) * r) - (N : ℚ) * r) + (N : ℚ) * (r - i) := by ring
        rw [this]
        refine le_trans (abs_add _ _) ?_
        rw [abs_mul]
      have hNnn : 0 ≤ |(N : ℚ)| := abs_nonneg _
      have h2 : |(N : ℚ)| * |r - i| ≤ |(N : ℚ)| * (1 / 9007199254740992 * i) :=
        mul_le_mul_of_nonneg_left hr' hNnn
      have h3 : |(N : ℚ)| * r ≤ |(N : ℚ)| * (i + 1 / 9007199254740992 * i) :=
        mul_le_mul_of_nonneg_left (by linarith) hNnn
      have hNi : 0 ≤ |(N : ℚ)| * i := mul_nonneg hNnn hinv_pos.le
      nlinarith

end Double

namespace binary64

open Double

/-- The determinant of `line_lineClosestPoints` is the square of the norm of
the cross product of the directions (Lagrange). -/
theorem lagrange (u v : IntVector) :
    u.dot u * v.dot v - u.dot v * u.dot v = (u.cross v).dot (u.cross v) := by
  simp only [IntVector.dot, IntVector.cross]
  ring

theorem dot_self_pos (c : IntVector) (h : c ≠ ⟨0, 0, 0⟩) : 1 ≤ c.dot c := by
  have hx := mul_self_nonneg c.x
  have hy := mul_self_nonneg c.y
  have hz := mul_self_nonneg c.z
  unfold IntVector.dot
  by_contra hc
  have hsum : c.x * c.x + c.y * c.y + c.z * c.z = 0 := by omega
  have e1 : c.x * c.x = 0 := by omega
  have e2 : c.y * c.y = 0 := by omega
  have e3 : c.z * c.z = 0 := by omega
  apply h
  cases c
  simp only [IntVector.mk.injEq]
  exact ⟨mul_self_eq_zero.1 e1, mul_self_eq_zero.1 e2, mul_self_eq_zero.1 e3⟩

/-- The exact parameters of the common perpendicular: with them, the vector
between the two points is orthogonal to both directions. -/
theorem closest_exact (uu uv vv uw vw : ℚ) (h : uu * vv - uv * uv ≠ 0) :
    uw + (uv * vw - vv * uw) / (uu * vv - uv * uv) * uu -
      (uu * vw - uv * uw) / (uu * vv - uv * uv) * uv = 0 ∧
    vw + (uv * vw - vv * uw) / (uu * vv - uv * uv) * uv -
      (uu * vw - uv * uw) / (uu * vv - uv * uv) * vv = 0 := by
  constructor
  · field_simp
    ring
  · field_simp
    ring

theorem connecting_dot (a0 a1 b0 b1 : IntVector) (sA sB : ℚ) :
    ((a0.toRat.add ((a1.toRat.sub a0.toRat).scale sA)).sub
        (b0.toRat.add ((b1.toRat.sub b0.toRat).scale sB))).dot (a1.toRat.sub a0.toRat) =
      (((a1.sub a0).dot (a0.sub b0) : ℤ) : ℚ) + sA * (((a1.sub a0).dot (a1.sub a0) : ℤ) : ℚ) -
        sB * (((a1.sub a0).dot (b1.sub b0) : ℤ) : ℚ) ∧
    ((a0.toRat.add ((a1.toRat.sub a0.toRat).scale sA)).sub
        (b0.toRat.add ((b1.toRat.sub b0.toRat).scale sB))).dot (b1.toRat.sub b0.toRat) =
      (((b1.sub b0).dot (a0.sub b0) : ℤ) : ℚ) + sA * (((a1.sub a0).dot (b1.sub b0) : ℤ) : ℚ) -
        sB * (((b1.sub b0).dot (b1.sub b0) : ℤ) : ℚ) := by
  constructor <;>
  · simp only [zSpace.zVector.dot, zSpace.zVector.add, zSpace.zVector.sub, zSpace.zVector.scale,
      IntVector.toRat, IntVector.dot, IntVector.sub]
    push_cast
    ring

/-- The parameters of the closest points of the lines through `(0,0,0)`,
`(1,0,0)` and through `(0,1,1)`, `(1,2,1)`, evaluated: `uA = -1`, `uB = -1`. -/
theorem line_lineClosestPoints_skew :
    line_lineClosestPoints (zVector.ofInts 0 0 0) (zVector.ofInts 1 0 0) (zVector.ofInts 0 1 1)
      (zVector.ofInts 1 2 1) (Double.ofInt 0) (Double.ofInt 0) =
      (true, Double.fin (-1), Double.fin (-1)) := by
  decide!

end binary64

namespace Double

/-- The error of rounding, with explicit constants: the relative error
`2 ^ -53` plus `2 ^ -66`. -/
theorem roundVal_err66 (x : ℚ) :
    |roundVal x - x| ≤ 1 / 9007199254740992 * |x| + 1 / 73786976294838206464 := by
  have h := roundVal_abs x
  have e53 : (2 : ℚ) ^ (-53 : ℤ) = 1 / 9007199254740992 := by norm_num
  have e66 : (2 : ℚ) ^ (-66 : ℤ) = 1 / 73786976294838206464 := by norm_num
  have hle : (2 : ℚ) ^ (-1075 : ℤ) ≤ (2 : ℚ) ^ (-66 : ℤ) :=
    zpow_le_zpow_right₀ (by norm_num) (by norm_num)
  rw [e53] at h
  rw [e66] at hle
  linarith

/-- One coordinate of the point that `line_PlaneIntersection` returns: the
coordinate `d` of the direction is divided by the length `l`, multiplied by
the length and by the parameter, and added to the coordinate `p` of the first
point; the result is `p + d * t` up to `2 ^ -38`. -/
theorem coord_err (d p : ℤ) (l t : ℚ) (hd : |d| ≤ 2048) (hp : |p| ≤ 1024) (hl0 : 0 < l)
    (hl1 : |(d : ℚ)| ≤ 2 * l) (hl2 : l ≤ 8192) (ht0 : 0 ≤ t) (ht1 : t ≤ 1)
    {a L u b : Double} (ha : a.val = some (d : ℚ)) (hL : L.val = some l)
    (hu : u.val = some (roundVal t)) (hb : b.val = some (p : ℚ)) :
    ∃ r, ((((a.div L).mul L).mul u).add b).val = some r ∧
      |r - ((p : ℚ) + (d : ℚ) * t)| ≤ (2 : ℚ) ^ (-38 : ℤ) := by
  have hdq : |(d : ℚ)| ≤ 2048 := by
    have : ((|d| : ℤ) : ℚ) ≤ ((2048 : ℤ) : ℚ) := by exact_mod_cast hd
    push_cast at this
    exact this
  have hpq : |(p : ℚ)| ≤ 1024 := by
    have : ((|p| : ℤ) : ℚ) ≤ ((1024 : ℤ) : ℚ) := by exact_mod_cast hp
    push_cast at this
    exact this
  have big : ∀ x : ℚ, |x| ≤ 16384 → |x| < (2 : ℚ) ^ (1023 : ℤ) := by
    intro x hx
    refine lt_of_le_of_lt hx ?_
    calc (16384 : ℚ) = (2 : ℚ) ^ (14 : ℤ) := by norm_num
      _ < (2 : ℚ) ^ (1023 : ℤ) := zpow_lt_zpow_right₀ (by norm_num) (by norm_num)
  -- the quotient by the length
  have hq0 : |(d : ℚ) / l| ≤ 2 := by
    rw [abs_div, abs_of_pos hl0, div_le_iff₀ hl0]
    exact hl1
  have h1 := div_val ha hL hl0.ne' (big _ (le_trans hq0 (by norm_num)))
  have e1 := roundVal_err66 ((d : ℚ) / l)
  generalize roundVal ((d : ℚ) / l) = q1 at h1 e1
  -- multiplied by the length
  have hq1l : |q1 * l - (d : ℚ)| ≤ 1 / 9007199254740992 * 2048 + 1 / 9007199254740992 := by
    have : q1 * l - (d : ℚ) = (q1 - (d : ℚ) / l) * l := by
      field_simp
    rw [this, abs_mul, abs_of_pos hl0]
    have hdl : |(d : ℚ) / l| * l = |(d : ℚ)| := by
      rw [abs_div, abs_of_pos hl0]
      field_simp
    calc |q1 - (d : ℚ) / l| * l
        ≤ (1 / 9007199254740992 * |(d : ℚ) / l| + 1 / 73786976294838206464) * l :=
          mul_le_mul_of_nonneg_right e1 hl0.le
      _ = 1 / 9007199254740992 * (|(d : ℚ) / l| * l) + 1 / 73786976294838206464 * l := by ring
      _ ≤ 1 / 9007199254740992 * 2048 + 1 / 9007199254740992 := by
          rw [hdl]
          nlinarith
  have hq1l_abs : |q1 * l| ≤ 2049 := by
    have : |q1 * l| ≤ |q1 * l - (d : ℚ)| + |(d : ℚ)| := by
      have := abs_add (q1 * l - (d : ℚ)) (d : ℚ)
      simpa using this
    linarith
  have h2 := mul_val h1 hL (big _ (le_trans hq1l_abs (by norm_num)))
  have e2 := roundVal_err66 (q1 * l)
  generalize roundVal (q1 * l) = q2 at h2 e2
  have hq2 : |q2 - (d : ℚ)| ≤ 1 / 9007199254740992 * 4099 := by
    have : |q2 - (d : ℚ)| ≤ |q2 - q1 * l| + |q1 * l - (d : ℚ)| := by
      have := abs_add (q2 - q1 * l) (q1 * l - (d : ℚ))
      simpa using this
    have hmono : 1 / 9007199254740992 * |q1 * l| ≤ (1 : ℚ) / 9007199254740992 * 2049 :=
      mul_le_mul_of_nonneg_left hq1l_abs (by norm_num)
    linarith
  have hq2_abs : |q2| ≤ 2049 := by
    have : |q2| ≤ |q2 - (d : ℚ)| + |(d : ℚ)| := by
      have := abs_add (q2 - (d : ℚ)) (d : ℚ)
      simpa using this
    linarith
  -- multiplied by the parameter
  have hu0 := roundVal_nonneg t ht0
  have hu1 := roundVal_le_one t ht1
  have eu := roundVal_err66 t
  rw [abs_of_nonneg ht0] at eu
  generalize roundVal t = w at hu hu0 hu1 eu
  have hw_abs : |w| ≤ 1 := by
    rw [abs_of_nonneg hu0]
    exact hu1
  have hq2w_abs : |q2 * w| ≤ 2049 := by
    rw [abs_mul]
    calc |q2| * |w| ≤ 2049 * 1 := mul_le_mul hq2_abs hw_abs (abs_nonneg _) (by norm_num)
      _ = 2049 := by norm_num
  have hq2w : |q2 * w - (d : ℚ) * t| ≤ 1 / 9007199254740992 * 8196 := by
    have : q2 * w - (d : ℚ) * t = (q2 - (d : ℚ)) * w + (d : ℚ) * (w - t) := by ring
    rw [this]
    refine le_trans (abs_add _ _) ?_
    rw [abs_mul, abs_mul]
    have k1 : |q2 - (d : ℚ)| * |w| ≤ 1 / 9007199254740992 * 4099 * 1 :=
      mul_le_mul hq2 hw_abs (abs_nonneg _) (by norm_num)
    have hwt : |w - t| ≤ 1 / 9007199254740992 * 2 := by
      refine le_trans eu ?_
      nlinarith
    have k2 : |(d : ℚ)| * |w - t| ≤ 2048 * (1 / 9007199254740992 * 2) :=
      mul_le_mul hdq hwt (abs_nonneg _) (by norm_num)
    linarith
  have h3 := mul_val h2 hu (big _ (le_trans hq2w_abs (by norm_num)))
  have e3 := roundVal_err66 (q2 * w)
  generalize roundVal (q2 * w) = q3 at h3 e3
  have hq3 : |q3 - (d : ℚ) * t| ≤ 1 / 9007199254740992 * 10246 := by
    have : |q3 - (d : ℚ) * t| ≤ |q3 - q2 * w| + |q2 * w - (d : ℚ) * t| := by
      have := abs_add (q3 - q2 * w) (q2 * w - (d : ℚ) * t)
      simpa using this
    have hmono : 1 / 9007199254740992 * |q2 * w| ≤ (1 : ℚ) / 9007199254740992 * 2049 :=
      mul_le_mul_of_nonneg_left hq2w_abs (by norm_num)
    linarith
  have hdt_abs : |(d : ℚ) * t| ≤ 2048 := by
    rw [abs_mul, abs_of_nonneg ht0]
    calc |(d : ℚ)| * t ≤ 2048 * 1 := mul_le_mul hdq ht1 ht0 (by norm_num)
      _ = 2048 := by norm_num
  have hq3_abs : |q3| ≤ 2049 := by
    have : |q3| ≤ |q3 - (d : ℚ) * t| + |(d : ℚ) * t| := by
      have := abs_add (q3 - (d : ℚ) * t) ((d : ℚ) * t)
      simpa using this
    linarith
  -- added to the first point
  have hsum_abs : |q3 + (p : ℚ)| ≤ 3073 := by
    refine le_trans (abs_add _ _) ?_
    linarith
  obtain ⟨r, hr, er⟩ := add_val h3 hb (big _ (le_trans hsum_abs (by norm_num)))
  refine ⟨r, hr, ?_⟩
  have e53 : (2 : ℚ) ^ (-53 : ℤ) = 1 / 9007199254740992 := by norm_num
  have e38 : (2 : ℚ) ^ (-38 : ℤ) = 1 / 274877906944 := by norm_num
  have hle : (2 : ℚ) ^ (-1075 : ℤ) ≤ (2 : ℚ) ^ (-53 : ℤ) :=
    zpow_le_zpow_right₀ (by norm_num) (by norm_num)
  rw [e53] at er hle
  rw [e38]
  have : |r - ((p : ℚ) + (d : ℚ) * t)| ≤ |r - (q3 + (p : ℚ))| + |q3 - (d : ℚ) * t| := by
    have := abs_add (r - (q3 + (p : ℚ))) (q3 - (d : ℚ) * t)
    have e : r - (q3 + (p : ℚ)) + (q3 - (d : ℚ) * t) = r - ((p : ℚ) + (d : ℚ) * t) := by ring
    rw [e] at this
    exact this
  have hmono : 1 / 9007199254740992 * |q3 + (p : ℚ)| ≤ (1 : ℚ) / 9007199254740992 * 3073 :=
    mul_le_mul_of_nonneg_left hsum_abs (by norm_num)
  linarith

/-- The square root of an integer `N ≥ 1` of at most 53 bits is a positive
`double` `r`, the root of `N` up to the relative error `2 ^ -53`. -/
theorem sqrt_ofInt_val (N : ℤ) (h1 : 1 ≤ N) (h2 : N ≤ 2 ^ 53) :
    ∃ r : ℚ, (sqrt (ofInt N)).val = some r ∧ 0 < r ∧
      (r * (1 - 1 / 9007199254740992)) ^ 2 ≤ (N : ℚ) ∧
      (N : ℚ) ≤ (r * (1 + 1 / 9007199254740992)) ^ 2 := by
  have hN0 : N ≠ 0 := by omega
  have hNq : (0 : ℚ) < (N : ℚ) := by exact_mod_cast (by omega : 0 < N)
  obtain ⟨n, n1, n2, hsq, b1, b2⟩ := sqrt_fin (N : ℚ) hNq
  generalize ilog2 (N : ℚ) / 2 = e at hsq b1 b2
  have hnq : (2 : ℚ) ^ (52 : ℤ) ≤ (n : ℚ) := by
    have h52 : ((2 ^ 52 : ℕ) : ℚ) = (2 : ℚ) ^ (52 : ℤ) := by norm_num
    rw [← h52]
    exact_mod_cast n1
  have hn0 : (0 : ℚ) < (n : ℚ) := lt_of_lt_of_le (by positivity) hnq
  have htpos : (0 : ℚ) < (2 : ℚ) ^ (e - 52) := by positivity
  have hnn : (1 : ℚ) / 2 ≤ (n : ℚ) * (1 / 9007199254740992) := by
    have : (2 : ℚ) ^ (52 : ℤ) = 4503599627370496 := by norm_num
    rw [this] at hnq
    linarith
  have hnn1 : (n : ℚ) * (1 / 9007199254740992) ≤ (n : ℚ) := by linarith
  refine ⟨(n : ℚ) * (2 : ℚ) ^ (e - 52), ?_, by positivity, ?_, ?_⟩
  · rw [ofInt_eq_fin N hN0 (by rw [abs_of_pos (by omega)]; exact h2), hsq]
    rfl
  · refine le_trans ?_ b1
    have hle : (n : ℚ) * (2 : ℚ) ^ (e - 52) * (1 - 1 / 9007199254740992) ≤
        ((n : ℚ) - 1 / 2) * (2 : ℚ) ^ (e - 52) := by
      have : (n : ℚ) * (2 : ℚ) ^ (e - 52) * (1 - 1 / 9007199254740992) =
          ((n : ℚ) - (n : ℚ) * (1 / 9007199254740992)) * (2 : ℚ) ^ (e - 52) := by ring
      rw [this]
      apply mul_le_mul_of_nonneg_right _ htpos.le
      linarith
    have hnonneg : 0 ≤ (n : ℚ) * (2 : ℚ) ^ (e - 52) * (1 - 1 / 9007199254740992) := by
      apply mul_nonneg (by positivity)
      norm_num
    exact pow_le_pow_left₀ hnonneg hle 2
  · refine le_trans b2 ?_
    have hle : ((n : ℚ) + 1 / 2) * (2 : ℚ) ^ (e - 52) ≤
        (n : ℚ) * (2 : ℚ) ^ (e - 52) * (1 + 1 / 9007199254740992) := by
      have : (n : ℚ) * (2 : ℚ) ^ (e - 52) * (1 + 1 / 9007199254740992) =
          ((n : ℚ) + (n : ℚ) * (1 / 9007199254740992)) * (2 : ℚ) ^ (e - 52) := by ring
      rw [this]
      apply mul_le_mul_of_nonneg_right _ htpos.le
      linarith
    exact pow_le_pow_left₀ (by positivity) hle 2

end Double

namespace binary64

open Double

/-- When `line_PlaneIntersection` returns `true`, the point it returns is the
normalised direction, scaled by the length and by the parameter, and moved by
`p1`. -/
theorem line_PlaneIntersection_true (p1 p2 planeNorm p3 intersectionPt : zVector)
    (h : (line_PlaneIntersection p1 p2 planeNorm p3 intersectionPt).1 = true) :
    (line_PlaneIntersection p1 p2 planeNorm p3 intersectionPt).2 =
      (((p2.sub p1).normalize.scale (p2.sub p1).length).scale
        ((planeNorm.dot (p3.sub p1)).div (planeNorm.dot (p2.sub p1)))).add p1 := by
  unfold line_PlaneIntersection at h ⊢
  simp only [] at h ⊢
  split_ifs at h ⊢
  simp_all

/-- The length of a non-zero direction between grid points is a positive
`double` between half of the magnitude of every coordinate and `8192`. -/
theorem length_bounds {c : zVector} {p : IntVector} (hc : IsIntVec c p 2048)
    (hp : p ≠ ⟨0, 0, 0⟩) :
    ∃ l : ℚ, c.length.val = some l ∧ 0 < l ∧ l ≤ 8192 ∧
      |(p.x : ℚ)| ≤ 2 * l ∧ |(p.y : ℚ)| ≤ 2 * l ∧ |(p.z : ℚ)| ≤ 2 * l := by
  have hN1 := dot_self_pos p hp
  have hNb := (hc.vdot hc (by norm_num)).2
  have hN2 : p.dot p ≤ 12582912 := le_trans (le_abs_self _) (le_trans hNb (by norm_num))
  obtain ⟨l, hl, l0, b1, b2⟩ := sqrt_ofInt_val (p.dot p) hN1 (le_trans hN2 (by norm_num))
  rw [← length_int hc (by norm_num)] at hl
  have hNq : ((p.dot p : ℤ) : ℚ) ≤ 12582912 := by exact_mod_cast hN2
  have hdot : ((p.dot p : ℤ) : ℚ) = (p.x : ℚ) ^ 2 + (p.y : ℚ) ^ 2 + (p.z : ℚ) ^ 2 := by
    unfold IntVector.dot
    push_cast
    ring
  have hup : 0 ≤ l * (1 + 1 / 9007199254740992) := by positivity
  have hcoord : ∀ x : ℚ, x ^ 2 ≤ ((p.dot p : ℤ) : ℚ) → |x| ≤ 2 * l := by
    intro x hx
    have h1 : |x| ≤ l * (1 + 1 / 9007199254740992) := abs_le_of_sq_le_sq (le_trans hx b2) hup
    linarith
  refine ⟨l, hl, l0, ?_, hcoord _ ?_, hcoord _ ?_, hcoord _ ?_⟩
  · have hlow : 0 ≤ l * (1 - 1 / 9007199254740992) := by
      apply mul_nonneg l0.le
      norm_num
    have h4096 : (l * (1 - 1 / 9007199254740992)) ^ 2 ≤ (4096 : ℚ) ^ 2 := by
      refine le_trans b1 (le_trans hNq ?_)
      norm_num
    have := abs_le_of_sq_le_sq h4096 (by norm_num)
    rw [abs_of_nonneg hlow] at this
    linarith
  · rw [hdot]
    nlinarith [sq_nonneg (p.y : ℚ), sq_nonneg (p.z : ℚ)]
  · rw [hdot]
    nlinarith [sq_nonneg (p.x : ℚ), sq_nonneg (p.z : ℚ)]
  · rw [hdot]
    nlinarith [sq_nonneg (p.x : ℚ), sq_nonneg (p.y : ℚ)]

end binary64

/-! ## Claims on the matrix utilities -/

theorem zMatrix.is4x4_iff (m : zSpace.zMatrix) : m.Is4x4 ↔ ∃ M, m = zMatrix.of4 M := by
  constructor
  · rintro ⟨h1, h2⟩
    obtain ⟨r, c, M⟩ := m
    simp only at h1 h2
    subst h1; subst h2
    exact ⟨M, rfl⟩
  · rintro ⟨M, rfl⟩
    exact ⟨rfl, rfl⟩

theorem zMatrix.mul_of4 (A B : Matrix (Fin 4) (Fin 4) ℚ) :
    (zMatrix.of4 A).mul (zMatrix.of4 B) = .ok (zMatrix.of4 (A * B)) := by
  simp only [zMatrix.mul, zMatrix.of4, dite_true]
  congr 2

/-- The matrix that `toWorldMatrix` returns on a 4x4 matrix. -/
theorem toWorldMatrix_of4 (M : Matrix (Fin 4) (Fin 4) ℚ) :
    toWorldMatrix (zMatrix.of4 M) = .ok (zMatrix.of4 (worldOf M)) := by
  simp only [worldOf, toWorldMatrix, zMatrix.getNumCols, zMatrix.getNumRows, zMatrix.of4, ne_eq,
    not_true_eq_false, if_false, zMatrix.set, zMatrix.setIdentity, zMatrix.zMatrix]
  congr 2
  funext i j
  fin_cases i <;> fin_cases j <;> simp [zMatrix.get]

/-- The matrix that `toLocalMatrix` returns on a 4x4 matrix. -/
theorem toLocalMatrix_of4 (M : Matrix (Fin 4) (Fin 4) ℚ) :
    toLocalMatrix (zMatrix.of4 M) = .ok (zMatrix.of4 (localOf M)) := by
  simp only [localOf, toLocalMatrix, zMatrix.getNumCols, zMatrix.getNumRows, zMatrix.of4, ne_eq,
    not_true_eq_false, if_false, zMatrix.set, zMatrix.setIdentity, zMatrix.zMatrix]
  congr 2
  funext i j
  fin_cases i <;> fin_cases j <;> simp [zMatrix.get, zVector.dot, zVector.sub]

theorem zMatrix.of4_injective {A B : Matrix (Fin 4) (Fin 4) ℚ}
    (h : zMatrix.of4 A = zMatrix.of4 B) : A = B := by
  simp only [zMatrix.of4, zMatrix.mk.injEq, heq_eq_eq, true_and] at h
  exact h

theorem toWorldMatrix_not4x4 (m : zMatrix) (h : ¬ m.Is4x4) :
    ∃ what, toWorldMatrix m = .error (.invalid_argument what) := by
  by_cases h1 : m.cols = m.rows
  · have h2 : m.cols ≠ 4 := fun h4 => h ⟨h1 ▸ h4, h4⟩
    exact ⟨_, by simp [toWorldMatrix, zMatrix.getNumCols, zMatrix.getNumRows, h1, h1 ▸ h2]; rfl⟩
  · exact ⟨_, by simp [toWorldMatrix, zMatrix.getNumCols, zMatrix.getNumRows, h1]; rfl⟩

theorem toLocalMatrix_not4x4 (m : zMatrix) (h : ¬ m.Is4x4) :
    ∃ what, toLocalMatrix m = .error (.invalid_argument what) := by
  by_cases h1 : m.cols = m.rows
  · have h2 : m.cols ≠ 4 := fun h4 => h ⟨h1 ▸ h4, h4⟩
    exact ⟨_, by simp [toLocalMatrix, zMatrix.getNumCols, zMatrix.getNumRows, h1, h1 ▸ h2]; rfl⟩
  · exact ⟨_, by simp [toLocalMatrix, zMatrix.getNumCols, zMatrix.getNumRows, h1]; rfl⟩

/-- C17: `toWorldMatrix` and `toLocalMatrix` raise `invalid_argument` exactly
when the input matrix is not 4x4, and return a 4x4 matrix exactly when it is. -/
theorem toWorldMatrix_toLocalMatrix_raise (inMatrix : zMatrix) :
    ((∃ what, toWorldMatrix inMatrix = .error (.invalid_argument what)) ↔ ¬ inMatrix.Is4x4) ∧
    ((∃ out, toWorldMatrix inMatrix = .ok out ∧ out.Is4x4) ↔ inMatrix.Is4x4) ∧
    ((∃ what, toLocalMatrix inMatrix = .error (.invalid_argument what)) ↔ ¬ inMatrix.Is4x4) ∧
    ((∃ out, toLocalMatrix inMatrix = .ok out ∧ out.Is4x4) ↔ inMatrix.Is4x4) := by
  by_cases h : inMatrix.Is4x4
  · obtain ⟨M, rfl⟩ := (zMatrix.is4x4_iff _).1 h
    refine ⟨?_, ?_, ?_, ?_⟩
    · simp [toWorldMatrix_of4, h]
    · simp only [toWorldMatrix_of4, h, iff_true]
      exact ⟨_, rfl, rfl, rfl⟩
    · simp [toLocalMatrix_of4, h]
    · simp only [toLocalMatrix_of4, h, iff_true]
      exact ⟨_, rfl, rfl, rfl⟩
  · obtain ⟨w1, hw1⟩ := toWorldMatrix_not4x4 inMatrix h
    obtain ⟨w2, hw2⟩ := toLocalMatrix_not4x4 inMatrix h
    refine ⟨?_, ?_, ?_, ?_⟩
    · simp only [h, not_false_eq_true, iff_true]
      exact ⟨w1, hw1⟩
    · simp [hw1, h]
    · simp only [h, not_false_eq_true, iff_true]
      exact ⟨w2, hw2⟩
    · simp [hw2, h]

/-- On a frame with orthonormal axis columns, `toLocalMatrix` builds the inverse
of what `toWorldMatrix` builds. -/
theorem localOf_mul_worldOf (F : Matrix (Fin 4) (Fin 4) ℚ)
    (hF : (zMatrix.of4 F).AxesOrthonormal) : localOf F * worldOf F = 1 := by
  simp only [zMatrix.AxesOrthonormal, zMatrix.get, zMatrix.of4, zVector.dot] at hF
  norm_num at hF
  obtain ⟨hxx, hyy, hzz, hxy, hxz, hyz⟩ := hF
  have exx : F 0 0 * F 0 0 + F 1 0 * F 1 0 + F 2 0 * F 2 0 = 1 := hxx
  have eyy : F 0 1 * F 0 1 + F 1 1 * F 1 1 + F 2 1 * F 2 1 = 1 := hyy
  have ezz : F 0 2 * F 0 2 + F 1 2 * F 1 2 + F 2 2 * F 2 2 = 1 := hzz
  have exy : F 0 0 * F 0 1 + F 1 0 * F 1 1 + F 2 0 * F 2 1 = 0 := hxy
  have exz : F 0 0 * F 0 2 + F 1 0 * F 1 2 + F 2 0 * F 2 2 = 0 := hxz
  have eyz : F 0 1 * F 0 2 + F 1 1 * F 1 2 + F 2 1 * F 2 2 = 0 := hyz
  clear hxx hyy hzz hxy hxz hyz
  ext i j
  fin_cases i <;> fin_cases j <;>
    simp [localOf, worldOf, Matrix.mul_apply, Fin.sum_univ_four] <;> linarith

/-- What `PlanetoPlane` was written for: when the name `inMatrix` of its guards
refers to a 4x4 matrix, then for all 4x4 frames `from` and `to`, the axis
columns of `from` being orthonormal, the result times `toWorldMatrix(from)` is
`toWorldMatrix(to)`. -/
theorem PlanetoPlane_frames (inMatrix : zMatrix) (hin : inMatrix.Is4x4)
    (F T : Matrix (Fin 4) (Fin 4) ℚ) (hF : (zMatrix.of4 F).AxesOrthonormal) :
    PlanetoPlane inMatrix (zMatrix.of4 F) (zMatrix.of4 T) =
      .ok (zMatrix.of4 (worldOf T * localOf F)) ∧
    toWorldMatrix (zMatrix.of4 F) = .ok (zMatrix.of4 (worldOf F)) ∧
    (zMatrix.of4 (worldOf T * localOf F)).mul (zMatrix.of4 (worldOf F)) =
      .ok (zMatrix.of4 (worldOf T)) ∧
    toWorldMatrix (zMatrix.of4 T) = .ok (zMatrix.of4 (worldOf T)) := by
  obtain ⟨h1, h2⟩ := hin
  have hsq : inMatrix.cols = inMatrix.rows := h2.trans h1.symm
  refine ⟨?_, toWorldMatrix_of4 F, ?_, toWorldMatrix_of4 T⟩
  · simp only [PlanetoPlane, zMatrix.getNumCols, zMatrix.getNumRows, hsq, h1, ne_eq,
      not_true_eq_false, if_false, toWorldMatrix_of4, toLocalMatrix_of4, zMatrix.mul_of4]
  · rw [zMatrix.mul_of4, Matrix.mul_assoc, localOf_mul_worldOf F hF, Matrix.mul_one]

/-- C18, which the code breaks: the guards of `PlanetoPlane` test `inMatrix`,
not `from` or `to`.  Whenever that name does not refer to a 4x4 matrix the
function raises `invalid_argument` for all arguments, so it does for
`from = to =` the 4x4 identity, a frame with orthonormal axis columns, for
which the claim asks for a matrix. -/
theorem PlanetoPlane_guard_inMatrix :
    (∀ inMatrix fromM toM : zMatrix, ¬ inMatrix.Is4x4 →
      ∃ what, PlanetoPlane inMatrix fromM toM = .error (.invalid_argument what)) ∧
    (zMatrix.of4 1).AxesOrthonormal ∧
    PlanetoPlane identity3 (zMatrix.of4 1) (zMatrix.of4 1) =
      .error (.invalid_argument "input Matrix is not a 4X4 matrix.") := by
  refine ⟨?_, ?_, ?_⟩
  · intro m fromM toM h
    by_cases h1 : m.cols = m.rows
    · have h2 : m.cols ≠ 4 := fun h4 => h ⟨h1 ▸ h4, h4⟩
      exact ⟨_, by simp [PlanetoPlane, zMatrix.getNumCols, zMatrix.getNumRows, h1, h1 ▸ h2]; rfl⟩
    · exact ⟨_, by simp [PlanetoPlane, zMatrix.getNumCols, zMatrix.getNumRows, h1]; rfl⟩
  · simp [zMatrix.AxesOrthonormal, zMatrix.get, zMatrix.of4, zVector.dot]
  · simp [PlanetoPlane, zMatrix.getNumCols, zMatrix.getNumRows, identity3]

/-! ## Claims on the element store -/

namespace zObjMesh

open zMesh

/-! ### The representation invariant on the meshes the operators build -/

theorem map_ids_of_pointwise {α : Type} (g : α → Int) (l : List α)
    (h : ∀ (i : Nat) (x : α), l[i]? = some x → g x = i) :
    l.map g = (List.range l.length).map Int.ofNat := by
  apply List.ext_getElem?
  intro i
  by_cases hi : i < l.length
  · have hx : l[i]? = some l[i] := List.getElem?_eq_getElem hi
    simp [hx, h i _ hx, List.getElem?_range hi, hi]
  · have hn : l[i]? = none := List.getElem?_eq_none (Nat.le_of_not_lt hi)
    have hr : (List.range l.length)[i]? = none :=
      List.getElem?_eq_none (by simpa using Nat.le_of_not_lt hi)
    simp [hn, hr]

theorem mem_getElem? {α : Type} {l : List α} {x : α} (hx : x ∈ l) :
    ∃ i : Nat, l[i]? = some x := by
  obtain ⟨i, hi, rfl⟩ := List.mem_iff_getElem.1 hx
  exact ⟨i, List.getElem?_eq_getElem hi⟩

/-- The record-by-record invariant of a mesh gives the representation
invariant of its mesh object, all elements active. -/
theorem wellFormed_ofMesh (m : zMesh) (h : MeshOK m) :
    WellFormed (ofMesh m) ∧ AllActive (ofMesh m) := by
  refine ⟨⟨by simp [ofMesh], by simp [ofMesh], by simp [ofMesh], by simp [ofMesh], ?_, ?_, ?_,
    ?_, ?_, ?_, h.edges, h.lookup⟩, ?_⟩
  · exact map_ids_of_pointwise _ _ (fun i vp hvp => (h.vertices i vp hvp).1)
  · exact map_ids_of_pointwise _ _ (fun i e he => (h.halfEdges i e he).1)
  · exact map_ids_of_pointwise _ _ (fun i f hf => (h.faces i f hf).1)
  · intro vp hvp
    obtain ⟨i, hi⟩ := mem_getElem? hvp
    exact (h.vertices i vp hi).2
  · intro e he
    obtain ⟨i, hi⟩ := mem_getElem? he
    exact (h.halfEdges i e hi).2
  · intro f hf
    obtain ⟨i, hi⟩ := mem_getElem? hf
    exact (h.faces i f hi).2
  · simp [AllActive, ofMesh]

theorem inRange_mono {p : Ptr} {n n1 : Nat} (h : InRange p n) (hn : n ≤ n1) : InRange p n1 :=
  fun i hi => Nat.lt_of_lt_of_le (h i hi) hn

theorem inRange_none (n : Nat) : InRange none n := by
  intro i hi
  simp at hi

theorem inRange_some {i n : Nat} (h : i < n) : InRange (some i) n := by
  intro j hj
  simp at hj
  omega

theorem recordOK_mono {e : zEdge} {i nV n nF nV1 n1 nF1 : Nat} (h : RecordOK e i nV n nF)
    (hV : nV ≤ nV1) (hn : n ≤ n1) (hF : nF ≤ nF1) : RecordOK e i nV1 n1 nF1 :=
  ⟨h.1, inRange_mono h.2.1 hV, inRange_mono h.2.2.1 hn, inRange_mono h.2.2.2.1 hn,
    inRange_mono h.2.2.2.2.1 hn, inRange_mono h.2.2.2.2.2 hF⟩

theorem storeOK_mono {s : EdgeStore} {nV nF nV1 nF1 : Nat} (h : StoreOK s nV nF)
    (hV : nV ≤ nV1) (hF : nF ≤ nF1) : StoreOK s nV1 nF1 :=
  fun i e he => recordOK_mono (h i e he) hV (Nat.le_refl _) hF

theorem write_some_lt {s s1 : EdgeStore} {i : Nat} {g : zEdge → zEdge}
    (h : s.write (some i) g = some s1) : i < s.length := by
  by_contra hc
  simp [EdgeStore.write, hc] at h

/-- A store through a pointer keeps the store in order when the update keeps
every record in order. -/
theorem write_storeOK {s s1 : EdgeStore} {p : Ptr} {g : zEdge → zEdge} {nV nF : Nat}
    (h : s.write p g = some s1) (hs : StoreOK s nV nF)
    (hg : ∀ (e : zEdge) (i : Nat), RecordOK e i nV s.length nF →
      RecordOK (g e) i nV s.length nF) :
    StoreOK s1 nV nF := by
  cases p with
  | none => simp [EdgeStore.write] at h
  | some k =>
    have hk := write_some_lt h
    obtain ⟨s2, h2, hl2, hr2⟩ := write_records s k g hk
    rw [h2] at h
    cases h
    intro i e he
    rw [hl2]
    rw [hr2 i] at he
    by_cases hik : i = k
    · subst hik
      cases hx : s[i]? with
      | none => simp [hx] at he
      | some e0 =>
        simp [hx] at he
        subst he
        exact hg e0 i (hs i e0 hx)
    · simp [hik] at he
      exact hs i e he

theorem setFace_storeOK {s s1 : EdgeStore} {h : Nat} {p : Ptr} {nV nF : Nat}
    (hset : setFace s (some h) p = some s1) (hs : StoreOK s nV nF) (hp : InRange p nF) :
    StoreOK s1 nV nF ∧ s1.length = s.length :=
  ⟨write_storeOK hset hs (fun _ _ hr => ⟨hr.1, hr.2.1, hr.2.2.1, hr.2.2.2.1, hr.2.2.2.2.1, hp⟩),
    EdgeStore.write_length hset⟩

theorem setNext_storeOK {s s1 : EdgeStore} {a b : Nat} {nV nF : Nat}
    (hset : setNext s (some a) (some b) = some s1) (hs : StoreOK s nV nF) :
    StoreOK s1 nV nF ∧ s1.length = s.length := by
  cases h0 : s.write (some a) (fun e => { e with next := some b }) with
  | none => simp [setNext, h0] at hset
  | some s0 =>
    have h1 : s0.write (some b) (fun e => { e with prev := some a }) = some s1 := by
      simpa [setNext, h0] using hset
    have hl0 := EdgeStore.write_length h0
    have hl1 := EdgeStore.write_length h1
    have ha : a < s.length := write_some_lt h0
    have hb : b < s.length := hl0 ▸ write_some_lt h1
    have hs0 : StoreOK s0 nV nF :=
      write_storeOK h0 hs (fun _ _ hr =>
        ⟨hr.1, hr.2.1, hr.2.2.1, inRange_some hb, hr.2.2.2.2.1, hr.2.2.2.2.2⟩)
    refine ⟨write_storeOK h1 hs0 (fun _ _ hr =>
      ⟨hr.1, hr.2.1, hr.2.2.1, hr.2.2.2.1, inRange_some (hl0 ▸ ha), hr.2.2.2.2.2⟩), by omega⟩

theorem claimFaces_storeOK (F : Nat) (hs : List Nat) (s s1 : EdgeStore) {nV nF : Nat}
    (h : claimFaces s F hs = some s1) (hok : StoreOK s nV nF) (hF : F < nF) :
    StoreOK s1 nV nF ∧ s1.length = s.length := by
  induction hs generalizing s with
  | nil =>
    simp [claimFaces] at h
    subst h
    exact ⟨hok, rfl⟩
  | cons a hs ih =>
    cases he : s.read (some a) with
    | none => simp [claimFaces, he] at h
    | some e =>
      by_cases hf : e.f = none
      · cases h0 : setFace s (some a) (some F) with
        | none => simp [claimFaces, he, hf, h0] at h
        | some s0 =>
          have h1 : claimFaces s0 F hs = some s1 := by
            simpa [claimFaces, he, hf, h0] using h
          obtain ⟨hok0, hl0⟩ := setFace_storeOK h0 hok (inRange_some hF)
          obtain ⟨hok1, hl1⟩ := ih s0 h1 hok0
          exact ⟨hok1, by omega⟩
      · simp [claimFaces, he, hf] at h

theorem linkLoop_storeOK (pairs : List (Nat × Nat)) (s s1 : EdgeStore) {nV nF : Nat}
    (h : linkLoop s pairs = some s1) (hok : StoreOK s nV nF) :
    StoreOK s1 nV nF ∧ s1.length = s.length := by
  induction pairs generalizing s with
  | nil =>
    simp [linkLoop] at h
    subst h
    exact ⟨hok, rfl⟩
  | cons pr rest ih =>
    obtain ⟨a, b⟩ := pr
    cases h0 : setNext s (some a) (some b) with
    | none => simp [linkLoop, h0] at h
    | some s0 =>
      have h1 : linkLoop s0 rest = some s1 := by simpa [linkLoop, h0] using h
      obtain ⟨hok0, hl0⟩ := setNext_storeOK h0 hok
      obtain ⟨hok1, hl1⟩ := ih s0 h1 hok0
      exact ⟨hok1, by omega⟩

theorem lookup_mem {l : List ((Nat × Nat) × Nat)} {k : Nat × Nat} {h : Nat}
    (hl : l.lookup k = some h) : (k, h) ∈ l := by
  induction l with
  | nil => simp at hl
  | cons kh rest ih =>
    obtain ⟨k1, h1⟩ := kh
    by_cases hk : k = k1
    · subst hk
      simp at hl
      subst hl
      simp
    · have hb : (k == k1) = false := by simpa using hk
      rw [List.lookup_cons, hb] at hl
      exact List.mem_cons_of_mem _ (ih hl)

theorem meshOK_empty : MeshOK empty := by
  constructor <;> simp [empty, StoreOK]

theorem meshOK_addVertex (m : zMesh) (p : zVector) (cd : Bool) (h : MeshOK m) :
    MeshOK (m.addVertex p cd).1 := by
  unfold addVertex
  split
  · exact h
  · constructor
    · intro i vp hvp
      simp only [numHalfEdges] at hvp ⊢
      by_cases hi : i < m.vertices.length
      · rw [List.getElem?_append_left hi] at hvp
        exact h.vertices i vp hvp
      · rw [List.getElem?_append_right (Nat.le_of_not_lt hi)] at hvp
        have h0 : i - m.vertices.length = 0 := by
          by_contra hc
          obtain ⟨k, hk⟩ : ∃ k, i - m.vertices.length = k + 1 :=
            ⟨i - m.vertices.length - 1, by omega⟩
          rw [hk] at hvp
          simp at hvp
        rw [h0] at hvp
        simp at hvp
        subst hvp
        refine ⟨?_, inRange_none _⟩
        simp only [numVertices]
        congr 1
        omega
    · exact storeOK_mono h.halfEdges (by simp [numVertices]) (Nat.le_refl _)
    · exact h.faces
    · exact h.edges
    · intro kh hkh
      obtain ⟨h1, h2, h3⟩ := h.lookup kh hkh
      simp only [numVertices, List.length_append] at h1 h2 ⊢
      exact ⟨by omega, by omega, h3⟩

theorem meshOK_withNewEdge (m : zMesh) (a b : Nat) (ha : a < m.numVertices)
    (hb : b < m.numVertices) (h : MeshOK m) : MeshOK (m.withNewEdge a b) := by
  have hlen : (m.withNewEdge a b).halfEdges.length = m.halfEdges.length + 2 := by
    simp [withNewEdge]
  constructor
  · intro i vp hvp
    obtain ⟨h1, h2⟩ := h.vertices i vp hvp
    exact ⟨h1, inRange_mono h2 (by simp [numHalfEdges, hlen])⟩
  · intro i e he
    rw [hlen]
    by_cases hi : i < m.halfEdges.length
    · have he0 : m.halfEdges[i]? = some e := by
        simp only [withNewEdge] at he
        rwa [List.getElem?_append_left hi] at he
      exact recordOK_mono (h.halfEdges i e he0) (Nat.le_refl _) (by omega) (Nat.le_refl _)
    · simp only [withNewEdge] at he
      rw [List.getElem?_append_right (Nat.le_of_not_lt hi)] at he
      have hcase : i - m.halfEdges.length = 0 ∨ i - m.halfEdges.length = 1 := by
        by_contra hc
        obtain ⟨k, hk⟩ : ∃ k, i - m.halfEdges.length = k + 2 :=
          ⟨i - m.halfEdges.length - 2, by omega⟩
        rw [hk] at he
        simp at he
      rcases hcase with h0 | h1
      · rw [h0] at he
        simp at he
        subst he
        refine ⟨?_, inRange_some hb, inRange_some (by simp [numHalfEdges]), inRange_none _,
          inRange_none _, inRange_none _⟩
        simp only [numHalfEdges]
        congr 1
        omega
      · rw [h1] at he
        simp at he
        subst he
        refine ⟨?_, inRange_some ha, inRange_some (by simp [numHalfEdges]), inRange_none _,
          inRange_none _, inRange_none _⟩
        simp only [numHalfEdges]
        omega
  · intro i f hf
    obtain ⟨h1, h2⟩ := h.faces i f hf
    exact ⟨h1, inRange_mono h2 (by simp [numHalfEdges, hlen])⟩
  · intro pr hpr
    simp only [withNewEdge, List.mem_append, List.mem_singleton] at hpr
    simp only [numHalfEdges, hlen]
    rcases hpr with hpr | rfl
    · have := h.edges pr hpr
      simp only [numHalfEdges] at this
      omega
    · simp [numHalfEdges]
  · intro kh hkh
    simp only [withNewEdge, List.mem_cons] at hkh
    simp only [numHalfEdges, hlen]
    rcases hkh with rfl | hkh
    · simp only [pairKey]
      refine ⟨?_, ?_, by simp [numHalfEdges]⟩
      · exact Nat.lt_of_le_of_lt (Nat.min_le_left _ _) ha
      · exact Nat.max_lt.2 ⟨ha, hb⟩
    · obtain ⟨h1, h2, h3⟩ := h.lookup kh hkh
      simp only [numHalfEdges] at h3
      exact ⟨h1, h2, by omega⟩

/-- A successful `addEdges` keeps the record-by-record invariant, and the
half-edge it outputs is in the store. -/
theorem meshOK_addEdges {m m1 : zMesh} {v1 v2 : Nat} {cd fl : Bool} {he : Nat}
    (hadd : m.addEdges v1 v2 cd = some (m1, fl, he)) (h : MeshOK m) :
    MeshOK m1 ∧ he < m1.numHalfEdges ∧ m.numHalfEdges ≤ m1.numHalfEdges ∧
      m1.vertices = m.vertices ∧ m1.faces = m.faces := by
  obtain ⟨h1, h2⟩ := addEdges_some_lt hadd
  rcases addEdges_cases m v1 v2 cd h1 h2 with ⟨he0, _, hl, hres⟩ | ⟨_, hres⟩
  · rw [hres] at hadd
    simp only [Option.some.injEq, Prod.mk.injEq] at hadd
    obtain ⟨rfl, -, rfl⟩ := hadd
    exact ⟨h, (h.lookup _ (lookup_mem hl)).2.2, Nat.le_refl _, rfl, rfl⟩
  · rw [hres] at hadd
    simp only [Option.some.injEq, Prod.mk.injEq] at hadd
    obtain ⟨rfl, -, rfl⟩ := hadd
    exact ⟨meshOK_withNewEdge m v1 v2 h1 h2 h, by simp [withNewEdge, numHalfEdges],
      by simp [withNewEdge, numHalfEdges], rfl, rfl⟩

theorem sideHalfEdge_lt {s : EdgeStore} {he v2 h nV nF : Nat} (hok : StoreOK s nV nF)
    (hs : sideHalfEdge s he v2 = some h) : h < s.length := by
  unfold sideHalfEdge at hs
  cases hr : s[he]? with
  | none => simp [EdgeStore.read, hr] at hs
  | some e =>
    simp only [EdgeStore.read, hr, Option.bind_eq_bind, Option.some_bind] at hs
    split at hs
    · cases hs
      exact getElem?_lt_length hr
    · exact (hok he e hr).2.2.1 h hs

/-- A successful `ensureEdges` keeps the record-by-record invariant, and the
half-edges it outputs are in the store. -/
theorem meshOK_ensureEdges (sides : List (Nat × Nat)) (m m1 : zMesh) (hs : List Nat)
    (h : ensureEdges m sides = some (m1, hs)) (hok : MeshOK m) :
    MeshOK m1 ∧ (∀ x ∈ hs, x < m1.numHalfEdges) ∧ m.numHalfEdges ≤ m1.numHalfEdges ∧
      m1.vertices = m.vertices ∧ m1.faces = m.faces := by
  induction sides generalizing m hs with
  | nil =>
    simp [ensureEdges] at h
    obtain ⟨rfl, rfl⟩ := h
    exact ⟨hok, by simp, Nat.le_refl _, rfl, rfl⟩
  | cons sd rest ih =>
    obtain ⟨a, b⟩ := sd
    cases hadd : m.addEdges a b true with
    | none => simp [ensureEdges, hadd] at h
    | some r =>
      obtain ⟨ma, fl, he⟩ := r
      obtain ⟨hoka, hhe, hle, hva, hfa⟩ := meshOK_addEdges hadd hok
      cases hside : sideHalfEdge ma.halfEdges he b with
      | none => simp [ensureEdges, hadd, hside] at h
      | some x =>
        cases hrec : ensureEdges ma rest with
        | none => simp [ensureEdges, hadd, hside, hrec] at h
        | some r2 =>
          obtain ⟨m2, hs2⟩ := r2
          simp [ensureEdges, hadd, hside, hrec] at h
          obtain ⟨rfl, rfl⟩ := h
          obtain ⟨hok2, hin2, hle2, hv2, hf2⟩ := ih ma hs2 hrec hoka
          have hx := sideHalfEdge_lt hoka.halfEdges hside
          refine ⟨hok2, ?_, Nat.le_trans hle hle2, hv2.trans hva, hf2.trans hfa⟩
          intro y hy
          rcases List.mem_cons.1 hy with rfl | hy
          · exact Nat.lt_of_lt_of_le hx hle2
          · exact hin2 y hy

/-- A successful `addPolygon` keeps the record-by-record invariant. -/
theorem meshOK_addPolygon {m m1 : zMesh} {p : List Nat} {fl : Bool} {f : Nat}
    (h : m.addPolygon p = some (m1, fl, f)) (hok : MeshOK m) : MeshOK m1 := by
  unfold addPolygon at h
  by_cases hp : p.length < 3
  · simp [hp] at h
  · cases hens : ensureEdges m (polygonSides p) with
    | none => simp [hp, hens] at h
    | some r =>
      obtain ⟨m0, hs⟩ := r
      obtain ⟨hok0, hin, _, _, _⟩ := meshOK_ensureEdges _ m m0 hs hens hok
      cases hcl : claimFaces m0.halfEdges m0.numPolygons hs with
      | none => simp [hp, hens, hcl] at h
      | some s1 =>
        cases hlk : linkLoop s1 (polygonSides hs) with
        | none => simp [hp, hens, hcl, hlk] at h
        | some s2 =>
          simp [hp, hens, hcl, hlk] at h
          obtain ⟨rfl, -, -⟩ := h
          obtain ⟨hok1, hl1⟩ := claimFaces_storeOK m0.numPolygons hs m0.halfEdges s1 hcl
            (storeOK_mono hok0.halfEdges (Nat.le_refl _) (Nat.le_succ _)) (Nat.lt_succ_self _)
          obtain ⟨hok2, hl2⟩ := linkLoop_storeOK _ s1 s2 hlk hok1
          have hlen : s2.length = m0.halfEdges.length := by omega
          constructor
          · intro i vp hvp
            simp only [numHalfEdges, hlen]
            exact hok0.vertices i vp hvp
          · simpa [numPolygons, numVertices] using hok2
          · intro i f hf
            simp only [numHalfEdges, hlen]
            simp only at hf
            by_cases hi : i < m0.faces.length
            · rw [List.getElem?_append_left hi] at hf
              exact hok0.faces i f hf
            · rw [List.getElem?_append_right (Nat.le_of_not_lt hi)] at hf
              have h0 : i - m0.faces.length = 0 := by
                by_contra hc
                obtain ⟨k, hk⟩ : ∃ k, i - m0.faces.length = k + 1 :=
                  ⟨i - m0.faces.length - 1, by omega⟩
                rw [hk] at hf
                simp at hf
              rw [h0] at hf
              simp at hf
              subst hf
              refine ⟨?_, ?_⟩
              · simp only [numPolygons]
                congr 1
                omega
              · intro x hx
                exact hin x (List.mem_of_mem_head? hx)
          · intro pr hpr
            simp only [numHalfEdges, hlen]
            exact hok0.edges pr hpr
          · intro kh hkh
            simp only [numHalfEdges, hlen]
            exact hok0.lookup kh hkh

theorem meshOK_addVertices (ps : List zVector) (m : zMesh) (cd : Bool) (hok : MeshOK m) :
    MeshOK (addVertices m cd ps).1 := by
  induction ps generalizing m with
  | nil => exact hok
  | cons p ps ih => exact ih _ (meshOK_addVertex m p cd hok)

theorem meshOK_addPolygons (polys : List (List Nat)) (m m1 : zMesh)
    (h : addPolygons m polys = some m1) (hok : MeshOK m) : MeshOK m1 := by
  induction polys generalizing m with
  | nil =>
    simp [addPolygons] at h
    subst h
    exact hok
  | cons p polys ih =>
    cases hadd : m.addPolygon p with
    | none => simp [addPolygons, hadd] at h
    | some r =>
      obtain ⟨ma, fl, f⟩ := r
      simp [addPolygons, hadd] at h
      exact ih ma h (meshOK_addPolygon hadd hok)

/-- Every mesh that `create` returns satisfies the representation invariant,
with all its elements active. -/
theorem wellFormed_create (positions : List zVector) (polyCounts polyConnects : List Nat)
    (m : zMesh) (h : create positions polyCounts polyConnects = some m) :
    WellFormed (ofMesh m) ∧ AllActive (ofMesh m) := by
  apply wellFormed_ofMesh
  unfold create at h
  cases hsp : splitPolygons polyCounts polyConnects with
  | none => simp [hsp] at h
  | some polys =>
    simp [hsp] at h
    exact meshOK_addPolygons polys _ m h (meshOK_addVertices positions empty false meshOK_empty)

/-! ### Garbage collection -/

theorem compactFrom_allActive (flags : List Bool) (k : Nat) (hact : ∀ b ∈ flags, b = true) :
    compactFrom k flags = (List.range' k flags.length).map some := by
  induction flags generalizing k with
  | nil => rfl
  | cons b rest ih =>
    have hb : b = true := hact b (by simp)
    subst hb
    have := ih (k + 1) (fun b hb => hact b (by simp [hb]))
    simp [compactFrom, this, List.range'_succ]

theorem remapId_compact (flags : List Bool) (hact : ∀ b ∈ flags, b = true) (i : Nat)
    (hi : i < flags.length) : remapId (compact flags) i = some i := by
  simp [remapId, compact, compactFrom_allActive flags 0 hact, List.getD_eq_getElem?_getD, hi]

theorem remap_compact (flags : List Bool) (hact : ∀ b ∈ flags, b = true) (p : Ptr)
    (hp : InRange p flags.length) : remap (compact flags) p = p := by
  cases p with
  | none => rfl
  | some i => simpa [remap] using remapId_compact flags hact i (hp i rfl)

theorem survivors_allActive {α : Type} (flags : List Bool) (xs : List α)
    (hact : ∀ b ∈ flags, b = true) (hlen : flags.length = xs.length) :
    survivors flags xs = xs := by
  induction flags generalizing xs with
  | nil =>
    cases xs with
    | nil => rfl
    | cons x xs => simp at hlen
  | cons b rest ih =>
    have hb : b = true := hact b (by simp)
    subst hb
    cases xs with
    | nil => simp at hlen
    | cons x xs =>
      simp only [survivors]
      rw [ih xs (fun b hb => hact b (by simp [hb])) (by simpa using hlen)]

theorem renumberFrom_ids {α : Type} (setId : α → Nat → α) (getId : α → Int)
    (hset : ∀ x (id : Nat), getId x = id → setId x id = x) (xs : List α) (k : Nat)
    (hids : xs.map getId = (List.range' k xs.length).map Int.ofNat) :
    renumberFrom setId k xs = xs := by
  induction xs generalizing k with
  | nil => rfl
  | cons x xs ih =>
    simp only [List.map_cons, List.length_cons, List.range'_succ, List.cons.injEq] at hids
    simp only [renumberFrom]
    rw [hset x k hids.1, ih (k + 1) hids.2]

theorem filterMap_self {α : Type} (f : α → Option α) (l : List α)
    (hf : ∀ x ∈ l, f x = some x) : l.filterMap f = l := by
  induction l with
  | nil => rfl
  | cons x xs ih =>
    rw [List.filterMap_cons, hf x (by simp)]
    simp [ih (fun y hy => hf y (by simp [hy]))]

theorem map_self {α : Type} (f : α → α) (l : List α) (hf : ∀ x ∈ l, f x = x) :
    l.map f = l := by
  induction l with
  | nil => rfl
  | cons x xs ih =>
    simp [hf x (by simp), ih (fun y hy => hf y (by simp [hy]))]

theorem zip_filterMap_self (edges : List (Nat × Nat)) (flags : List Bool)
    (f : (Nat × Nat) × Bool → Option ((Nat × Nat) × Bool))
    (hf : ∀ ef ∈ edges.zip flags, f ef = some ef) (hlen : flags.length = edges.length) :
    ((edges.zip flags).filterMap f).map Prod.fst = edges ∧
    ((edges.zip flags).filterMap f).map Prod.snd = flags := by
  rw [filterMap_self f _ hf]
  constructor
  · exact List.map_fst_zip _ _ (by omega)
  · exact List.map_snd_zip _ _ (by omega)

/-- C12: on a mesh object that satisfies the representation invariant (flags
aligned with the slots, stored identities equal to positions, references null
or in range) and has no inactive element, `garbageCollection` of any kind
(vertex, half-edge, edge, face) returns the mesh object unchanged: every
element keeps its identity and every link its value. -/
theorem garbageCollection_noop (o : zObjMesh) (hwf : WellFormed o) (hact : AllActive o)
    (type : zHEData) : garbageCollection o type = o := by
  obtain ⟨hV, hH, hE, hF⟩ := hact
  obtain ⟨m, vA, hA, eA, fA⟩ := o
  obtain ⟨verts, hes, edges, faces, hmap⟩ := m
  obtain ⟨lv, lh, le, lf, iv, ih, ifa, kv, kh, kf, ke, kl⟩ := hwf
  simp only [zMesh.numVertices, zMesh.numHalfEdges, zMesh.numEdges, zMesh.numPolygons]
    at lv lh le lf iv ih ifa kv kh kf ke kl hV hH hE hF
  cases type with
  | zVertexData =>
    have h1 : renumberFrom (fun (vp : zVertex × zVector) id => ({ vp.1 with vertexId := id }, vp.2))
        0 (survivors vA verts) = verts := by
      rw [survivors_allActive vA verts hV lv]
      refine renumberFrom_ids _ (fun vp => vp.1.vertexId) ?_ verts 0 (by simpa [List.range_eq_range'] using iv)
      rintro ⟨⟨id0, e0⟩, p⟩ id hid
      simp only at hid
      subst hid
      rfl
    have h2 : hes.map (fun e => { e with v := remap (compact vA) e.v }) = hes := by
      refine map_self _ _ ?_
      intro e he
      rw [remap_compact vA hV e.v (lv ▸ (kh e he).1)]
    have h3 : hmap.filterMap (fun kh => do
          let a ← remapId (compact vA) kh.1.1
          let b ← remapId (compact vA) kh.1.2
          some ((a, b), kh.2)) = hmap := by
      refine filterMap_self _ _ ?_
      rintro ⟨⟨a, b⟩, h⟩ hmem
      obtain ⟨ha, hb, _⟩ := kl _ hmem
      simp only at ha hb
      simp [remapId_compact vA hV a (lv ▸ ha), remapId_compact vA hV b (lv ▸ hb)]
    simp only [garbageCollection, h1, h2, h3, survivors_allActive vA vA hV rfl]
  | zHalfEdgeData =>
    have h1 : verts.map (fun vp => (({ vp.1 with e := remap (compact hA) vp.1.e } : zVertex), vp.2))
        = verts := by
      refine map_self _ _ ?_
      rintro ⟨v, p⟩ hvp
      have := kv _ hvp
      simp only at this
      simp only [remap_compact hA hH v.e (lh ▸ this)]
    have h2 : renumberFrom (fun (e : zEdge) id => { e with edgeId := id }) 0
        (survivors hA (hes.map (fun e =>
          { e with sym := remap (compact hA) e.sym, next := remap (compact hA) e.next, prev := remap (compact hA) e.prev }))) = hes := by
      have hm : hes.map (fun e =>
          { e with sym := remap (compact hA) e.sym, next := remap (compact hA) e.next, prev := remap (compact hA) e.prev }) = hes := by
        refine map_self _ _ ?_
        intro e he
        obtain ⟨_, h2, h3, h4, _⟩ := kh e he
        rw [remap_compact hA hH e.sym (lh ▸ h2), remap_compact hA hH e.next (lh ▸ h3),
          remap_compact hA hH e.prev (lh ▸ h4)]
      rw [hm, survivors_allActive hA hes hH lh]
      refine renumberFrom_ids _ zEdge.edgeId ?_ hes 0 (by simpa [List.range_eq_range'] using ih)
      intro e id hid
      cases e
      simp only at hid
      subst hid
      rfl
    have h3 : faces.map (fun f => ({ f with e := remap (compact hA) f.e } : zFace)) = faces := by
      refine map_self _ _ ?_
      intro f hf
      rw [remap_compact hA hH f.e (lh ▸ kf f hf)]
    have h4 : hmap.filterMap (fun kh =>
        (remapId (compact hA) kh.2).map (fun h => (kh.1, h))) = hmap := by
      refine filterMap_self _ _ ?_
      rintro ⟨k, h⟩ hmem
      obtain ⟨_, _, hh⟩ := kl _ hmem
      simp only at hh
      simp [remapId_compact hA hH h (lh ▸ hh)]
    obtain ⟨h5, h6⟩ := zip_filterMap_self edges eA (fun ef => do
        let a ← remapId (compact hA) ef.1.1
        let b ← remapId (compact hA) ef.1.2
        some ((a, b), ef.2)) (by
          rintro ⟨⟨a, b⟩, fl⟩ hmem
          obtain ⟨ha, hb⟩ := ke _ (List.of_mem_zip hmem).1
          simp only at ha hb
          simp [remapId_compact hA hH a (lh ▸ ha), remapId_compact hA hH b (lh ▸ hb)]) le
    simp only [garbageCollection, h1, h2, h3, h4, h5, h6, survivors_allActive hA hA hH rfl]
  | zEdgeData =>
    simp only [garbageCollection, survivors_allActive eA edges hE le,
      survivors_allActive eA eA hE rfl]
  | zFaceData =>
    have h1 : hes.map (fun e => { e with f := remap (compact fA) e.f }) = hes := by
      refine map_self _ _ ?_
      intro e he
      rw [remap_compact fA hF e.f (lf ▸ (kh e he).2.2.2.2)]
    have h2 : renumberFrom (fun (f : zFace) id => { f with faceId := id }) 0
        (survivors fA faces) = faces := by
      rw [survivors_allActive fA faces hF lf]
      refine renumberFrom_ids _ zFace.faceId ?_ faces 0 (by simpa [List.range_eq_range'] using ifa)
      intro f id hid
      cases f
      simp only at hid
      subst hid
      rfl
    simp only [garbageCollection, h1, h2, survivors_allActive fA fA hF rfl]

theorem garbageCollection_noop_witness :
    (WellFormed pillow ∧ AllActive pillow) ∧
    ∀ type, garbageCollection pillow type = pillow :=
  ⟨⟨⟨by decide!, by decide!, by decide!, by decide!, by decide!, by decide!, by decide!,
      by decide!, by decide!, by decide!, by decide!, by decide!⟩,
    by decide!, by decide!, by decide!, by decide!⟩,
    fun type => garbageCollection_noop pillow
      ⟨by decide!, by decide!, by decide!, by decide!, by decide!, by decide!, by decide!,
        by decide!, by decide!, by decide!, by decide!, by decide!⟩
      ⟨by decide!, by decide!, by decide!, by decide!⟩ type⟩

/-! ### Triangulation of a face -/

theorem loopVertices_forall₂ (s : EdgeStore) (hs ws : List Nat)
    (h : loopVertices s hs = some ws) :
    List.Forall₂ (fun w h => ∃ e, s[h]? = some e ∧ e.v = some w) ws hs := by
  induction hs generalizing ws with
  | nil =>
    simp [loopVertices] at h
    subst h
    exact List.Forall₂.nil
  | cons a hs ih =>
    cases he : s[a]? with
    | none => simp [loopVertices, EdgeStore.read, he] at h
    | some e =>
      cases hv : e.v with
      | none => simp [loopVertices, EdgeStore.read, he, hv] at h
      | some w =>
        cases hr : loopVertices s hs with
        | none => simp [loopVertices, EdgeStore.read, he, hv, hr] at h
        | some vs =>
          simp [loopVertices, EdgeStore.read, he, hv, hr] at h
          subst h
          exact List.Forall₂.cons ⟨e, he, hv⟩ (ih vs hr)

/-- Effect of `releaseFaces` on half-edges of the store: it succeeds, and
exactly the listed half-edges lose their face reference. -/
theorem releaseFaces_records (hs : List Nat) (s : EdgeStore) (hin : ∀ h ∈ hs, h < s.length) :
    ∃ s1, releaseFaces s hs = some s1 ∧ s1.length = s.length ∧
      ∀ j, s1[j]? = if j ∈ hs then (s[j]?).map (fun e => { e with f := none }) else s[j]? := by
  induction hs generalizing s with
  | nil => exact ⟨s, rfl, rfl, by simp⟩
  | cons h hs ih =>
    obtain ⟨s0, h0, hl0, hr0⟩ := setFace_records s h none (hin h (by simp))
    obtain ⟨s1, h1, hl1, hr1⟩ := ih s0 (fun k hk => hl0 ▸ hin k (by simp [hk]))
    refine ⟨s1, by simp [releaseFaces, h0, h1], by omega, ?_⟩
    intro j
    rw [hr1 j, hr0 j]
    by_cases hjh : j = h
    · subst hjh
      by_cases hjm : j ∈ hs
      · cases s[j]? <;> simp [hjm]
      · simp [hjm]
    · by_cases hjm : j ∈ hs
      · simp [hjh, hjm]
      · simp [hjh, hjm]

theorem fanFrom_length (w0 : Nat) (l : List Nat) : (fanFrom w0 l).length = l.length - 1 := by
  induction l with
  | nil => rfl
  | cons a l ih =>
    cases l with
    | nil => rfl
    | cons b rest =>
      simp only [fanFrom, List.length_cons] at ih ⊢
      omega

theorem fanTriangles_length (ws : List Nat) : (fanTriangles ws).length = ws.length - 2 := by
  cases ws with
  | nil => rfl
  | cons w0 rest =>
    simp only [fanTriangles, fanFrom_length, List.length_cons]
    omega

theorem fanFrom_mem (w0 : Nat) (l : List Nat) (p : List Nat) (hp : p ∈ fanFrom w0 l) :
    ∃ a b, p = [w0, a, b] ∧ a ∈ l ∧ b ∈ l := by
  induction l with
  | nil => simp [fanFrom] at hp
  | cons a l ih =>
    cases l with
    | nil => simp [fanFrom] at hp
    | cons b rest =>
      simp only [fanFrom, List.mem_cons] at hp
      rcases hp with rfl | hp
      · exact ⟨a, b, rfl, by simp, by simp⟩
      · obtain ⟨c, d, rfl, hc, hd⟩ := ih hp
        exact ⟨c, d, rfl, List.mem_cons_of_mem _ hc, List.mem_cons_of_mem _ hd⟩

theorem fanTriangles_mem (ws : List Nat) (p : List Nat) (hp : p ∈ fanTriangles ws) :
    p.length = 3 ∧ ∀ v ∈ p, v ∈ ws := by
  cases ws with
  | nil => simp [fanTriangles] at hp
  | cons w0 rest =>
    obtain ⟨a, b, rfl, ha, hb⟩ := fanFrom_mem w0 rest p hp
    refine ⟨rfl, ?_⟩
    intro v hv
    simp only [List.mem_cons, List.mem_singleton, List.not_mem_nil, or_false] at hv
    rcases hv with rfl | rfl | rfl
    · simp
    · exact List.mem_cons_of_mem _ ha
    · exact List.mem_cons_of_mem _ hb

/-- The triangles of a fan cover the polygon: every side of the polygon is a
side of one of the triangles. -/
theorem fanFrom_covers (w0 : Nat) (l : List Nat) (hl : 2 ≤ l.length) :
    ∀ sd ∈ polygonSides (w0 :: l), sd ∈ (fanFrom w0 l).flatMap polygonSides := by
  have haux : ∀ (l : List Nat), 2 ≤ l.length →
      ∀ sd ∈ closedPairs w0 l, sd ∈ (fanFrom w0 l).flatMap polygonSides := by
    intro l
    induction l with
    | nil => simp
    | cons a l ih =>
      cases l with
      | nil => simp
      | cons b rest =>
        intro _ sd hsd
        cases rest with
        | nil =>
          simp only [closedPairs, List.mem_cons, List.mem_singleton, List.not_mem_nil,
            or_false] at hsd
          rcases hsd with rfl | rfl <;> simp [fanFrom, polygonSides, closedPairs]
        | cons c rest =>
          simp only [closedPairs, List.mem_cons] at hsd
          simp only [fanFrom, List.flatMap_cons, List.mem_append]
          rcases hsd with rfl | hsd
          · left
            simp [polygonSides, closedPairs]
          · right
            have := ih (by simp) sd (by simpa [closedPairs] using hsd)
            simpa [fanFrom] using this
  intro sd hsd
  cases l with
  | nil => simp at hl
  | cons a rest =>
    cases rest with
    | nil => simp at hl
    | cons b rest =>
      simp only [polygonSides, closedPairs, List.mem_cons] at hsd
      rcases hsd with rfl | hsd
      · simp [fanFrom, polygonSides, closedPairs]
      · exact haux (a :: b :: rest) hl sd (by simpa [closedPairs] using hsd)

/-- The walk of a face returns a chain of `next` links from the start back to
it, and meets the start only there. -/
theorem faceLoopAux_sound (s : EdgeStore) (h0 : Nat) (fuel cur : Nat) (l : List Nat)
    (h : faceLoopAux s h0 fuel cur = some l) :
    ∃ tl, l = cur :: tl ∧ h0 ∉ tl ∧
      ∀ pr ∈ closedPairs h0 (cur :: tl), ∃ e, s[pr.1]? = some e ∧ e.next = some pr.2 := by
  induction fuel generalizing cur l with
  | zero => simp [faceLoopAux] at h
  | succ k ih =>
    cases he : s[cur]? with
    | none => simp [faceLoopAux, EdgeStore.read, he] at h
    | some e =>
      cases hn : e.next with
      | none => simp [faceLoopAux, EdgeStore.read, he, hn] at h
      | some nxt =>
        by_cases hx : nxt = h0
        · simp [faceLoopAux, EdgeStore.read, he, hn, hx] at h
          subst h
          refine ⟨[], rfl, by simp, ?_⟩
          intro pr hpr
          simp [closedPairs] at hpr
          subst hpr
          exact ⟨e, he, by simp [hn, hx]⟩
        · simp [faceLoopAux, EdgeStore.read, he, hn, hx] at h
          obtain ⟨l1, hl1, rfl⟩ := h
          obtain ⟨tl, rfl, hnot, hch⟩ := ih nxt l1 hl1
          refine ⟨nxt :: tl, rfl, ?_, ?_⟩
          · simp only [List.mem_cons, not_or]
            exact ⟨fun h => hx h.symm, hnot⟩
          · intro pr hpr
            simp only [closedPairs, List.mem_cons] at hpr
            rcases hpr with rfl | hpr
            · exact ⟨e, he, hn⟩
            · exact hch pr hpr

/-- In a chain of `next` links, the part after an element is determined by it. -/
theorem chain_determined (s : EdgeStore) (first : Nat) (x : Nat) (l1 l2 : List Nat)
    (h1 : ∀ pr ∈ closedPairs first (x :: l1), ∃ e, s[pr.1]? = some e ∧ e.next = some pr.2)
    (h2 : ∀ pr ∈ closedPairs first (x :: l2), ∃ e, s[pr.1]? = some e ∧ e.next = some pr.2)
    (hf1 : first ∉ l1) (hf2 : first ∉ l2) : l1 = l2 := by
  induction l1 generalizing x l2 with
  | nil =>
    cases l2 with
    | nil => rfl
    | cons y l2 =>
      obtain ⟨e, he, hn⟩ := h1 (x, first) (by simp [closedPairs])
      obtain ⟨e', he', hn'⟩ := h2 (x, y) (by simp [closedPairs])
      simp only at he hn he' hn'
      rw [he] at he'
      cases he'
      rw [hn] at hn'
      cases hn'
      simp at hf2
  | cons y l1 ih =>
    cases l2 with
    | nil =>
      obtain ⟨e, he, hn⟩ := h1 (x, y) (by simp [closedPairs])
      obtain ⟨e', he', hn'⟩ := h2 (x, first) (by simp [closedPairs])
      simp only at he hn he' hn'
      rw [he] at he'
      cases he'
      rw [hn] at hn'
      cases hn'
      simp at hf1
    | cons z l2 =>
      obtain ⟨e, he, hn⟩ := h1 (x, y) (by simp [closedPairs])
      obtain ⟨e', he', hn'⟩ := h2 (x, z) (by simp [closedPairs])
      simp only at he hn he' hn'
      rw [he] at he'
      cases he'
      rw [hn] at hn'
      cases hn'
      simp only [List.mem_cons, not_or] at hf1 hf2
      have := ih y l2 (fun pr hpr => h1 pr (by simp [closedPairs, hpr]))
        (fun pr hpr => h2 pr (by simp [closedPairs, hpr])) hf1.2 hf2.2
      rw [this]

theorem closedPairs_suffix {α : Type} (first x : α) (l1 l2 : List α) (pr : α × α)
    (h : pr ∈ closedPairs first (x :: l2)) : pr ∈ closedPairs first (l1 ++ x :: l2) := by
  induction l1 with
  | nil => exact h
  | cons a l1 ih =>
    cases l1 with
    | nil =>
      simp only [List.cons_append, List.nil_append, closedPairs, List.mem_cons]
      right
      exact h
    | cons b l1 =>
      simp only [List.cons_append, closedPairs, List.mem_cons]
      right
      exact ih

/-- A chain of `next` links that meets its start only at the end has no
half-edge twice. -/
theorem chain_nodup (s : EdgeStore) (first : Nat) (l : List Nat)
    (h : ∀ pr ∈ closedPairs first l, ∃ e, s[pr.1]? = some e ∧ e.next = some pr.2)
    (hf : first ∉ l.tail) : l.Nodup := by
  induction l with
  | nil => exact List.nodup_nil
  | cons x tl ih =>
    simp only [List.tail_cons] at hf
    have htl : ∀ pr ∈ closedPairs first tl, ∃ e, s[pr.1]? = some e ∧ e.next = some pr.2 := by
      intro pr hpr
      cases tl with
      | nil => simp [closedPairs] at hpr
      | cons y tl => exact h pr (by simp [closedPairs, hpr])
    have hnd : tl.Nodup := ih htl (fun hm => hf (List.mem_of_mem_tail hm))
    refine List.nodup_cons.2 ⟨?_, hnd⟩
    intro hx
    obtain ⟨l1, l2, rfl⟩ := List.append_of_mem hx
    have hfl2 : first ∉ l2 := fun hm => hf (by simp [hm])
    have hfl12 : first ∉ l1 ++ x :: l2 := hf
    have h2 : ∀ pr ∈ closedPairs first (x :: l2),
        ∃ e, s[pr.1]? = some e ∧ e.next = some pr.2 := by
      intro pr hpr
      exact htl pr (closedPairs_suffix first x l1 l2 pr hpr)
    have := chain_determined s first x (l1 ++ x :: l2) l2 h h2 hfl12 hfl2
    have hlen := congrArg List.length this
    simp at hlen
    omega

/-- The boundary half-edges that the traversal of a face returns start with
its reference half-edge, are pairwise distinct, in the store, and linked by
`next` into a closed loop. -/
theorem faceHalfEdges_loop (m : zMesh) (f : zFace) (hs : List Nat)
    (h : m.faceHalfEdges f = some hs) :
    ∃ h0 tl, f.e = some h0 ∧ hs = h0 :: tl ∧ hs.Nodup ∧
      (∀ pr ∈ polygonSides hs, ∃ e, m.halfEdges[pr.1]? = some e ∧ e.next = some pr.2) ∧
      ∀ k ∈ hs, k < m.halfEdges.length := by
  unfold faceHalfEdges at h
  cases hfe : f.e with
  | none => simp [hfe] at h
  | some h0 =>
    simp only [hfe, Option.bind_eq_bind, Option.some_bind] at h
    obtain ⟨tl, rfl, hnot, hch⟩ := faceLoopAux_sound _ _ _ _ _ h
    have hch' : ∀ pr ∈ polygonSides (h0 :: tl),
        ∃ e, m.halfEdges[pr.1]? = some e ∧ e.next = some pr.2 := hch
    refine ⟨h0, tl, rfl, rfl, chain_nodup _ h0 _ hch (by simpa using hnot), hch', ?_⟩
    intro k hk
    have hmem : k ∈ (polygonSides (h0 :: tl)).map Prod.fst := by
      rw [polygonSides_map_fst]
      exact hk
    obtain ⟨pr, hpr, rfl⟩ := List.mem_map.1 hmem
    obtain ⟨e, he, _⟩ := hch' pr hpr
    exact getElem?_lt_length he

theorem forall₂_and_mem_left {α β : Type} {R : α → β → Prop} {l1 L : List α} {l2 : List β}
    (h : List.Forall₂ R l1 l2) (hsub : ∀ a ∈ l1, a ∈ L) :
    List.Forall₂ (fun a b => R a b ∧ a ∈ L) l1 l2 := by
  induction h with
  | nil => exact List.Forall₂.nil
  | cons hr _ ih =>
    exact List.Forall₂.cons ⟨hr, hsub _ (by simp)⟩
      (ih (fun a ha => hsub a (List.mem_cons_of_mem _ ha)))

/-- The diagonals allocated by `addDiagonals` are appended to the store pair
by pair, each forward half-edge running to its vertex and its twin to `w0`,
all bound to no face; nothing else changes. -/
theorem addDiagonals_records (ts : List Nat) (m : zMesh) (w0 : Nat)
    (hw0 : w0 < m.numVertices) (hts : ∀ t ∈ ts, t < m.numVertices) :
    ∃ m1, addDiagonals m w0 ts = some m1 ∧ m1.vertices = m.vertices ∧ m1.faces = m.faces ∧
      m1.halfEdges.length = m.halfEdges.length + 2 * ts.length ∧
      (∀ (h : Nat) (e : zEdge), m.halfEdges[h]? = some e → m1.halfEdges[h]? = some e) ∧
      ∀ (k t : Nat), ts[k]? = some t → ∃ e e1,
        m1.halfEdges[m.halfEdges.length + 2 * k]? = some e ∧ e.v = some t ∧ e.f = none ∧
        m1.halfEdges[m.halfEdges.length + 2 * k + 1]? = some e1 ∧ e1.v = some w0 ∧
        e1.f = none := by
  induction ts generalizing m with
  | nil => exact ⟨m, rfl, rfl, rfl, by simp, fun _ _ h => h, by simp⟩
  | cons t ts ih =>
    have ht : t < m.numVertices := hts t (by simp)
    rcases addEdges_cases m w0 t false hw0 ht with ⟨_, hf, _⟩ | ⟨_, hres⟩
    · cases hf
    · obtain ⟨m1, hadd, hv1, hf1, hl1, hold1, hnew1⟩ := ih (m.withNewEdge w0 t)
        (by simpa [withNewEdge, numVertices] using hw0)
        (fun x hx => by simpa [withNewEdge, numVertices] using hts x (by simp [hx]))
      have hlen : (m.withNewEdge w0 t).halfEdges.length = m.halfEdges.length + 2 := by
        simp [withNewEdge]
      refine ⟨m1, by simp [addDiagonals, hres, hadd], hv1, hf1, ?_,
        fun h e he => hold1 h e (withNewEdge_old m w0 t h e he), ?_⟩
      · rw [hl1, hlen, List.length_cons]
        omega
      · intro k x hk
        cases k with
        | zero =>
          simp only [List.getElem?_cons_zero, Option.some.injEq] at hk
          subst hk
          exact ⟨_, _, hold1 _ _ (withNewEdge_forward m w0 t), rfl, rfl,
            hold1 _ _ (withNewEdge_twin m w0 t), rfl, rfl⟩
        | succ k =>
          simp only [List.getElem?_cons_succ] at hk
          obtain ⟨e, e1, he, hv, hf, he1, hv1', hf1'⟩ := hnew1 k x hk
          rw [hlen] at he he1
          have h1 : m.halfEdges.length + 2 * (k + 1) = m.halfEdges.length + 2 + 2 * k := by
            omega
          rw [h1]
          exact ⟨e, e1, he, hv, hf, he1, hv1', hf1'⟩

/-- Effect of `addFace` on distinct half-edges bound to no face: the new face
is appended and refers to the first of them, they are bound to it and linked
into its closed loop, and no other half-edge changes. -/
theorem addFace_records (m : zMesh) (hs vs : List Nat) (hnd : hs.Nodup)
    (hfree : ∀ h ∈ hs, ∃ e, m.halfEdges[h]? = some e ∧ e.f = none)
    (hvs : List.Forall₂ (fun h v => ∃ e, m.halfEdges[h]? = some e ∧ e.v = some v) hs vs) :
    ∃ m1 fc, addFace m hs = some m1 ∧ m1.vertices = m.vertices ∧ m1.faces = m.faces ++ [fc] ∧
      fc.e = hs.head? ∧ m1.halfEdges.length = m.halfEdges.length ∧
      (∀ h, h ∉ hs → m1.halfEdges[h]? = m.halfEdges[h]?) ∧
      (∀ h ∈ hs, ∃ e2, m1.halfEdges[h]? = some e2 ∧ e2.f = some m.numPolygons) ∧
      LoopOf m1.halfEdges hs vs := by
  obtain ⟨s1, hcl, hl1, hr1⟩ := claimFaces_records m.numPolygons hs m.halfEdges hnd hfree
  have hin : ∀ pr ∈ polygonSides hs, pr.1 < s1.length ∧ pr.2 < s1.length := by
    intro pr hpr
    obtain ⟨h1, h2⟩ := polygonSides_mem _ pr hpr
    obtain ⟨_, he1, _⟩ := hfree _ h1
    obtain ⟨_, he2, _⟩ := hfree _ h2
    rw [hl1]
    exact ⟨getElem?_lt_length he1, getElem?_lt_length he2⟩
  obtain ⟨s2, hlk, hl2, hr2⟩ := linkLoop_records _ s1 hin
  have hin2 : ∀ h ∈ hs, ∃ e e2, m.halfEdges[h]? = some e ∧ s2[h]? = some e2 ∧
      e2.v = e.v ∧ e2.f = some m.numPolygons ∧
      ∀ b, (h, b) ∈ polygonSides hs → e2.next = some b := by
    intro h hh
    obtain ⟨e, he, _⟩ := hfree h hh
    have he1 : s1[h]? = some { e with f := some m.numPolygons } := by
      rw [hr1 h]; simp [hh, he]
    obtain ⟨e2, he2, _, hv2, hf2, _, _, _, hlink⟩ := hr2 h _ he1
    exact ⟨e, e2, he, he2, hv2, hf2, hlink (by rw [polygonSides_map_fst]; exact hnd)⟩
  have hres : addFace m hs = some { m with halfEdges := s2, faces := m.faces ++ [{ zFace.zFace with faceId := m.numPolygons, e := hs.head? }] } := by
    simp [addFace, hcl, hlk]
  refine ⟨_, _, hres, rfl, rfl, rfl, by simp only []; omega, ?_, ?_, ?_⟩
  · intro h hh
    simp only []
    cases he : m.halfEdges[h]? with
    | none =>
      apply List.getElem?_eq_none
      have := List.getElem?_eq_none_iff.1 he
      omega
    | some e =>
      have he1 : s1[h]? = some e := by
        rw [hr1 h]; simp [hh, he]
      obtain ⟨e2, he2, hid, hv2, hf2, hs2, hnext, hprev, _⟩ := hr2 h _ he1
      have hn := hnext (by rw [polygonSides_map_fst]; exact hh)
      have hp := hprev (by
        rw [polygonSides_map_snd]
        intro hx
        exact hh (List.mem_rotate.1 hx))
      rw [he2]
      cases e
      cases e2
      simp_all
  · intro h hh
    obtain ⟨e, e2, _, he2, _, hf2, _⟩ := hin2 h hh
    exact ⟨e2, he2, hf2⟩
  · refine ⟨hnd, ?_, ?_⟩
    · intro pr hpr
      obtain ⟨h1, _⟩ := polygonSides_mem _ pr hpr
      obtain ⟨e, e2, _, he2, _, hf2, hlink⟩ := hin2 pr.1 h1
      exact ⟨e2, he2, hlink pr.2 hpr, by rw [hf2]; simp⟩
    · refine List.Forall₂.imp ?_ (forall₂_and_mem_left hvs (fun _ h => h))
      rintro h v ⟨⟨e, he, hv⟩, hmem⟩
      obtain ⟨e', e2, he', he2, hv2, hf2, _⟩ := hin2 h hmem
      rw [he] at he'
      cases he'
      exact ⟨e2, he2, hv2.trans hv, by rw [hf2]; simp⟩

/-- Effect of `addFaces` on pairwise disjoint loops of distinct half-edges
bound to no face: one face per loop is appended, every half-edge of a loop is
bound to one of the new faces, each new face refers to the closed loop through
its vertices, and no other half-edge changes. -/
theorem addFaces_records (loops polys : List (List Nat)) (m : zMesh)
    (hnd : loops.flatten.Nodup)
    (hfree : ∀ h ∈ loops.flatten, ∃ e, m.halfEdges[h]? = some e ∧ e.f = none)
    (hvs : List.Forall₂ (fun (hs p : List Nat) => ∃ h tl, hs = h :: tl ∧
      List.Forall₂ (fun h v => ∃ e, m.halfEdges[h]? = some e ∧ e.v = some v) hs (p.rotate 1))
      loops polys) :
    ∃ m1 added, addFaces m loops = some m1 ∧ m1.vertices = m.vertices ∧
      m1.faces = m.faces ++ added ∧ m1.halfEdges.length = m.halfEdges.length ∧
      (∀ h, h ∉ loops.flatten → m1.halfEdges[h]? = m.halfEdges[h]?) ∧
      (∀ h ∈ loops.flatten, ∃ e2 F, m1.halfEdges[h]? = some e2 ∧ e2.f = some F ∧
        m.numPolygons ≤ F ∧ F < m.numPolygons + loops.length) ∧
      AllLoops m1.halfEdges added polys := by
  induction loops generalizing m polys with
  | nil =>
    cases hvs
    exact ⟨m, [], rfl, rfl, by simp, rfl, fun _ _ => rfl, by simp, List.Forall₂.nil⟩
  | cons hs rest ih =>
    cases hvs with
    | cons hhead htail =>
    rename_i p polys
    obtain ⟨h0, tl, hhs, hv0⟩ := hhead
    rw [List.flatten_cons, List.nodup_append] at hnd
    obtain ⟨hnd1, hnd2, hdisj⟩ := hnd
    obtain ⟨ma, fc, hadd, hva, hfa, hfce, hla, holda, hnewa, hloopa⟩ :=
      addFace_records m hs (p.rotate 1) hnd1
        (fun h hh => hfree h (by simp [hh])) hv0
    have hkeep : ∀ h ∈ rest.flatten, ma.halfEdges[h]? = m.halfEdges[h]? :=
      fun h hh => holda h (fun hx => hdisj hx hh)
    have hnp : ma.numPolygons = m.numPolygons + 1 := by
      simp [numPolygons, hfa]
    obtain ⟨m1, added, hrec, hv1, hf1, hl1, hold1, hnew1, hloop1⟩ := ih polys ma hnd2
      (fun h hh => by
        rw [hkeep h hh]
        exact hfree h (by simp [hh]))
      (by
        refine List.Forall₂.imp ?_ (forall₂_and_mem_left htail (fun _ h => h))
        rintro l q ⟨⟨h, t, hl, hq⟩, hmem⟩
        refine ⟨h, t, hl, ?_⟩
        refine List.Forall₂.imp ?_ (forall₂_and_mem_left hq (fun _ h => h))
        rintro x v ⟨⟨e, he, hv⟩, hx⟩
        refine ⟨e, ?_, hv⟩
        rw [hkeep x (List.mem_flatten.2 ⟨l, hmem, hx⟩)]
        exact he)
    have hframe : Frame ma.halfEdges m1.halfEdges := by
      intro h e he hf
      rw [hold1 h]
      · exact he
      · intro hh
        obtain ⟨e', he', hf'⟩ := hfree h (by simp [hh])
        rw [← hkeep h hh, he] at he'
        cases he'
        exact hf hf'
    refine ⟨m1, fc :: added, by simp [addFaces, hadd, hrec], hv1.trans hva, ?_, by omega,
      ?_, ?_, ?_⟩
    · rw [hf1, hfa]
      simp
    · intro h hh
      simp only [List.flatten_cons, List.mem_append, not_or] at hh
      rw [hold1 h hh.2, holda h hh.1]
    · intro h hh
      simp only [List.flatten_cons, List.mem_append] at hh
      rcases hh with hh | hh
      · obtain ⟨e2, he2, hf2⟩ := hnewa h hh
        refine ⟨e2, m.numPolygons, ?_, hf2, le_rfl, by simp⟩
        rw [hold1 h (fun hx => hdisj hh hx)]
        exact he2
      · obtain ⟨e2, F, he2, hf2, hlo, hhi⟩ := hnew1 h hh
        refine ⟨e2, F, he2, hf2, by omega, ?_⟩
        simp only [List.length_cons]
        omega
    · refine List.Forall₂.cons ⟨h0, tl, ?_, ?_⟩ hloop1
      · rw [hfce, hhs]
        rfl
      · rw [← hhs]
        exact hframe.loopOf hloopa

/-- The half-edges of the loops of a fan are the boundary half-edges, the
closing half-edge and the diagonals. -/
theorem fanLoops_mem (h0 : Nat) (bs : List Nat) (a d x : Nat)
    (hx : x ∈ (fanLoops h0 a d bs).flatten) :
    x = a ∨ x ∈ bs ∨ x = h0 ∨ (d ≤ x ∧ x < d + 2 * (bs.length - 1)) := by
  induction bs generalizing a d with
  | nil => simp [fanLoops] at hx
  | cons b bs ih =>
    cases bs with
    | nil =>
      simp [fanLoops] at hx
      rcases hx with rfl | rfl | rfl <;> simp
    | cons c rest =>
      simp only [fanLoops, List.flatten_cons, List.mem_append, List.mem_cons,
        List.not_mem_nil, or_false] at hx
      rcases hx with (rfl | rfl | rfl) | hx
      · simp
      · simp
      · right; right; right
        simp only [List.length_cons]
        omega
      · rcases ih d (d + 2) hx with rfl | hm | rfl | ⟨h1, h2⟩
        · right; right; right
          simp only [List.length_cons]
          omega
        · right; left
          exact List.mem_cons_of_mem _ hm
        · simp
        · right; right; right
          simp only [List.length_cons] at h2 ⊢
          omega

/-- The loops of a fan hold every boundary half-edge of the face. -/
theorem fanLoops_covers (h0 : Nat) (bs : List Nat) (a d : Nat) (hne : bs ≠ []) :
    a ∈ (fanLoops h0 a d bs).flatten ∧ h0 ∈ (fanLoops h0 a d bs).flatten ∧
      ∀ b ∈ bs, b ∈ (fanLoops h0 a d bs).flatten := by
  induction bs generalizing a d with
  | nil => exact absurd rfl hne
  | cons b bs ih =>
    cases bs with
    | nil => simp [fanLoops]
    | cons c rest =>
      obtain ⟨_, h2, h3⟩ := ih d (d + 2) (by simp)
      simp only [fanLoops, List.flatten_cons, List.mem_append, List.mem_cons,
        List.not_mem_nil, or_false]
      refine ⟨by simp, Or.inr h2, ?_⟩
      intro x hx
      rcases hx with rfl | hx
      · simp
      · exact Or.inr (h3 x (by simpa using hx))

/-- The loops of a fan over distinct boundary half-edges, with the diagonals
allocated after them, have no half-edge twice. -/
theorem fanLoops_nodup (h0 : Nat) (bs : List Nat) (a d : Nat) (hnd : bs.Nodup)
    (h0bs : h0 ∉ bs) (habs : a ∉ bs) (ha0 : a ≠ h0) (had : a < d) (h0d : h0 < d)
    (hbd : ∀ b ∈ bs, b < d) : (fanLoops h0 a d bs).flatten.Nodup := by
  induction bs generalizing a d with
  | nil => simp [fanLoops]
  | cons b bs ih =>
    cases bs with
    | nil =>
      simp only [List.mem_singleton] at habs h0bs
      simp only [fanLoops, List.flatten_cons, List.flatten_nil, List.append_nil,
        List.nodup_cons, List.mem_cons, List.mem_singleton, List.not_mem_nil, not_or,
        List.nodup_nil, and_true, not_false_eq_true]
      exact ⟨⟨habs, ha0⟩, fun h => h0bs h.symm⟩
    | cons c rest =>
      have hb : b < d := hbd b (by simp)
      have hndt : (c :: rest).Nodup := (List.nodup_cons.1 hnd).2
      have hbn : b ∉ c :: rest := (List.nodup_cons.1 hnd).1
      have hrec := ih d (d + 2) hndt (fun h => h0bs (List.mem_cons_of_mem _ h))
        (fun h => by have := hbd d (List.mem_cons_of_mem _ h); omega) (by omega) (by omega)
        (by omega) (fun x hx => by have := hbd x (List.mem_cons_of_mem _ hx); omega)
      simp only [fanLoops, List.flatten_cons]
      rw [List.nodup_append]
      refine ⟨?_, hrec, ?_⟩
      · simp only [List.nodup_cons, List.mem_cons, List.mem_singleton, List.not_mem_nil,
          not_or, List.nodup_nil, and_true, not_false_eq_true]
        refine ⟨⟨fun h => habs (by simp [h]), by omega⟩, by omega⟩
      · intro x hx1 hx2
        have hcase := fanLoops_mem h0 (c :: rest) d (d + 2) x hx2
        simp only [List.mem_cons, List.mem_singleton, List.not_mem_nil, or_false] at hx1
        rcases hx1 with rfl | rfl | rfl
        · rcases hcase with h | h | h | h
          · omega
          · exact habs (List.mem_cons_of_mem _ h)
          · exact ha0 h
          · omega
        · rcases hcase with h | h | h | h
          · omega
          · exact hbn h
          · exact h0bs (by simp [h])
          · omega
        · rcases hcase with h | h | h | h
          · omega
          · have := hbd _ (List.mem_cons_of_mem _ h); omega
          · omega
          · omega

/-- The loops of a fan run through the vertices of its triangles: the loop of
each triangle holds the half-edges to its second vertex, to its third vertex
and back to the first. -/
theorem fanLoops_vertices (s : EdgeStore) (h0 w0 : Nat)
    (hv0 : ∃ e, s[h0]? = some e ∧ e.v = some w0) (bs wbs : List Nat)
    (hvb : List.Forall₂ (fun h v => ∃ e, s[h]? = some e ∧ e.v = some v) bs wbs)
    (a wa d : Nat) (hva : ∃ e, s[a]? = some e ∧ e.v = some wa)
    (hdiag : ∀ k t, wbs.dropLast[k]? = some t →
      (∃ e, s[d + 2 * k]? = some e ∧ e.v = some t) ∧
      (∃ e, s[d + 2 * k + 1]? = some e ∧ e.v = some w0)) :
    List.Forall₂ (fun (hs p : List Nat) => ∃ h tl, hs = h :: tl ∧
      List.Forall₂ (fun h v => ∃ e, s[h]? = some e ∧ e.v = some v) hs (p.rotate 1))
      (fanLoops h0 a d bs) (fanFrom w0 (wa :: wbs)) := by
  induction hvb generalizing a wa d with
  | nil => exact List.Forall₂.nil
  | cons hb hrest ih =>
    rename_i b wb bs wbs
    cases hrest with
    | nil =>
      refine List.Forall₂.cons ⟨a, [b, h0], rfl, ?_⟩ List.Forall₂.nil
      exact List.Forall₂.cons hva (List.Forall₂.cons hb (List.Forall₂.cons hv0 List.Forall₂.nil))
    | cons hc hrest2 =>
      rename_i c wc rest wrest
      obtain ⟨hd0, hd1⟩ := hdiag 0 wb (by simp [List.dropLast])
      refine List.Forall₂.cons ⟨a, [b, d + 1], rfl, ?_⟩ ?_
      · exact List.Forall₂.cons hva
          (List.Forall₂.cons hb (List.Forall₂.cons hd1 List.Forall₂.nil))
      · refine ih d wb (d + 2) hd0 ?_
        intro k t hk
        have := hdiag (k + 1) t (by simpa [List.dropLast] using hk)
        have e1 : d + 2 * (k + 1) = d + 2 + 2 * k := by omega
        rw [e1] at this
        exact this

theorem fanLoops_length (h0 : Nat) (bs : List Nat) (a d : Nat) :
    (fanLoops h0 a d bs).length = bs.length := by
  induction bs generalizing a d with
  | nil => rfl
  | cons b bs ih =>
    cases bs with
    | nil => rfl
    | cons c rest =>
      simp only [fanLoops, List.length_cons]
      have := ih d (d + 2)
      simp only [List.length_cons] at this
      omega

/-- C11: on a well-formed mesh object, for every active face with `n ≥ 3`
boundary vertices `ws`, `faceTriangulate` returns; the mesh has exactly `n - 2`
new faces, appended and active, the original face is deactivated; the new
faces are the triangles of the fan from the first boundary vertex, each one a
closed loop through 3 of the boundary vertices, and they cover the face: every
side of the face is a side of one triangle and every boundary half-edge of the
face is bound to one of the new faces; the vertices and the half-edges off the
boundary are unchanged. -/
theorem faceTriangulate_fan (o : zObjMesh) (face : Nat) (f : zFace) (ws : List Nat)
    (hwf : WellFormed o) (hact : isActive o.faceActive face = true)
    (hf : o.mesh.faces[face]? = some f) (hws : o.mesh.faceVertices f = some ws)
    (hn : 3 ≤ ws.length) :
    ∃ o1 added hs, faceTriangulate o face = some o1 ∧
      o.mesh.faceHalfEdges f = some hs ∧
      o1.mesh.faces = o.mesh.faces ++ added ∧ added.length = ws.length - 2 ∧
      o1.faceActive = o.faceActive.set face false ++ List.replicate (ws.length - 2) true ∧
      isActive o1.faceActive face = false ∧
      o1.mesh.faceLoopsOf added = some ((fanTriangles ws).map (fun p => p.rotate 1)) ∧
      (∀ p ∈ fanTriangles ws, p.length = 3 ∧ ∀ v ∈ p, v ∈ ws) ∧
      (∀ sd ∈ polygonSides ws, sd ∈ (fanTriangles ws).flatMap polygonSides) ∧
      (∀ h ∈ hs, ∃ e F, o1.mesh.halfEdges[h]? = some e ∧ e.f = some F ∧
        o.mesh.numPolygons ≤ F ∧ F < o.mesh.numPolygons + (ws.length - 2)) ∧
      o1.mesh.vertices = o.mesh.vertices ∧
      ∀ h, h < o.mesh.numHalfEdges → h ∉ hs →
        o1.mesh.halfEdges[h]? = o.mesh.halfEdges[h]? := by
  -- the boundary loop of the face
  cases hhs : o.mesh.faceHalfEdges f with
  | none => simp [faceVertices, hhs] at hws
  | some hs =>
  have hlv : loopVertices o.mesh.halfEdges hs = some ws := by
    simpa [faceVertices, hhs] using hws
  obtain ⟨h0', tl, -, hhd, hnd, -, hrange⟩ := faceHalfEdges_loop o.mesh f hs hhs
  have hvw := loopVertices_forall₂ _ _ _ hlv
  have hlen := hvw.length_eq
  have hvh : List.Forall₂ (fun h w => ∃ e, o.mesh.halfEdges[h]? = some e ∧ e.v = some w)
      hs ws := hvw.flip
  have hwr : ∀ w ∈ ws, w < o.mesh.numVertices := by
    intro w hw
    obtain ⟨h, _, e, he, hv⟩ := forall₂_right_mem hvh hw
    exact (hwf.halfEdgeLinks e (List.getElem?_mem he)).1 w (by simp [hv])
  clear hhd h0' tl
  rcases ws with _ | ⟨w0, _ | ⟨w1, _ | ⟨w2, wr⟩⟩⟩
  · simp at hn
  · simp at hn
  · simp at hn
  rcases hs with _ | ⟨h0, _ | ⟨h1, _ | ⟨h2, rest⟩⟩⟩
  · simp at hlen
  · simp at hlen
  · simp at hlen
  have hlenr : rest.length = wr.length := by
    simp only [List.length_cons] at hlen
    omega
  -- releasing the boundary half-edges
  obtain ⟨s1, hrel, hl1, hr1⟩ := releaseFaces_records (h0 :: h1 :: h2 :: rest) o.mesh.halfEdges
    hrange
  -- the diagonals
  obtain ⟨m1, hdia, hv1, hf1, hlm1, hold1, hnew1⟩ :=
    addDiagonals_records (w2 :: wr).dropLast { o.mesh with halfEdges := s1 } w0
      (hwr w0 (by simp))
      (fun t ht => hwr t (by
        have := List.mem_of_mem_dropLast ht
        simp only [List.mem_cons] at this ⊢
        tauto))
  have hbase : ({ o.mesh with halfEdges := s1 } : zMesh).halfEdges.length =
      o.mesh.numHalfEdges := hl1
  rw [hbase] at hlm1 hnew1
  have hts : (w2 :: wr).dropLast.length = rest.length := by
    simp [hlenr]
  have hrec1 : ∀ h ∈ h0 :: h1 :: h2 :: rest, ∀ e, o.mesh.halfEdges[h]? = some e →
      m1.halfEdges[h]? = some { e with f := none } := by
    intro h hh e he
    apply hold1
    show s1[h]? = _
    rw [hr1 h]
    simp [hh, he]
  have hrecv : ∀ h w, h ∈ h0 :: h1 :: h2 :: rest →
      (∃ e, o.mesh.halfEdges[h]? = some e ∧ e.v = some w) →
      ∃ e, m1.halfEdges[h]? = some e ∧ e.v = some w := by
    rintro h w hh ⟨e, he, hv⟩
    exact ⟨_, hrec1 h hh e he, hv⟩
  have hnd' := hnd
  simp only [List.nodup_cons, List.mem_cons, not_or] at hnd'
  obtain ⟨⟨h01, h02, h0r⟩, ⟨h12, h1r⟩, h2r, hndr⟩ := hnd'
  have hr0 : h0 < o.mesh.numHalfEdges := hrange h0 (by simp)
  have hrg1 : h1 < o.mesh.numHalfEdges := hrange h1 (by simp)
  have hrgb : ∀ b ∈ h2 :: rest, b < o.mesh.numHalfEdges :=
    fun b hb => hrange b (by simp only [List.mem_cons] at hb ⊢; tauto)
  have hdiagrec : ∀ k, k < rest.length → ∃ t e e1, (w2 :: wr).dropLast[k]? = some t ∧
      m1.halfEdges[o.mesh.numHalfEdges + 2 * k]? = some e ∧ e.v = some t ∧ e.f = none ∧
      m1.halfEdges[o.mesh.numHalfEdges + 2 * k + 1]? = some e1 ∧ e1.v = some w0 ∧
      e1.f = none := by
    intro k hk
    have hk' : k < (w2 :: wr).dropLast.length := by omega
    obtain ⟨e, e1, h⟩ := hnew1 k _ (List.getElem?_eq_getElem hk')
    exact ⟨_, e, e1, List.getElem?_eq_getElem hk', h⟩
  -- the loops of the fan
  have hfl_nd : (fanLoops h0 h1 o.mesh.numHalfEdges (h2 :: rest)).flatten.Nodup :=
    fanLoops_nodup h0 (h2 :: rest) h1 _ (List.nodup_cons.2 ⟨h2r, hndr⟩)
      (by simp only [List.mem_cons, not_or]; exact ⟨h02, h0r⟩)
      (by simp only [List.mem_cons, not_or]; exact ⟨h12, h1r⟩)
      (fun h => h01 h.symm) hrg1 hr0 hrgb
  have hfl_old : ∀ x ∈ (fanLoops h0 h1 o.mesh.numHalfEdges (h2 :: rest)).flatten,
      x ∈ h0 :: h1 :: h2 :: rest ∨ o.mesh.numHalfEdges ≤ x := by
    intro x hx
    rcases fanLoops_mem _ _ _ _ _ hx with rfl | hm | rfl | ⟨hlo, -⟩
    · simp
    · left
      simp only [List.mem_cons] at hm ⊢
      tauto
    · simp
    · exact Or.inr hlo
  have hfl_free : ∀ x ∈ (fanLoops h0 h1 o.mesh.numHalfEdges (h2 :: rest)).flatten,
      ∃ e, m1.halfEdges[x]? = some e ∧ e.f = none := by
    intro x hx
    have hold : x ∈ h0 :: h1 :: h2 :: rest → ∃ e, m1.halfEdges[x]? = some e ∧ e.f = none := by
      intro hm
      have hxl : x < o.mesh.halfEdges.length := hrange x hm
      exact ⟨_, hrec1 x hm _ (List.getElem?_eq_getElem hxl), rfl⟩
    rcases fanLoops_mem _ _ _ _ _ hx with rfl | hm | rfl | ⟨hlo, hhi⟩
    · exact hold (by simp)
    · exact hold (by simp only [List.mem_cons] at hm ⊢; tauto)
    · exact hold (by simp)
    · simp only [List.length_cons, Nat.add_sub_cancel] at hhi
      obtain ⟨t, e, e1, -, he, -, hfe, he1, -, hfe1⟩ :=
        hdiagrec ((x - o.mesh.numHalfEdges) / 2) (by omega)
      rcases Nat.mod_two_eq_zero_or_one (x - o.mesh.numHalfEdges) with hpar | hpar
      · have hx' : x = o.mesh.numHalfEdges + 2 * ((x - o.mesh.numHalfEdges) / 2) := by omega
        rw [← hx'] at he
        exact ⟨e, he, hfe⟩
      · have hx' : x = o.mesh.numHalfEdges + 2 * ((x - o.mesh.numHalfEdges) / 2) + 1 := by
          omega
        rw [← hx'] at he1
        exact ⟨e1, he1, hfe1⟩
  have hvh' := forall₂_and_mem_left hvh (fun _ h => h)
  have hfl_vs := fanLoops_vertices m1.halfEdges h0 w0
    (by
      cases hvh' with
      | cons hd _ => exact hrecv _ _ hd.2 hd.1)
    (h2 :: rest) (w2 :: wr)
    (by
      cases hvh' with
      | cons _ t1 =>
        cases t1 with
        | cons _ t2 =>
          refine List.Forall₂.imp ?_ t2
          rintro h w ⟨hr, hm⟩
          exact hrecv h w hm hr)
    h1 w1 o.mesh.numHalfEdges
    (by
      cases hvh' with
      | cons _ t1 =>
        cases t1 with
        | cons hd _ => exact hrecv _ _ hd.2 hd.1)
    (by
      intro k t hk
      have hk' : k < rest.length := by
        have := (List.getElem?_eq_some_iff.1 hk).1
        omega
      obtain ⟨t', e, e1, ht', he, hve, -, he1, hve1, -⟩ := hdiagrec k hk'
      rw [hk] at ht'
      cases ht'
      exact ⟨⟨e, he, hve⟩, ⟨e1, he1, hve1⟩⟩)
  obtain ⟨m2, added, hfaces, hv2, hf2, hl2, hold2, hnew2, hloops⟩ :=
    addFaces_records _ _ m1 hfl_nd hfl_free hfl_vs
  have hnp1 : m1.numPolygons = o.mesh.numPolygons := by
    simp [numPolygons, hf1]
  have hadded : added.length = (w0 :: w1 :: w2 :: wr).length - 2 := by
    have := hloops.length_eq
    rw [this]
    exact fanTriangles_length (w0 :: w1 :: w2 :: wr)
  have hflen : (fanLoops h0 h1 o.mesh.numHalfEdges (h2 :: rest)).length =
      (w0 :: w1 :: w2 :: wr).length - 2 := by
    rw [fanLoops_length]
    simp [hlenr]
  have hres : faceTriangulate o face =
      some { o.withMesh m2 with faceActive := deactivate (o.withMesh m2).faceActive face } := by
    simp [faceTriangulate, hact, hf, hhs, hlv, hrel, hdia, hfaces]
  have hface : face < o.faceActive.length := by
    rw [hwf.faceFlags]
    exact (List.getElem?_eq_some_iff.1 hf).1
  have hflags : deactivate (o.withMesh m2).faceActive face =
      o.faceActive.set face false ++
        List.replicate ((w0 :: w1 :: w2 :: wr).length - 2) true := by
    have hnp2 : m2.numPolygons - o.faceActive.length = (w0 :: w1 :: w2 :: wr).length - 2 := by
      rw [hwf.faceFlags]
      simp only [numPolygons, hf2, hf1, List.length_append, hadded]
      omega
    simp only [deactivate, withMesh, allocated, hnp2]
    rw [List.set_append_left _ _ hface]
  refine ⟨_, added, _, hres, rfl, ?_, hadded, hflags, ?_, ?_, fanTriangles_mem _,
    fanFrom_covers w0 (w1 :: w2 :: wr) (by simp), ?_, ?_, ?_⟩
  · show m2.faces = _
    rw [hf2, hf1]
  · show isActive (deactivate (o.withMesh m2).faceActive face) face = false
    rw [hflags]
    simp [isActive, List.getD, List.getElem?_append_left, hface]
  · exact faceLoopsOf_of_allLoops m2 added _ hloops
  · intro h hh
    have hmem : h ∈ (fanLoops h0 h1 o.mesh.numHalfEdges (h2 :: rest)).flatten := by
      obtain ⟨c1, c2, c3⟩ := fanLoops_covers h0 (h2 :: rest) h1 o.mesh.numHalfEdges (by simp)
      simp only [List.mem_cons] at hh
      rcases hh with rfl | rfl | hh
      · exact c2
      · exact c1
      · exact c3 h (by simpa using hh)
    obtain ⟨e2, F, he2, hfe2, hlo, hhi⟩ := hnew2 h hmem
    rw [hnp1, hflen] at hhi
    rw [hnp1] at hlo
    exact ⟨e2, F, he2, hfe2, hlo, hhi⟩
  · show m2.vertices = _
    rw [hv2, hv1]
  · intro h hlt hnot
    show m2.halfEdges[h]? = _
    rw [hold2 h (fun hx => by
      rcases hfl_old h hx with hm | hge
      · exact hnot hm
      · omega)]
    have hs1 : s1[h]? = o.mesh.halfEdges[h]? := by
      rw [hr1 h]
      simp [hnot]
    have hlt' : h < o.mesh.halfEdges.length := hlt
    rw [List.getElem?_eq_getElem hlt'] at hs1 ⊢
    exact hold1 h _ hs1

theorem faceTriangulate_fan_witness :
    (isActive pentagon.faceActive 0 = true ∧
      pentagon.mesh.faces[0]? = some { faceId := 0, e := some 0 } ∧
      pentagon.mesh.faceVertices { faceId := 0, e := some 0 } = some [1, 2, 3, 4, 0] ∧
      3 ≤ [1, 2, 3, 4, 0].length) ∧
    ∃ o1 added hs, faceTriangulate pentagon 0 = some o1 ∧
      pentagon.mesh.faceHalfEdges { faceId := 0, e := some 0 } = some hs ∧
      o1.mesh.faces = pentagon.mesh.faces ++ added ∧
      added.length = [1, 2, 3, 4, 0].length - 2 ∧
      o1.faceActive = pentagon.faceActive.set 0 false ++
        List.replicate ([1, 2, 3, 4, 0].length - 2) true ∧
      isActive o1.faceActive 0 = false ∧
      o1.mesh.faceLoopsOf added =
        some ((fanTriangles [1, 2, 3, 4, 0]).map (fun p => p.rotate 1)) ∧
      (∀ p ∈ fanTriangles [1, 2, 3, 4, 0], p.length = 3 ∧ ∀ v ∈ p, v ∈ [1, 2, 3, 4, 0]) ∧
      (∀ sd ∈ polygonSides [1, 2, 3, 4, 0],
        sd ∈ (fanTriangles [1, 2, 3, 4, 0]).flatMap polygonSides) ∧
      (∀ h ∈ hs, ∃ e F, o1.mesh.halfEdges[h]? = some e ∧ e.f = some F ∧
        pentagon.mesh.numPolygons ≤ F ∧
        F < pentagon.mesh.numPolygons + ([1, 2, 3, 4, 0].length - 2)) ∧
      o1.mesh.vertices = pentagon.mesh.vertices ∧
      ∀ h, h < pentagon.mesh.numHalfEdges → h ∉ hs →
        o1.mesh.halfEdges[h]? = pentagon.mesh.halfEdges[h]? :=
  ⟨⟨by decide!, by decide!, by decide!, by decide!⟩,
    faceTriangulate_fan pentagon 0 { faceId := 0, e := some 0 } [1, 2, 3, 4, 0]
      ⟨by decide!, by decide!, by decide!, by decide!, by decide!, by decide!, by decide!,
        by decide!, by decide!, by decide!, by decide!, by decide!⟩
      (by decide!) (by decide!) (by decide!) (by decide!)⟩

/-- The triangulation of the pentagon, evaluated: the face `0` is inactive,
the faces `1`, `2`, `3` are active, there are 5 vertices, 14 half-edges and 4
face slots, and the vertex loops of the new faces are the triangles of the
fan from the vertex `1`, the first of the boundary loop `1 2 3 4 0`. -/
theorem faceTriangulate_pentagon :
    (faceTriangulate pentagon 0).map (fun o1 => o1.faceActive) =
      some [false, true, true, true] ∧
    (faceTriangulate pentagon 0).map (fun o1 =>
      (o1.mesh.numVertices, o1.mesh.numHalfEdges, o1.mesh.numPolygons)) = some (5, 14, 4) ∧
    (faceTriangulate pentagon 0).bind (fun o1 => o1.mesh.faceLoopsOf (o1.mesh.faces.drop 1)) =
      some [[2, 3, 1], [3, 4, 1], [4, 0, 1]] :=
  ⟨by decide!, by decide!, by decide!⟩

end zObjMesh

end zSpace
